import Mathlib

/-! # GenomisDB: the Variant / VariantCall record model

A shallow embedding of `src/variant/include/variant.h` and
`src/variant/src/variant.cc`.

Conventions of the embedding.

* `std::vector<T>` is a `List T`; `std::unique_ptr<VariantFieldBase>` is an
  `Option VariantFieldBase` (`none` is the null pointer, an empty slot).
* `uint64_t` / `unsigned` values are `Nat`.  Every counter of the embedded code
  is bounded by the size of a vector, so no arithmetic of the embedded
  functions can wrap.
* `assert(...)` is modelled by `Outcome`: an operation either runs to its end
  (`ok s`) or stops at a failed assertion (`assert_failed s`), where `s` is the
  state of the objects involved at that moment.
* `std::ostream` is the `String` of everything written so far.
-/

set_option autoImplicit false

namespace GenomisDB

/-! ## Outcome of an operation guarded by assertions -/

/-- Result of running an operation that contains `assert`s: `ok s` when it ran
to its end leaving state `s`, `assert_failed s` when an assertion fired while
the state was `s`. -/
inductive Outcome (σ : Type) where
  | ok (s : σ) : Outcome σ
  | assert_failed (s : σ) : Outcome σ
  deriving Repr, DecidableEq

namespace Outcome

/-- True when the operation ran to its end. -/
def succeeded {σ : Type} : Outcome σ → Bool
  | ok _ => true
  | assert_failed _ => false

/-- The state the operation left behind (at its end, or at the failed assertion). -/
def state {σ : Type} : Outcome σ → σ
  | ok s => s
  | assert_failed s => s

end Outcome

/-! ## Collaborator types whose headers are not among the sources -/

/-- Modelled from the spec: `variant_field_data.h` is not among the sources.
Field Storage is "a polymorphic container for one decoded field's value(s) for
one call, opaque to the engine beyond a capability to be printed".  `payload`
stands for the decoded content, `printed` is the text `print(fptr)` writes. -/
structure VariantFieldBase where
  payload : List Nat
  printed : String
  deriving Repr, DecidableEq

/-- Modelled from the spec: `variant_query_config.h` is not among the sources.
The Query Configuration is a "static, read-only description of which
attributes are queried, the mapping from query row index to array row index,
and the total row count".  Each field is the value the accessor of the same
name returns; `get_array_row_idx_for_query_row_idx` gives the value as it is
stored into the `uint64_t` row index of a call. -/
structure VariantQueryConfig where
  is_bookkeeping_done : Bool
  get_num_rows_to_query : Nat
  get_num_queried_attributes : Nat
  get_array_row_idx_for_query_row_idx : Nat → Nat
  get_query_attribute_name : Nat → String

/-! ## `std::vector` helpers -/

/-- `std::vector::resize(n)`: keep the first `n` elements, pad with
value-initialised elements `d` up to size `n`. -/
def vector_resize {α : Type} (v : List α) (n : Nat) (d : α) : List α :=
  v.take n ++ List.replicate (n - v.length) d

/-- A counted loop `for(i = 0; i < n; ++i) body(i)` over a state `σ`. -/
def for_upto {σ : Type} (n : Nat) (body : Nat → σ → σ) (s : σ) : σ :=
  (List.range n).foldl (fun acc i => body i acc) s

/-! ## PQStruct and its comparator (variant.h, lines 13-31) -/

/-- `class PQStruct` (variant.h:13). -/
structure PQStruct where
  m_needs_to_be_processed : Bool
  m_end_point : Int
  m_array_row_idx : Int
  m_array_column : Int
  m_cell_pos : Nat
  m_tile_idx : Nat
  deriving Repr, DecidableEq

/-- `CmpPQStruct::operator()` (variant.h:28): `x->m_end_point > y->m_end_point`. -/
def CmpPQStruct (x y : PQStruct) : Bool :=
  decide (x.m_end_point > y.m_end_point)

/-! ## VariantCall (variant.h, lines 36-181) -/

/-- `class VariantCall`: the data members (variant.h:176-180). -/
structure VariantCall where
  m_is_valid : Bool
  m_is_initialized : Bool
  m_row_idx : Nat
  m_fields : List (Option VariantFieldBase)
  deriving Repr, DecidableEq

namespace VariantCall

/-- `VariantCall()` (variant.h:42): invalid, uninitialised, row index
`UNDEFINED_NUM_ROWS_VALUE`, no field slots.  The constant comes from
`gt_common.h`, which is not among the sources, and is taken as a parameter. -/
def default_ctor (UNDEFINED_NUM_ROWS_VALUE : Nat) : VariantCall :=
  { m_is_valid := false, m_is_initialized := false,
    m_row_idx := UNDEFINED_NUM_ROWS_VALUE, m_fields := [] }

/-- `VariantCall(uint64_t rowIdx)` (variant.h:52). -/
def ctor (rowIdx : Nat) : VariantCall :=
  { m_is_valid := false, m_is_initialized := false, m_row_idx := rowIdx, m_fields := [] }

/-- `clear()` (variant.h:79). -/
def clear (c : VariantCall) : VariantCall := { c with m_fields := [] }

/-- `set_row_idx` (variant.h:87). -/
def set_row_idx (c : VariantCall) (rowIdx : Nat) : VariantCall := { c with m_row_idx := rowIdx }

/-- `get_row_idx` (variant.h:88). -/
def get_row_idx (c : VariantCall) : Nat := c.m_row_idx

/-- `mark_valid` (variant.h:96). -/
def mark_valid (c : VariantCall) (val : Bool) : VariantCall := { c with m_is_valid := val }

/-- `is_valid` (variant.h:97). -/
def is_valid (c : VariantCall) : Bool := c.m_is_valid

/-- `mark_initialized` (variant.h:101). -/
def mark_initialized (c : VariantCall) (val : Bool) : VariantCall :=
  { c with m_is_initialized := val }

/-- `is_initialized` (variant.h:102). -/
def is_initialized (c : VariantCall) : Bool := c.m_is_initialized

/-- `resize(num_fields)` (variant.h:106): `m_fields.resize(num_fields)`. -/
def resize (c : VariantCall) (num_fields : Nat) : VariantCall :=
  { c with m_fields := vector_resize c.m_fields num_fields none }

/-- `set_field(idx, field)` (variant.h:112).  The state is the call together
with the caller's handle `field`; on success the handle is released. -/
def set_field (c : VariantCall) (idx : Nat) (field : Option VariantFieldBase) :
    Outcome (VariantCall × Option VariantFieldBase) :=
  -- assert(idx < m_fields.size());
  if h : idx < c.m_fields.length then
    -- assert(m_fields[idx].get() == 0);
    if c.m_fields[idx] = none then
      -- ptr = field.release(); m_fields[idx] = unique_ptr(ptr);
      .ok ({ c with m_fields := c.m_fields.set idx field }, none)
    else .assert_failed (c, field)
  else .assert_failed (c, field)

/-- The state a `VariantCall` is left in by the defaulted move constructor
`VariantCall(VariantCall&&)` (variant.h:62): the scalar members are copied, the
vector of slots is moved out and left empty. -/
def moved_from (c : VariantCall) : VariantCall := { c with m_fields := [] }

/-- `VariantCall::reset_for_new_interval` (variant.cc:12). -/
def reset_for_new_interval (c : VariantCall) : VariantCall :=
  { c with m_is_initialized := false, m_is_valid := false }

end VariantCall

/-! ## Variant (variant.h, lines 186-366) -/

/-- `class Variant`: the data members (variant.h:362-365). -/
structure Variant where
  m_calls : List VariantCall
  m_query_config : Option VariantQueryConfig
  m_col_begin : Nat
  m_col_end : Nat

namespace Variant

/-- `clear()` (variant.h:266): clears every call, then the vector of calls. -/
def clear (v : Variant) : Variant :=
  let cleared := { v with m_calls := v.m_calls.map VariantCall.clear }
  { cleared with m_calls := [] }

/-- `set_column_interval` (variant.h:239). -/
def set_column_interval (v : Variant) (col_begin col_end : Nat) : Variant :=
  { v with m_col_begin := col_begin, m_col_end := col_end }

/-- `get_num_calls` (variant.h:318). -/
def get_num_calls (v : Variant) : Nat := v.m_calls.length

/-- `Variant(const VariantQueryConfig* query_config)` (variant.h:230), and with a
null pointer `Variant()` (variant.h:220). -/
def ctor (UNDEFINED_NUM_ROWS_VALUE : Nat) (query_config : Option VariantQueryConfig) : Variant :=
  { m_calls := [], m_query_config := query_config,
    m_col_begin := UNDEFINED_NUM_ROWS_VALUE, m_col_end := UNDEFINED_NUM_ROWS_VALUE }

/-- `get_call_field(call_idx, call_field_idx)` (variant.h:341), read only: the
content of the slot, or `none` when one of the two range assertions fails. -/
def get_call_field (v : Variant) (call_idx call_field_idx : Nat) :
    Option (Option VariantFieldBase) :=
  match v.m_calls[call_idx]? with
  | some c => c.m_fields[call_field_idx]?
  | none => none

/-- The loop of `move_in` (variant.h:359-360), for the current counter `i`:
`for(auto i=0ull;i<m_calls.size();++i) m_calls.emplace_back(std::move(other.get_call(i)));`
The bound is the size of the destination vector `self.m_calls`, as written.
`other.get_call(i)` asserts `i < other.m_calls.size()`. -/
def move_in_loop (self other : Variant) (i : Nat) : Outcome (Variant × Variant) :=
  if i < self.m_calls.length then
    if h : i < other.m_calls.length then
      let c := other.m_calls[i]
      move_in_loop { self with m_calls := self.m_calls ++ [c] }
        { other with m_calls := other.m_calls.set i c.moved_from } (i + 1)
    else .assert_failed (self, other)
  else .ok (self, other)
termination_by other.m_calls.length - i
decreasing_by simp only [List.length_set]; omega

/-- `move_in(Variant& other)` (variant.h:352), which is all `operator=(Variant&&)`
does.  The state is the pair (destination, source). -/
def move_in (self other : Variant) : Outcome (Variant × Variant) :=
  let s1 := { self with m_query_config := other.m_query_config,
                        m_col_begin := other.m_col_begin,
                        m_col_end := other.m_col_end }
  let s2 := s1.clear
  move_in_loop s2 other 0

/-- `resize(num_calls, num_query_call_fields)` (variant.h:312):
`m_calls.resize(num_calls)` appends default-constructed calls or drops the
tail, then every call below `num_calls` has its slot vector resized. -/
def resize (v : Variant) (UNDEFINED_NUM_ROWS_VALUE : Nat)
    (num_calls num_query_call_fields : Nat) : Variant :=
  let resized :=
    vector_resize v.m_calls num_calls (VariantCall.default_ctor UNDEFINED_NUM_ROWS_VALUE)
  let v1 := { v with m_calls := resized }
  for_upto num_calls
    (fun i s =>
      let calls := s.m_calls.modify (fun c => c.resize num_query_call_fields) i
      { s with m_calls := calls }) v1

/-- `resize_based_on_query()` (variant.h:281). -/
def resize_based_on_query (v : Variant) (UNDEFINED_NUM_ROWS_VALUE : Nat) : Outcome Variant :=
  -- assert(m_query_config);
  match v.m_query_config with
  | none => .assert_failed v
  | some cfg =>
    -- assert(m_query_config->is_bookkeeping_done());
    if cfg.is_bookkeeping_done then
      let num_rows := cfg.get_num_rows_to_query
      let v1 := v.resize UNDEFINED_NUM_ROWS_VALUE num_rows cfg.get_num_queried_attributes
      .ok (for_upto num_rows
        (fun i s =>
          let row_idx := cfg.get_array_row_idx_for_query_row_idx i
          let calls := s.m_calls.modify (fun c => c.set_row_idx row_idx) i
          { s with m_calls := calls }) v1)
    else .assert_failed v

/-- `get_call(call_idx)` (variant.h:322) followed by a member call `f` on the
returned reference, such as `mark_valid` or `mark_initialized`. -/
def get_call_and (v : Variant) (call_idx : Nat) (f : VariantCall → VariantCall) :
    Outcome Variant :=
  -- assert(call_idx < m_calls.size());
  if call_idx < v.m_calls.length then
    .ok { v with m_calls := v.m_calls.modify f call_idx }
  else .assert_failed v

/-- `set_call_field(call_idx, call_field_idx, field)` (variant.h:333), called
with a handle `field` that the caller holds outside this Variant.  The state
is the Variant together with that handle.  `set_call_field_ref` below also
covers a handle that is a slot of this Variant. -/
def set_call_field (v : Variant) (call_idx call_field_idx : Nat)
    (field : Option VariantFieldBase) : Outcome (Variant × Option VariantFieldBase) :=
  -- assert(call_idx < m_calls.size());
  if h : call_idx < v.m_calls.length then
    match v.m_calls[call_idx].set_field call_field_idx field with
    | .ok (c, fld) => .ok ({ v with m_calls := v.m_calls.set call_idx c }, fld)
    | .assert_failed (c, fld) =>
      .assert_failed ({ v with m_calls := v.m_calls.set call_idx c }, fld)
  else .assert_failed (v, field)

/-- `Variant::reset_for_new_interval` (variant.cc:6). -/
def reset_for_new_interval (v : Variant) : Variant :=
  { v with m_calls := v.m_calls.map VariantCall.reset_for_new_interval }

end Variant

/-! ## set_call_field with its handle passed by reference

`set_call_field` and `set_field` take `std::unique_ptr<VariantFieldBase>& field`.
The reference can be to a handle outside the Variant, or to a slot of the
Variant itself, as `get_call_field` (variant.h:341) returns one. -/

/-- What the reference `field` refers to: a handle outside the Variant, with
its content, or the slot `get_call_field(call_idx, call_field_idx)` returns. -/
inductive FieldHandle where
  | outside (field : Option VariantFieldBase)
  | slot (call_idx call_field_idx : Nat)
  deriving Repr, DecidableEq

/-- Assignment through a reference to slot `call_field_idx` of call `call_idx`. -/
def Variant.write_slot (v : Variant) (call_idx call_field_idx : Nat)
    (x : Option VariantFieldBase) : Variant :=
  let calls :=
    v.m_calls.modify (fun c => { c with m_fields := c.m_fields.set call_field_idx x }) call_idx
  { v with m_calls := calls }

/-- The content of the handle referred to; `none` when the reference is formed
by a `get_call_field` whose range assertions fail. -/
def FieldHandle.get (v : Variant) : FieldHandle → Option (Option VariantFieldBase)
  | .outside field => some field
  | .slot call_idx call_field_idx => v.get_call_field call_idx call_field_idx

/-- `field.release()`: the handle referred to is left empty. -/
def FieldHandle.release (v : Variant) : FieldHandle → Variant × FieldHandle
  | .outside _ => (v, .outside none)
  | .slot call_idx call_field_idx =>
    (v.write_slot call_idx call_field_idx none, .slot call_idx call_field_idx)

/-- `set_call_field(call_idx, call_field_idx, field)` (variant.h:333) with
`set_field` (variant.h:112) inlined, for a reference `field` of either kind.
The state is the Variant together with the handle. -/
def Variant.set_call_field_ref (v : Variant) (call_idx call_field_idx : Nat)
    (field : FieldHandle) : Outcome (Variant × FieldHandle) :=
  match field.get v with
  | none => .assert_failed (v, field)
  | some held =>
    -- assert(call_idx < m_calls.size());
    if h : call_idx < v.m_calls.length then
      -- assert(idx < m_fields.size());
      if h2 : call_field_idx < v.m_calls[call_idx].m_fields.length then
        -- assert(m_fields[idx].get() == 0);
        if v.m_calls[call_idx].m_fields[call_field_idx] = none then
          -- VariantFieldBase* ptr = field.release();
          let released := field.release v
          -- m_fields[idx] = std::move(std::unique_ptr<VariantFieldBase>(ptr));
          .ok (released.1.write_slot call_idx call_field_idx held, released.2)
        else .assert_failed (v, field)
      else .assert_failed (v, field)
    else .assert_failed (v, field)

/-! ## ValidVariantCallIter (variant.h, lines 189-215)

A `std::vector<VariantCall>::const_iterator` is the offset from
`m_calls.begin()`.  Dereferencing an offset that is not below the size of the
vector has no defined behaviour; the functions return `none` there. -/

/-- `class ValidVariantCallIter`: the data members (variant.h:212-214). -/
structure ValidVariantCallIter where
  m_iter_position : Nat
  m_end : Nat
  m_call_idx_in_variant : Nat
  deriving Repr, DecidableEq

namespace ValidVariantCallIter

/-- The `for` loop of `operator++` (variant.h:207):
`for(;m_iter_position != m_end && !((*m_iter_position).is_valid());++m_iter_position,++m_call_idx_in_variant);` -/
def skip_invalid (calls : List VariantCall) (it : ValidVariantCallIter) :
    Option ValidVariantCallIter :=
  if it.m_iter_position ≠ it.m_end then
    if h : it.m_iter_position < calls.length then
      if !(calls[it.m_iter_position].is_valid) then
        skip_invalid calls { it with m_iter_position := it.m_iter_position + 1,
                                     m_call_idx_in_variant := it.m_call_idx_in_variant + 1 }
      else some it
    else none
  else some it
termination_by calls.length - it.m_iter_position
decreasing_by simp_wf; omega

/-- `operator++` (variant.h:202). -/
def increment (calls : List VariantCall) (it : ValidVariantCallIter) :
    Option ValidVariantCallIter :=
  skip_invalid calls { it with m_iter_position := it.m_iter_position + 1,
                               m_call_idx_in_variant := it.m_call_idx_in_variant + 1 }

/-- The constructor (variant.h:192). -/
def ctor (calls : List VariantCall) (x end_ call_idx_in_variant : Nat) :
    Option ValidVariantCallIter :=
  let it : ValidVariantCallIter :=
    { m_iter_position := x, m_end := end_, m_call_idx_in_variant := call_idx_in_variant }
  if it.m_iter_position ≠ it.m_end then
    if h : it.m_iter_position < calls.length then
      if !(calls[it.m_iter_position].is_valid) then increment calls it else some it
    else none
  else some it

/-- `operator!=` (variant.h:200): compares the positions only. -/
def ne (it other : ValidVariantCallIter) : Bool :=
  it.m_iter_position != other.m_iter_position

/-- `operator*` (variant.h:201). -/
def deref (calls : List VariantCall) (it : ValidVariantCallIter) : Option VariantCall :=
  calls[it.m_iter_position]?

/-- `get_call_idx_in_variant` (variant.h:210). -/
def get_call_idx_in_variant (it : ValidVariantCallIter) : Nat := it.m_call_idx_in_variant

end ValidVariantCallIter

namespace Variant

/-- `begin()` (variant.h:328). -/
def begin (v : Variant) : Option ValidVariantCallIter :=
  ValidVariantCallIter.ctor v.m_calls 0 v.m_calls.length 0

/-- `end()` (variant.h:329). -/
def end_ (v : Variant) : Option ValidVariantCallIter :=
  ValidVariantCallIter.ctor v.m_calls v.m_calls.length v.m_calls.length v.m_calls.length

/-- The traversal `for(it = ...; it != v.end(); ++it) yield (*it, it.get_call_idx_in_variant())`
from iterator `it` on, with at most `fuel` loop tests.  `none` when the fuel
runs out or an iterator is dereferenced outside the vector. -/
def traverse_from (v : Variant) : Nat → ValidVariantCallIter → Option (List (VariantCall × Nat))
  | 0, _ => none
  | fuel + 1, it =>
    match v.end_ with
    | none => none
    | some e =>
      if it.ne e then
        match it.deref v.m_calls, it.increment v.m_calls with
        | some c, some it1 =>
          (traverse_from v fuel it1).map (fun rest => (c, it.get_call_idx_in_variant) :: rest)
        | _, _ => none
      else some []

/-- The whole traversal, starting at `begin()`. -/
def traverse (v : Variant) (fuel : Nat) : Option (List (VariantCall × Nat)) :=
  match v.begin with
  | none => none
  | some it => v.traverse_from fuel it

end Variant

/-- The calls for which `is_valid()` holds, each with its position in the
vector of calls, in increasing position order. -/
def valid_calls_with_position (calls : List VariantCall) : List (VariantCall × Nat) :=
  (calls.enum.filter (fun p => p.2.is_valid)).map (fun p => (p.2, p.1))

/-! ## Printing (variant.cc, lines 20-50)

`fptr << n` for an unsigned integer writes its decimal digits (`toString`). -/

namespace VariantCall

/-- Body of the loop over `m_fields` in `VariantCall::print` (variant.cc:38-48).
The loop state is the stream and the counter `idx`. -/
def print_field (query_config : Option VariantQueryConfig) (st : String × Nat)
    (field : Option VariantFieldBase) : String × Nat :=
  let out :=
    match field with
    | some f =>
      let out1 :=
        match query_config with
        | some q => st.1 ++ q.get_query_attribute_name st.2 ++ " : "
        | none => st.1
      out1 ++ f.printed ++ ", "
    | none => st.1
  (out, st.2 + 1)

/-- `VariantCall::print(fptr, query_config)` (variant.cc:32). -/
def print (c : VariantCall) (fptr : String) (query_config : Option VariantQueryConfig) :
    String :=
  if c.m_is_initialized && c.m_is_valid then
    (c.m_fields.foldl (print_field query_config)
      (fptr ++ " row : " ++ toString c.m_row_idx ++ ", ", 0)).1
  else fptr

end VariantCall

namespace Variant

/-- Body of the loop over the calls in `Variant::print` (variant.cc:24-28). -/
def print_call_at (v : Variant) (i : Nat) (fptr : String) : String :=
  let out := fptr ++ " " ++ toString i ++ " : \x7b"
  let out :=
    match v.m_calls[i]? with
    | some c => c.print out v.m_query_config
    | none => out
  out ++ " \x7d"

/-- `Variant::print(fptr)` (variant.cc:20). -/
def print (v : Variant) (fptr : String) : String :=
  for_upto v.m_calls.length v.print_call_at
      (fptr ++ "Interval:[ " ++ toString v.m_col_begin ++ ", " ++ toString v.m_col_end
        ++ " ] Calls \x7b")
    ++ " \x7d\n"

end Variant

/-! ## The text of a Variant as the specification words it -/

/-- Text of the occupied slots from slot index `idx` on: attribute name and
`" : "` when a configuration is present, the printed value, then `", "`; an
empty slot contributes nothing. -/
def spec_slots_text (query_config : Option VariantQueryConfig) :
    Nat → List (Option VariantFieldBase) → String
  | _, [] => ""
  | idx, none :: rest => spec_slots_text query_config (idx + 1) rest
  | idx, some f :: rest =>
    (match query_config with
      | some q => q.get_query_attribute_name idx ++ " : "
      | none => "")
    ++ f.printed ++ ", " ++ spec_slots_text query_config (idx + 1) rest

/-- Text of one call: empty unless the call is initialized and valid. -/
def spec_call_text (query_config : Option VariantQueryConfig) (c : VariantCall) : String :=
  if c.m_is_initialized = true ∧ c.m_is_valid = true then
    " row : " ++ toString c.m_row_idx ++ ", " ++ spec_slots_text query_config 0 c.m_fields
  else ""

/-- Text of the calls from query row index `i` on. -/
def spec_calls_text (query_config : Option VariantQueryConfig) :
    Nat → List VariantCall → String
  | _, [] => ""
  | i, c :: rest =>
    " " ++ toString i ++ " : \x7b" ++ spec_call_text query_config c ++ " \x7d"
      ++ spec_calls_text query_config (i + 1) rest

/-- Text of a whole Variant. -/
def spec_variant_text (v : Variant) : String :=
  "Interval:[ " ++ toString v.m_col_begin ++ ", " ++ toString v.m_col_end ++ " ] Calls \x7b"
    ++ spec_calls_text v.m_query_config 0 v.m_calls ++ " \x7d\n"

/-- Two calls that `VariantCall::print` cannot tell apart: both fail the test
`m_is_initialized && m_is_valid`, or both pass it and have the same row index
and the same slots. -/
def prints_alike (c d : VariantCall) : Prop :=
  (c.m_is_initialized && c.m_is_valid) = (d.m_is_initialized && d.m_is_valid)
  ∧ ((c.m_is_initialized && c.m_is_valid) = true →
      c.m_row_idx = d.m_row_idx ∧ c.m_fields = d.m_fields)

/-! ## Populating a Variant for an interval

The operations a query uses to fill a resized Variant, as a script of calls. -/

/-- One population call on a Variant. -/
inductive PopulationStep where
  | set_column_interval (col_begin col_end : Nat)
  | set_call_field (call_idx call_field_idx : Nat) (field : Option VariantFieldBase)
  | mark_valid (call_idx : Nat) (val : Bool)
  | mark_initialized (call_idx : Nat) (val : Bool)
  deriving Repr, DecidableEq

namespace PopulationStep

/-- Run one population call.  `mark_valid` and `mark_initialized` are applied
to the reference returned by `get_call`. -/
def run (v : Variant) : PopulationStep → Outcome Variant
  | set_column_interval b e => .ok (v.set_column_interval b e)
  | set_call_field ci fi field =>
    match v.set_call_field ci fi field with
    | .ok (v1, _) => .ok v1
    | .assert_failed (v1, _) => .assert_failed v1
  | mark_valid ci val => v.get_call_and ci (fun c => c.mark_valid val)
  | mark_initialized ci val => v.get_call_and ci (fun c => c.mark_initialized val)

/-- True for a `set_call_field` call. -/
def is_set_call_field : PopulationStep → Bool
  | set_call_field _ _ _ => true
  | _ => false

end PopulationStep

/-- Run a script of population calls in order, stopping at the first failed
assertion. -/
def populate : List PopulationStep → Variant → Outcome Variant
  | [], v => .ok v
  | step :: rest, v =>
    match step.run v with
    | .ok v1 => populate rest v1
    | .assert_failed v1 => .assert_failed v1

/-! ## VariantIntervalPQ (variant.h, line 31)

`std::priority_queue<PQStruct*, std::vector<PQStruct*>, CmpPQStruct>`.  The
queue is the underlying vector `c`; an entry is the `PQStruct` pointed to.  The
members of `std::priority_queue` are defined by the C++ standard in terms of
the heap algorithms: `push(x)` is `c.push_back(x); push_heap(c.begin(), c.end(), comp)`,
`pop()` is `pop_heap(c.begin(), c.end(), comp); c.pop_back()`, `top()` is
`c.front()`.  The heap algorithms are library code; they are a parameter
carrying the contract the standard gives them, and the algorithms of libstdc++
are shown to be one implementation of it. -/

/-- The heap property of the C++ standard: with `N` the size of the range, for
all `0 < i < N`, `comp(a[(i-1)/2], a[i])` is false. -/
def is_heap {α : Type} (comp : α → α → Bool) (a : List α) : Bool :=
  (List.range a.length).all (fun i =>
    i == 0 ||
      match a[(i - 1) / 2]?, a[i]? with
      | some p, some x => !(comp p x)
      | _, _ => true)

/-- The heap algorithms `std::push_heap` and `std::pop_heap`, as functions
from the range before the call to the range after it. -/
structure HeapAlgorithms (α : Type) where
  push_heap : List α → List α
  pop_heap : List α → List α

/-- The contract the C++ standard gives the heap algorithms: `push_heap` turns
a range whose all-but-last prefix is a heap into a heap of the same elements;
`pop_heap` on a non-empty heap moves the first element to the last position
and leaves a heap of the other elements before it. -/
def HeapAlgorithms.meets_contract {α : Type} (comp : α → α → Bool) (H : HeapAlgorithms α) :
    Prop :=
  (∀ a, is_heap comp a.dropLast = true → List.Perm (H.push_heap a) a)
  ∧ (∀ a, is_heap comp a.dropLast = true → is_heap comp (H.push_heap a) = true)
  ∧ (∀ a, a ≠ [] → is_heap comp a = true → (H.pop_heap a).getLast? = a.head?)
  ∧ (∀ a, a ≠ [] → is_heap comp a = true → List.Perm (H.pop_heap a) a)
  ∧ (∀ a, a ≠ [] → is_heap comp a = true → is_heap comp (H.pop_heap a).dropLast = true)

/-- `VariantIntervalPQ` (variant.h:31): the underlying vector of entries. -/
structure VariantIntervalPQ where
  c : List PQStruct
  deriving Repr, DecidableEq

namespace VariantIntervalPQ

/-- The default-constructed, empty queue. -/
def ctor : VariantIntervalPQ := { c := [] }

/-- `push(x)`: `c.push_back(x); push_heap(c.begin(), c.end(), comp)`. -/
def push (H : HeapAlgorithms PQStruct) (q : VariantIntervalPQ) (x : PQStruct) :
    VariantIntervalPQ :=
  { c := H.push_heap (q.c ++ [x]) }

/-- `pop()`: `pop_heap(c.begin(), c.end(), comp); c.pop_back()`. -/
def pop (H : HeapAlgorithms PQStruct) (q : VariantIntervalPQ) : VariantIntervalPQ :=
  { c := (H.pop_heap q.c).dropLast }

/-- `top()`: `c.front()`, which is defined only on a non-empty queue. -/
def top (q : VariantIntervalPQ) : Option PQStruct := q.c.head?

/-- `empty()`. -/
def empty (q : VariantIntervalPQ) : Bool := q.c.isEmpty

/-- Push every entry of a collection, in order, into an empty queue. -/
def push_all (H : HeapAlgorithms PQStruct) (entries : List PQStruct) :
    VariantIntervalPQ :=
  entries.foldl (push H) ctor

/-- The loop `while(!q.empty()) { out.push_back(q.top()); q.pop(); }` with at
most `fuel` iterations; `none` when the fuel runs out before the queue is empty. -/
def pop_until_empty (H : HeapAlgorithms PQStruct) :
    Nat → VariantIntervalPQ → Option (List PQStruct)
  | 0, q => if q.empty then some [] else none
  | fuel + 1, q =>
    if q.empty then some []
    else
      match q.top with
      | none => none
      | some t => (pop_until_empty H fuel (q.pop H)).map (fun rest => t :: rest)

end VariantIntervalPQ

/-! ### The heap algorithms of libstdc++

One implementation of the parameter, following `bits/stl_heap.h` of libstdc++:
a hole travels through the range and the value is stored at the end. -/

/-- `std::__push_heap(first, holeIndex, topIndex, value, comp)` of libstdc++
(bits/stl_heap.h): the hole climbs while its parent compares before `value`. -/
def std_push_heap_loop {α : Type} (comp : α → α → Bool) (a : List α) (holeIndex topIndex : Nat)
    (value : α) : List α :=
  if holeIndex > topIndex then
    match a[(holeIndex - 1) / 2]? with
    | some p =>
      if comp p value then
        std_push_heap_loop comp (a.set holeIndex p) ((holeIndex - 1) / 2) topIndex value
      else a.set holeIndex value
    | none => a.set holeIndex value
  else a.set holeIndex value
termination_by holeIndex
decreasing_by omega

/-- `std::push_heap(first, last, comp)`: the last element is the value pushed. -/
def std_push_heap {α : Type} (comp : α → α → Bool) (a : List α) : List α :=
  match a.getLast? with
  | some value => std_push_heap_loop comp a (a.length - 1) 0 value
  | none => a

/-- The `while` loop of `std::__adjust_heap`: the hole descends to the child
that does not compare before its sibling, as long as it has two children.
Returns the range and the final hole. -/
def std_adjust_heap_loop {α : Type} (comp : α → α → Bool) (a : List α) (secondChild len : Nat) :
    List α × Nat :=
  if secondChild < (len - 1) / 2 then
    match a[2 * (secondChild + 1)]?, a[2 * (secondChild + 1) - 1]? with
    | some r, some l =>
      if comp r l then
        std_adjust_heap_loop comp (a.set secondChild l) (2 * (secondChild + 1) - 1) len
      else
        std_adjust_heap_loop comp (a.set secondChild r) (2 * (secondChild + 1)) len
    | _, _ => (a, secondChild)
  else (a, secondChild)
termination_by len - secondChild
decreasing_by all_goals omega

/-- `std::__adjust_heap(first, holeIndex, len, value, comp)`.  The distances are
signed in the library: for `len = 0` the quotient `(len - 2) / 2` is negative
and no index equals it, hence the guard `2 ≤ len` beside the parity test. -/
def std_adjust_heap {α : Type} (comp : α → α → Bool) (a : List α) (holeIndex len : Nat)
    (value : α) : List α :=
  let st := std_adjust_heap_loop comp a holeIndex len
  let st2 :=
    if len % 2 = 0 ∧ 2 ≤ len ∧ st.2 = (len - 2) / 2 then
      match st.1[2 * (st.2 + 1) - 1]? with
      | some l => (st.1.set st.2 l, 2 * (st.2 + 1) - 1)
      | none => st
    else st
  std_push_heap_loop comp st2.1 st2.2 holeIndex value

/-- `std::pop_heap(first, last, comp)`: on more than one element, the last
element becomes the value to place, the first element is stored last, and the
hole left at the front is adjusted over the other elements. -/
def std_pop_heap {α : Type} (comp : α → α → Bool) (a : List α) : List α :=
  if a.length > 1 then
    match a.head?, a.getLast? with
    | some front, some value =>
      std_adjust_heap comp (a.set (a.length - 1) front) 0 (a.length - 1) value
    | _, _ => a
  else a

/-- The heap algorithms of libstdc++ under `CmpPQStruct`. -/
def libstdcxx_heap_algorithms : HeapAlgorithms PQStruct :=
  { push_heap := std_push_heap CmpPQStruct, pop_heap := std_pop_heap CmpPQStruct }

/-- The `m_end_point` of the entry at index `i` of a range (0 outside the range). -/
def end_point_at (a : List PQStruct) (i : Nat) : Int :=
  match a[i]? with
  | some x => x.m_end_point
  | none => 0

/-! ## Move assignment of a VariantCall (variant.h, lines 68-75 and 161-174) -/

namespace VariantCall

/-- The range-`for` of `VariantCall::move_in` (variant.h:169-173):
`for(auto& other_field : other.get_all_fields()) { set_field(idx, other_field); ++idx; }`.
`done` are the slots of `other` already visited (as `set_field` left them),
`todo` the slots still to visit, `idx` the counter.  The state is the
destination call together with the slots of `other`. -/
def move_in_loop (self : VariantCall) (done : List (Option VariantFieldBase)) :
    List (Option VariantFieldBase) → Nat →
      Outcome (VariantCall × List (Option VariantFieldBase))
  | [], _ => .ok (self, done)
  | other_field :: todo, idx =>
    match self.set_field idx other_field with
    | .ok (self1, handle) => move_in_loop self1 (done ++ [handle]) todo (idx + 1)
    | .assert_failed (self1, handle) => .assert_failed (self1, done ++ handle :: todo)

/-- `VariantCall::move_in(VariantCall& other)` (variant.h:161), which is all
`operator=(VariantCall&&)` does.  The state is the pair (destination, source). -/
def move_in (self other : VariantCall) : Outcome (VariantCall × VariantCall) :=
  let s1 := { self with m_is_valid := other.is_valid,
                        m_is_initialized := other.is_initialized,
                        m_row_idx := other.get_row_idx }
  let s2 := s1.clear
  let s3 := { s2 with m_fields := vector_resize s2.m_fields other.m_fields.length none }
  match move_in_loop s3 [] other.m_fields 0 with
  | .ok (s4, slots) => .ok (s4, { other with m_fields := slots })
  | .assert_failed (s4, slots) => .assert_failed (s4, { other with m_fields := slots })

end VariantCall

/-! ## Query-time operations on a resized Variant -/

/-- One operation a query applies to its Variant: a population call or
`reset_for_new_interval`. -/
inductive QueryOperation where
  | populate (step : PopulationStep)
  | reset_for_new_interval
  deriving Repr, DecidableEq

/-- Run one query-time operation. -/
def QueryOperation.run (v : Variant) : QueryOperation → Outcome Variant
  | .populate step => step.run v
  | .reset_for_new_interval => .ok v.reset_for_new_interval

/-- Run query-time operations in order, stopping at the first failed assertion. -/
def run_operations : List QueryOperation → Variant → Outcome Variant
  | [], v => .ok v
  | op :: rest, v =>
    match op.run v with
    | .ok v1 => run_operations rest v1
    | .assert_failed v1 => .assert_failed v1

/-! ## The driver (gt_example_query_processor.cc)

The driver is embedded as the sequence of calls it makes on its collaborators.
Reading the positions list goes through `std::istream::operator>>`, which is
library code; it is modelled after the C++ standard (formatted input of an
unsigned integer with the default flags `skipws` and `dec`, classic locale). -/

/-- Reading state of a `std::ifstream`: the characters not yet read and the
three error bits. -/
structure IStream where
  rest : List Char
  eofbit : Bool
  failbit : Bool
  badbit : Bool
  deriving Repr, DecidableEq

/-- A stream just opened on a text. -/
def IStream.on (text : List Char) : IStream :=
  { rest := text, eofbit := false, failbit := false, badbit := false }

/-- `isspace` of the classic locale. -/
def isspace (c : Char) : Bool :=
  c == ' ' || c == '\t' || c == '\n' || c == Char.ofNat 11 || c == Char.ofNat 12 || c == '\r'

/-- A decimal digit. -/
def isdigit (c : Char) : Bool := decide (48 ≤ c.toNat ∧ c.toNat ≤ 57)

/-- Value of a run of decimal digits. -/
def digits_value (ds : List Char) : Nat :=
  ds.foldl (fun acc c => 10 * acc + (c.toNat - 48)) 0

/-- `stream >> position` for a `uint64_t position`: the stream after the
extraction and the value stored.  A stream with an error bit set only gets
`failbit`.  Otherwise leading whitespace is skipped (end of input there sets
`eofbit` and `failbit`), an optional sign and the longest run of decimal digits
are read; `eofbit` is set when the end of input stopped the reading; no digit,
or a value above `2^64 - 1`, sets `failbit`; a minus sign negates modulo `2^64`. -/
def extract_uint64 (s : IStream) : IStream × Nat :=
  if s.eofbit || s.failbit || s.badbit then ({ s with failbit := true }, 0)
  else
    match s.rest.dropWhile isspace with
    | [] => ({ rest := [], eofbit := true, failbit := true, badbit := false }, 0)
    | c :: t =>
      let negative := c == '-'
      let field := if c == '-' || c == '+' then t else c :: t
      let ds := field.takeWhile isdigit
      let after := field.dropWhile isdigit
      let value := digits_value ds
      if ds.isEmpty then
        ({ rest := after, eofbit := after.isEmpty, failbit := true, badbit := false }, 0)
      else if 2 ^ 64 ≤ value then
        ({ rest := after, eofbit := after.isEmpty, failbit := true, badbit := false },
          2 ^ 64 - 1)
      else
        ({ rest := after, eofbit := after.isEmpty, failbit := false, badbit := false },
          if negative then (2 ^ 64 - value) % 2 ^ 64 else value)

/-- The batch loop of `main` (gt_example_query_processor.cc:77-85), with at
most `fuel` extractions: the positions passed to `GenotypeColumn`, in order.
`none` when the fuel runs out before the loop breaks. -/
def positions_loop : Nat → IStream → Option (List Nat)
  | 0, _ => none
  | fuel + 1, s =>
    let r := extract_uint64 s
    if r.1.badbit || r.1.eofbit || r.1.failbit then some []
    else (positions_loop fuel r.1).map (fun rest => r.2 :: rest)

/-- Modelled from the spec: `command_line.h` is not among the sources.  The
members of `CommandLineOpts` that `main` reads, after `parse_command_line`: the
workspace and array name (null pointers are `none`), the target position, the
positions list (`none` when the file is not open), the scan flag and whether
the output file is open. -/
structure CommandLineOpts where
  m_workspace : Option String
  m_array_name : Option String
  m_position : Nat
  m_positions_list : Option IStream
  m_do_scan : Bool
  m_output_fstream_is_open : Bool
  deriving Repr, DecidableEq

/-- A call `main` makes, or the way it ends. -/
inductive DriverEvent where
  | report_error (message : String)
  | exit (status : Int)
  | create_storage_manager (workspace : String) (segment_size : Option Nat)
  | open_array (array_name : String)
  | create_query_processor
  | scan_and_operate
  | point_query (column : Nat)
  | close_array
  | close_output_file
  | close_positions_list
  | return_from_main (status : Int)
  deriving Repr, DecidableEq

/-- The configuration check of `main` (gt_example_query_processor.cc:26). -/
def missing_configuration (cl : CommandLineOpts) : Bool :=
  cl.m_workspace.isNone
    || (cl.m_position == 0 && !cl.m_positions_list.isSome && !cl.m_do_scan)
    || cl.m_array_name.isNone

/-- The closing calls of `main` (gt_example_query_processor.cc:123-129). -/
def main_epilogue (cl : CommandLineOpts) : List DriverEvent :=
  [DriverEvent.close_array]
    ++ (if cl.m_output_fstream_is_open then [DriverEvent.close_output_file] else [])
    ++ (if cl.m_positions_list.isSome then [DriverEvent.close_positions_list] else [])
    ++ [DriverEvent.return_from_main 0]

/-- `main` (gt_example_query_processor.cc:23) as the sequence of its calls.
`SM_SEGMENT_SIZE` comes from a header that is not among the sources and is a
parameter; the segment size is `1 * 40000` capped by it.  `fuel` bounds the
extractions of the batch loop (`none` when it runs out). -/
def main (cl : CommandLineOpts) (SM_SEGMENT_SIZE fuel : Nat) : Option (List DriverEvent) :=
  if missing_configuration cl then
    some [DriverEvent.report_error "Missing workspace|[position or scan]|array_name\n",
      DriverEvent.exit (-1)]
  else
    match cl.m_workspace, cl.m_array_name with
    | some workspace, some array_name =>
      let opening := [DriverEvent.create_storage_manager workspace none,
        DriverEvent.open_array array_name]
      if cl.m_do_scan then
        some (opening ++ [DriverEvent.create_query_processor, DriverEvent.scan_and_operate]
          ++ main_epilogue cl)
      else
        let segment_size := if 40000 > SM_SEGMENT_SIZE then SM_SEGMENT_SIZE else 40000
        let opening_opt := [DriverEvent.create_storage_manager workspace (some segment_size),
          DriverEvent.open_array array_name, DriverEvent.create_query_processor]
        match cl.m_positions_list with
        | some positions_list =>
          match positions_loop fuel positions_list with
          | some positions =>
            some (opening ++ opening_opt ++ positions.map DriverEvent.point_query
              ++ [DriverEvent.close_array] ++ main_epilogue cl)
          | none => none
        | none =>
          some (opening ++ opening_opt ++ [DriverEvent.point_query cl.m_position]
            ++ [DriverEvent.close_array] ++ main_epilogue cl)
    | _, _ => none

/-! ### The batch as the specification words it -/

/-- The entries of a positions list: its maximal runs of characters other than
whitespace. -/
def list_entries (text : List Char) : List (List Char) :=
  (text.splitOnP isspace).filter (fun entry => !entry.isEmpty)

/-- An entry that is an unsigned integer: decimal digits only, at least one,
with a value below `2^64`. -/
def parses_as_unsigned (entry : List Char) : Bool :=
  !entry.isEmpty && entry.all isdigit && decide (digits_value entry < 2 ^ 64)

/-- The integers that come before the first entry that is not an unsigned
integer. -/
def listed_positions (text : List Char) : List Nat :=
  ((list_entries text).takeWhile parses_as_unsigned).map digits_value

/-- The first entry that is not an unsigned integer, if there is one. -/
def first_unparsed_entry (text : List Char) : Option (List Char) :=
  ((list_entries text).dropWhile parses_as_unsigned).head?

/-- The query at the number spelled by the digits an entry starts with: one
query when the entry starts with digits and they spell a number below `2^64`,
none otherwise. -/
def digit_prefix_query (entry : List Char) : List Nat :=
  if entry.takeWhile isdigit ≠ [] ∧ digits_value (entry.takeWhile isdigit) < 2 ^ 64 then
    [digits_value (entry.takeWhile isdigit)]
  else []

/-- An entry without a sign character `+` or `-` right after its leading
digits (at its start, when it has no leading digit). -/
def no_sign_after_digits (entry : List Char) : Bool :=
  match entry.dropWhile isdigit with
  | c :: _ => !(c == '+') && !(c == '-')
  | [] => true

/-- A character at which no unsigned integer can start: not whitespace, not a
digit, not a sign. -/
def starts_no_number (c : Char) : Bool :=
  !isspace c && !isdigit c && !(c == '+') && !(c == '-')

/-! ## What a printed text shows of a Variant -/

/-- The occupied slots of a vector of fields from slot index `idx` on, each as
its slot index and the text its field prints. -/
def occupied_slots : Nat → List (Option VariantFieldBase) → List (Nat × String)
  | _, [] => []
  | idx, none :: rest => occupied_slots (idx + 1) rest
  | idx, some f :: rest => (idx, f.printed) :: occupied_slots (idx + 1) rest

/-- The text the loop of `VariantCall::print` writes for occupied slots given
by slot index and printed value. -/
def slots_text (query_config : Option VariantQueryConfig) : List (Nat × String) → String
  | [] => ""
  | slot :: rest =>
    (match query_config with
      | some q => q.get_query_attribute_name slot.1 ++ " : "
      | none => "")
    ++ slot.2 ++ ", " ++ slots_text query_config rest

/-- A call whose printed text keeps its parts apart: when the call is printed
(initialized and valid), the printed value of none of its fields contains a
comma or a closing brace, and it has no more slots than the configuration,
when there is one, has attributes. -/
def VariantCall.well_separated (query_config : Option VariantQueryConfig) (c : VariantCall) :
    Prop :=
  (c.m_is_initialized && c.m_is_valid) = true →
    (∀ f, some f ∈ c.m_fields → ∀ ch ∈ f.printed.data, ch ≠ ',' ∧ ch ≠ '\x7d')
    ∧ ∀ q, query_config = some q → c.m_fields.length ≤ q.get_num_queried_attributes

/-- A Variant whose printed text keeps its parts apart: the names of the
queried attributes, when there is a configuration, contain no colon and no
closing brace and are pairwise different, and every call is well separated. -/
def Variant.well_separated (v : Variant) : Prop :=
  (∀ q, v.m_query_config = some q →
    (∀ i, i < q.get_num_queried_attributes →
      ∀ ch ∈ (q.get_query_attribute_name i).data, ch ≠ ':' ∧ ch ≠ '\x7d')
    ∧ (∀ i j, i < q.get_num_queried_attributes → j < q.get_num_queried_attributes →
        q.get_query_attribute_name i = q.get_query_attribute_name j → i = j))
  ∧ ∀ c ∈ v.m_calls, c.well_separated v.m_query_config

/-! ## The two readers of a Variant: the iterator and print -/

/-- Whether `VariantCall::print` writes the row id of the call: the text it
appends to an empty stream starts with `" row : "`, the row index and `", "`. -/
def VariantCall.writes_row_id (c : VariantCall) (query_config : Option VariantQueryConfig) :
    Bool :=
  (" row : " ++ toString c.m_row_idx ++ ", ").data.isPrefixOf (c.print "" query_config).data

/-- The calls for which `VariantCall::print` writes a row id, each with its
position in the vector of calls, in increasing position order. -/
def printed_calls_with_position (query_config : Option VariantQueryConfig)
    (calls : List VariantCall) : List (VariantCall × Nat) :=
  (calls.enum.filter (fun p => p.2.writes_row_id query_config)).map (fun p => (p.2, p.1))

/-! ## Concrete inputs used to exercise the definitions -/

/-- A query configuration with two rows (array rows 10 and 11) and two
attributes. -/
def example_config : VariantQueryConfig :=
  { is_bookkeeping_done := true
    get_num_rows_to_query := 2
    get_num_queried_attributes := 2
    get_array_row_idx_for_query_row_idx := fun i => 10 + i
    get_query_attribute_name := fun i => if i = 0 then "REF" else "ALT" }

/-- A decoded field printing as `A`. -/
def example_field : VariantFieldBase := { payload := [65], printed := "A" }

/-- A call on array row 7 with one occupied slot. -/
def example_call : VariantCall :=
  { m_is_valid := true, m_is_initialized := true, m_row_idx := 7,
    m_fields := [some example_field] }

/-- A Variant over `[10, 20]` holding `example_call` only, without configuration. -/
def example_source : Variant :=
  { m_calls := [example_call], m_query_config := none, m_col_begin := 10, m_col_end := 20 }

/-- The Variant `example_source` with an invalid call in front of its valid call. -/
def example_source_with_gap : Variant :=
  { example_source with m_calls := [VariantCall.ctor 3, example_call] }

/-- As `example_source_with_gap`, the call in front being valid but not
initialized, on another row and with an occupied slot. -/
def example_source_with_other_gap : Variant :=
  { example_source with m_calls :=
      [{ m_is_valid := true, m_is_initialized := false, m_row_idx := 99,
         m_fields := [some example_field] }, example_call] }

/-- Command-line options with workspace and array name, position 5 and the
scan flag both given. -/
def example_options_scan_and_position : CommandLineOpts :=
  { m_workspace := some "ws", m_array_name := some "gvcf", m_position := 5,
    m_positions_list := none, m_do_scan := true, m_output_fstream_is_open := false }

/-- Command-line options without a workspace. -/
def example_options_no_workspace : CommandLineOpts :=
  { m_workspace := none, m_array_name := some "gvcf", m_position := 5,
    m_positions_list := none, m_do_scan := false, m_output_fstream_is_open := false }

/-- A scheduling entry for array row `row` whose interval ends at `end_point`. -/
def example_entry (row end_point : Int) : PQStruct :=
  { m_needs_to_be_processed := false, m_end_point := end_point, m_array_row_idx := row,
    m_array_column := 0, m_cell_pos := 0, m_tile_idx := 0 }

/-- A population of row 1 for the interval `[10, 20]`. -/
def example_population : List PopulationStep :=
  [ .set_column_interval 10 20,
    .set_call_field 1 0 (some example_field),
    .mark_valid 1 true,
    .mark_initialized 1 true ]

/-- Query-time operations: `example_population`, then a reset, then call 0 is
marked valid. -/
def example_operations : List QueryOperation :=
  example_population.map QueryOperation.populate
    ++ [QueryOperation.reset_for_new_interval,
        QueryOperation.populate (PopulationStep.mark_valid 0 true)]

/-- A freshly constructed Variant bound to `example_config`, then resized. -/
def example_resized : Variant :=
  ((Variant.ctor 0 (some example_config)).resize_based_on_query 0).state

/-- A Variant without configuration whose only call has its field in slot 0 of 2. -/
def example_field_in_slot_0 : Variant :=
  { example_source with m_calls :=
      [{ m_is_valid := true, m_is_initialized := true, m_row_idx := 7,
         m_fields := [some example_field, none] }] }

/-- As `example_field_in_slot_0`, the field being in slot 1. -/
def example_field_in_slot_1 : Variant :=
  { example_source with m_calls :=
      [{ m_is_valid := true, m_is_initialized := true, m_row_idx := 7,
         m_fields := [none, some example_field] }] }

/-- A Variant bound to `example_config`: a printed call with the attribute
`ALT` set, then a call that is not valid. -/
def example_configured : Variant :=
  { m_calls :=
      [{ m_is_valid := true, m_is_initialized := true, m_row_idx := 10,
         m_fields := [none, some example_field] },
       VariantCall.ctor 11],
    m_query_config := some example_config, m_col_begin := 10, m_col_end := 20 }

/-- As `example_configured`, with another payload behind the same printed
value and with other content in the call that is not valid. -/
def example_configured_other : Variant :=
  { m_calls :=
      [{ m_is_valid := true, m_is_initialized := true, m_row_idx := 10,
         m_fields := [none, some { payload := [97], printed := "A" }] },
       { m_is_valid := false, m_is_initialized := true, m_row_idx := 99,
         m_fields := [some example_field] }],
    m_query_config := some example_config, m_col_begin := 10, m_col_end := 20 }

/-- Command-line options with workspace and array name, position 0, no
positions list and no scan flag. -/
def example_options_position_zero : CommandLineOpts :=
  { m_workspace := some "ws", m_array_name := some "gvcf", m_position := 0,
    m_positions_list := none, m_do_scan := false, m_output_fstream_is_open := false }
/-! # Properties -/

/-! ## Loops and vectors -/

theorem for_upto_zero {σ : Type} (body : Nat → σ → σ) (s : σ) : for_upto 0 body s = s := rfl

theorem for_upto_succ {σ : Type} (n : Nat) (body : Nat → σ → σ) (s : σ) :
    for_upto (n + 1) body s = body n (for_upto n body s) := by
  simp [for_upto, List.range_succ, List.foldl_append]

theorem for_upto_calls (n : Nat) (g : Nat → VariantCall → VariantCall) (v : Variant) :
    for_upto n (fun i s => { s with m_calls := s.m_calls.modify (g i) i }) v
      = { v with m_calls := for_upto n (fun i l => l.modify (g i) i) v.m_calls } := by
  induction n with
  | zero => rfl
  | succ n ih => rw [for_upto_succ, for_upto_succ, ih]

theorem getElem?_for_upto_modify {α : Type} (g : Nat → α → α) (n : Nat) (l : List α) (j : Nat) :
    (for_upto n (fun i l => l.modify (g i) i) l)[j]?
      = if j < n then (l[j]?).map (g j) else l[j]? := by
  induction n with
  | zero => simp [for_upto_zero]
  | succ n ih =>
    rw [for_upto_succ, List.getElem?_modify, ih]
    by_cases h1 : n = j
    · subst h1; simp
    · by_cases h2 : j < n
      · have : j < n + 1 := by omega
        simp [h1, h2, this]
      · have : ¬ j < n + 1 := by omega
        simp [h1, h2, this]

theorem length_vector_resize {α : Type} (v : List α) (n : Nat) (d : α) :
    (vector_resize v n d).length = n := by
  simp [vector_resize, List.length_take]; omega

theorem getElem?_vector_resize {α : Type} (v : List α) (n : Nat) (d : α) (j : Nat) :
    (vector_resize v n d)[j]? = if j < n then some (v.getD j d) else none := by
  by_cases h : j < n
  · simp only [h, if_true]
    unfold vector_resize
    by_cases h2 : j < v.length
    · rw [List.getElem?_append_left (by simp [List.length_take]; omega)]
      simp [List.getElem?_take, h, List.getD_eq_getElem?_getD, h2]
    · rw [List.getElem?_append_right (by simp [List.length_take]; omega)]
      simp [List.getD_eq_getElem?_getD, List.getElem?_replicate]
      have : v[j]? = none := by simp; omega
      simp [this]
      omega
  · simp only [h, if_false]
    simp [length_vector_resize]; omega

/-- Closed form of "resize the vector, then touch every element below `n`". -/
theorem for_upto_modify_vector_resize {α : Type} (g : Nat → α → α) (n : Nat) (l : List α)
    (d : α) :
    for_upto n (fun i l => l.modify (g i) i) (vector_resize l n d)
      = (List.range n).map (fun j => g j (l.getD j d)) := by
  apply List.ext_getElem?
  intro j
  rw [getElem?_for_upto_modify, getElem?_vector_resize]
  by_cases h : j < n
  · simp [h, List.getElem?_range]
  · have h2 : (List.range n)[j]? = none := by simp; omega
    simp [h, h2]

theorem for_upto_modify_range_map {α : Type} (g : Nat → α → α) (n : Nat) (f : Nat → α) :
    for_upto n (fun i l => l.modify (g i) i) ((List.range n).map f)
      = (List.range n).map (fun j => g j (f j)) := by
  apply List.ext_getElem?
  intro j
  rw [getElem?_for_upto_modify]
  by_cases h : j < n
  · simp [h, List.getElem?_range]
  · have h2 : (List.range n)[j]? = none := by simp; omega
    simp [h, h2]

theorem set_getElem_same {α : Type} (l : List α) (i : Nat) (h : i < l.length) :
    l.set i l[i] = l := by
  apply List.ext_getElem?
  intro j
  rw [List.getElem?_set]
  by_cases hij : i = j
  · subst hij; simp [h]
  · simp [hij]

/-! ## Resizing -/

theorem Variant.resize_eq (v : Variant) (U n nf : Nat) :
    v.resize U n nf
      = { v with m_calls := (List.range n).map (fun j =>
            (v.m_calls.getD j (VariantCall.default_ctor U)).resize nf) } := by
  unfold Variant.resize
  simp only []
  rw [for_upto_calls n (fun _ c => c.resize nf)]
  simp only []
  rw [for_upto_modify_vector_resize]

/-- Closed form of `resize_based_on_query` when both assertions hold. -/
theorem Variant.resize_based_on_query_eq (v : Variant) (U : Nat) (cfg : VariantQueryConfig)
    (hcfg : v.m_query_config = some cfg) (hbk : cfg.is_bookkeeping_done = true) :
    v.resize_based_on_query U
      = .ok { v with m_calls :=
          (List.range cfg.get_num_rows_to_query).map (fun j =>
            ((v.m_calls.getD j (VariantCall.default_ctor U)).resize
              cfg.get_num_queried_attributes).set_row_idx
                (cfg.get_array_row_idx_for_query_row_idx j)) } := by
  unfold Variant.resize_based_on_query
  rw [hcfg]
  simp only [hbk, if_true]
  rw [for_upto_calls _ (fun i c => c.set_row_idx (cfg.get_array_row_idx_for_query_row_idx i))]
  rw [Variant.resize_eq]
  simp only []
  rw [for_upto_modify_range_map, hcfg]

/-! ## Move assignment of a Variant -/

/-- What `move_in` computes on every pair of Variants: the destination takes the
configuration and interval of the source and ends with no calls, and the
source is left as it was. -/
theorem Variant.move_in_eq (dst src : Variant) :
    Variant.move_in dst src
      = .ok ({ m_calls := [], m_query_config := src.m_query_config,
               m_col_begin := src.m_col_begin, m_col_end := src.m_col_end }, src) := by
  unfold Variant.move_in Variant.move_in_loop
  simp [Variant.clear]

/-- C1 (code evaluated at the failing input): move-assigning `example_source`,
which holds one call, into a fresh Variant runs to its end, leaves the
destination with zero calls and leaves the source holding its one call; the
same happens for every destination and source. -/
theorem C1_move_in_drops_the_calls :
    (Variant.move_in (Variant.ctor 0 none) example_source).succeeded = true
    ∧ (Variant.move_in (Variant.ctor 0 none) example_source).state.1.get_num_calls = 0
    ∧ (Variant.move_in (Variant.ctor 0 none) example_source).state.2.get_num_calls = 1
    ∧ ∀ dst src : Variant,
        (Variant.move_in dst src).state.1.m_calls = []
        ∧ (Variant.move_in dst src).state.2 = src := by
  refine ⟨?_, ?_, ?_, ?_⟩
  · rw [Variant.move_in_eq]; rfl
  · rw [Variant.move_in_eq]; rfl
  · rw [Variant.move_in_eq]; rfl
  · intro dst src
    rw [Variant.move_in_eq]
    exact ⟨rfl, rfl⟩

/-! ## resize_based_on_query -/

/-- C2: on a Variant whose query configuration has its bookkeeping done,
`resize_based_on_query` runs to its end; afterwards the number of calls is
`get_num_rows_to_query()`, every call has `get_num_queried_attributes()` slots,
the call at query row index `i` carries
`get_array_row_idx_for_query_row_idx(i)`, and when the Variant had no calls
before, every call is invalid, uninitialized and has only empty slots. -/
theorem C2_resize_based_on_query_shape (v : Variant) (U : Nat) (cfg : VariantQueryConfig)
    (hcfg : v.m_query_config = some cfg) (hbk : cfg.is_bookkeeping_done = true) :
    ∃ v1 : Variant, v.resize_based_on_query U = .ok v1
      ∧ v1.get_num_calls = cfg.get_num_rows_to_query
      ∧ (∀ c ∈ v1.m_calls, c.m_fields.length = cfg.get_num_queried_attributes)
      ∧ (∀ i, i < cfg.get_num_rows_to_query →
          (v1.m_calls[i]?).map VariantCall.get_row_idx
            = some (cfg.get_array_row_idx_for_query_row_idx i))
      ∧ (v.m_calls = [] → ∀ c ∈ v1.m_calls,
          c.is_valid = false ∧ c.is_initialized = false ∧ ∀ slot ∈ c.m_fields, slot = none) := by
  refine ⟨_, Variant.resize_based_on_query_eq v U cfg hcfg hbk, ?_, ?_, ?_, ?_⟩
  · simp [Variant.get_num_calls]
  · intro c hc
    simp only [List.mem_map, List.mem_range] at hc
    obtain ⟨j, _, rfl⟩ := hc
    simp [VariantCall.set_row_idx, VariantCall.resize, length_vector_resize]
  · intro i hi
    simp [List.getElem?_range, hi, VariantCall.get_row_idx, VariantCall.set_row_idx]
  · intro hempty c hc
    simp only [List.mem_map, List.mem_range] at hc
    obtain ⟨j, _, rfl⟩ := hc
    simp [hempty, VariantCall.set_row_idx, VariantCall.resize, VariantCall.default_ctor,
      VariantCall.is_valid, VariantCall.is_initialized, vector_resize]

/-- C2 at a concrete input: a fresh Variant bound to `example_config`. -/
theorem C2_resize_based_on_query_shape_witness :
    (Variant.ctor 0 (some example_config)).m_query_config = some example_config
    ∧ example_config.is_bookkeeping_done = true
    ∧ ∃ v1 : Variant, (Variant.ctor 0 (some example_config)).resize_based_on_query 0 = .ok v1
      ∧ v1.get_num_calls = 2
      ∧ (∀ c ∈ v1.m_calls, c.m_fields.length = 2)
      ∧ (∀ i, i < 2 → (v1.m_calls[i]?).map VariantCall.get_row_idx = some (10 + i))
      ∧ ((Variant.ctor 0 (some example_config)).m_calls = [] → ∀ c ∈ v1.m_calls,
          c.is_valid = false ∧ c.is_initialized = false ∧ ∀ slot ∈ c.m_fields, slot = none) :=
  ⟨rfl, rfl,
    C2_resize_based_on_query_shape (Variant.ctor 0 (some example_config)) 0 example_config rfl rfl⟩

/-! ## set_call_field -/

/-- Every way `set_call_field` can go, by cases on its three checks. -/
theorem Variant.set_call_field_cases (v : Variant) (ci fi : Nat)
    (field : Option VariantFieldBase) :
    (¬ ci < v.m_calls.length ∧ v.set_call_field ci fi field = .assert_failed (v, field))
    ∨ (∃ c, v.m_calls[ci]? = some c ∧ ¬ fi < c.m_fields.length
        ∧ v.set_call_field ci fi field = .assert_failed (v, field))
    ∨ (∃ c f, v.m_calls[ci]? = some c ∧ c.m_fields[fi]? = some (some f)
        ∧ v.set_call_field ci fi field = .assert_failed (v, field))
    ∨ (∃ c, v.m_calls[ci]? = some c ∧ c.m_fields[fi]? = some none
        ∧ v.set_call_field ci fi field
            = .ok ({ v with m_calls :=
                      v.m_calls.set ci { c with m_fields := c.m_fields.set fi field } }, none)) := by
  by_cases h1 : ci < v.m_calls.length
  · have hc : v.m_calls[ci]? = some v.m_calls[ci] := List.getElem?_eq_getElem h1
    have hself : ({ v with m_calls := v.m_calls.set ci v.m_calls[ci] } : Variant) = v := by
      rw [set_getElem_same _ _ h1]
    by_cases h2 : fi < (v.m_calls[ci]).m_fields.length
    · rcases hslot : (v.m_calls[ci]).m_fields[fi] with _ | f
      · right; right; right
        refine ⟨_, hc, ?_, ?_⟩
        · rw [List.getElem?_eq_getElem h2, hslot]
        · simp [Variant.set_call_field, VariantCall.set_field, h1, h2, hslot]
      · right; right; left
        refine ⟨_, f, hc, ?_, ?_⟩
        · rw [List.getElem?_eq_getElem h2, hslot]
        · simp [Variant.set_call_field, VariantCall.set_field, h1, h2, hslot, hself]
    · right; left
      refine ⟨_, hc, h2, ?_⟩
      simp [Variant.set_call_field, VariantCall.set_field, h1, h2, hself]
  · left
    exact ⟨h1, by simp [Variant.set_call_field, h1]⟩

/-- C3: `set_call_field` stops at a failed assertion exactly when `call_idx` is
not below the number of calls, or `field_idx` is not below the number of slots
of that call, or the slot is occupied; and whenever it does not run to its
end, the state at the failed assertion is the Variant and the handle of the
caller as they were passed in. -/
theorem C3_set_call_field_fails_iff (v : Variant) (call_idx field_idx : Nat)
    (field : Option VariantFieldBase) :
    ((v.set_call_field call_idx field_idx field).succeeded = false
      ↔ (¬ call_idx < v.get_num_calls
          ∨ ∃ c, v.m_calls[call_idx]? = some c
              ∧ (¬ field_idx < c.m_fields.length
                  ∨ ∃ f, c.m_fields[field_idx]? = some (some f))))
    ∧ ((v.set_call_field call_idx field_idx field).succeeded = true
        ∨ v.set_call_field call_idx field_idx field = .assert_failed (v, field)) := by
  rcases Variant.set_call_field_cases v call_idx field_idx field with
    ⟨h, e⟩ | ⟨c, hc, h, e⟩ | ⟨c, f, hc, h, e⟩ | ⟨c, hc, h, e⟩
  · refine ⟨?_, Or.inr e⟩
    rw [e]
    simp only [Outcome.succeeded, true_iff]
    exact Or.inl h
  · refine ⟨?_, Or.inr e⟩
    rw [e]
    simp only [Outcome.succeeded, true_iff]
    exact Or.inr ⟨c, hc, Or.inl h⟩
  · refine ⟨?_, Or.inr e⟩
    rw [e]
    simp only [Outcome.succeeded, true_iff]
    exact Or.inr ⟨c, hc, Or.inr ⟨f, h⟩⟩
  · refine ⟨?_, Or.inl (by rw [e]; rfl)⟩
    rw [e]
    simp only [Outcome.succeeded, false_iff, Bool.true_eq_false]
    rintro (h1 | ⟨c2, hc2, h2 | ⟨f, h2⟩⟩)
    · apply h1
      have := (List.getElem?_eq_some_iff.mp hc).1
      exact this
    · rw [hc] at hc2
      cases hc2
      exact h2 (List.getElem?_eq_some_iff.mp h).1
    · rw [hc] at hc2
      cases hc2
      rw [h] at h2
      cases h2

/-! ## set_call_field with its handle passed by reference -/

/-- Reading a slot after an assignment through a reference to a slot. -/
theorem Variant.get_call_field_write_slot (v : Variant) (j k j1 k1 : Nat)
    (x : Option VariantFieldBase) :
    (v.write_slot j k x).get_call_field j1 k1
      = if j1 = j ∧ k1 = k then (v.get_call_field j k).map (fun _ => x)
        else v.get_call_field j1 k1 := by
  unfold Variant.write_slot Variant.get_call_field
  simp only [List.getElem?_modify]
  by_cases hj : j = j1
  · subst hj
    cases hc : v.m_calls[j]? with
    | none => simp
    | some c =>
      by_cases hk : k = k1
      · subst hk
        by_cases hlt : k < c.m_fields.length
        · simp [List.getElem?_set, hlt, List.getElem?_eq_getElem hlt]
        · simp [List.getElem?_set, hlt, List.getElem?_eq_none (Nat.le_of_not_lt hlt)]
      · have hk2 : ¬ k1 = k := fun h => hk h.symm
        simp [List.getElem?_set, hk, hk2]
  · have hj2 : ¬ j1 = j := fun h => hj h.symm
    cases hc : v.m_calls[j1]? with
    | none => simp [hj, hj2]
    | some c => simp [hj, hj2]

/-- An assignment through a reference to a slot keeps the row index, the
flags and the slot count of every call. -/
theorem Variant.scalars_write_slot (v : Variant) (j k : Nat) (x : Option VariantFieldBase)
    (i : Nat) :
    ((v.write_slot j k x).m_calls[i]?).map
        (fun c : VariantCall =>
          (c.m_row_idx, c.m_is_valid, c.m_is_initialized, c.m_fields.length))
      = (v.m_calls[i]?).map
        (fun c : VariantCall =>
          (c.m_row_idx, c.m_is_valid, c.m_is_initialized, c.m_fields.length)) := by
  unfold Variant.write_slot
  simp only [List.getElem?_modify]
  cases hc : v.m_calls[i]? with
  | none => simp
  | some c =>
    by_cases hj : j = i
    · simp [hj]
    · simp [hj]

/-- With a handle outside the Variant, `set_call_field_ref` is `set_call_field`. -/
theorem Variant.set_call_field_ref_outside (v : Variant) (call_idx field_idx : Nat)
    (field : Option VariantFieldBase) :
    v.set_call_field_ref call_idx field_idx (.outside field)
      = match v.set_call_field call_idx field_idx field with
        | .ok s => .ok (s.1, .outside s.2)
        | .assert_failed s => .assert_failed (s.1, .outside s.2) := by
  rcases Variant.set_call_field_cases v call_idx field_idx field with
    ⟨h, e⟩ | ⟨c, hc, h, e⟩ | ⟨c, f, hc, h, e⟩ | ⟨c, hc, h, e⟩
  · rw [e]
    simp [Variant.set_call_field_ref, FieldHandle.get, h]
  · rw [e]
    obtain ⟨hlt, hget⟩ := List.getElem?_eq_some_iff.mp hc
    simp [Variant.set_call_field_ref, FieldHandle.get, hlt, hget, h]
  · rw [e]
    obtain ⟨hlt, hget⟩ := List.getElem?_eq_some_iff.mp hc
    obtain ⟨hlt2, hget2⟩ := List.getElem?_eq_some_iff.mp h
    simp [Variant.set_call_field_ref, FieldHandle.get, hlt, hget, hlt2, hget2]
  · rw [e]
    obtain ⟨hlt, hget⟩ := List.getElem?_eq_some_iff.mp hc
    obtain ⟨hlt2, hget2⟩ := List.getElem?_eq_some_iff.mp h
    have hm : v.m_calls.modify
          (fun c => { c with m_fields := c.m_fields.set field_idx field }) call_idx
        = v.m_calls.set call_idx { c with m_fields := c.m_fields.set field_idx field } := by
      apply List.ext_getElem?
      intro i
      rw [List.getElem?_modify, List.getElem?_set]
      by_cases hi : call_idx = i
      · subst hi
        simp [hc, hlt]
      · simp [hi]
    simp [Variant.set_call_field_ref, FieldHandle.get, FieldHandle.release,
      Variant.write_slot, hlt, hget, hlt2, hget2, hm]

/-- C4 as stated fails on the code: the handle is passed by reference and can
be a slot of the Variant itself.  With the field of slot 1 of call 0 passed as
`v.get_call_field(0, 1)` to `v.set_call_field(0, 0, ...)`, the conditions of
the claim hold (slot 0 of call 0 is in range and empty), and `release()`
empties slot 1 of call 0, another slot than the addressed one. -/
theorem C4_handle_can_be_another_slot :
    example_field_in_slot_1.get_call_field 0 0 = some none
    ∧ example_field_in_slot_1.get_call_field 0 1 = some (some example_field)
    ∧ (example_field_in_slot_1.set_call_field_ref 0 0 (.slot 0 1)).succeeded = true
    ∧ (example_field_in_slot_1.set_call_field_ref 0 0 (.slot 0 1)).state.1.get_call_field 0 0
        = some (some example_field)
    ∧ (example_field_in_slot_1.set_call_field_ref 0 0 (.slot 0 1)).state.1.get_call_field 0 1
        = some none := by
  refine ⟨by decide, by decide, by decide, by decide, by decide⟩

/-- C4 (amended): with `call_idx` and `field_idx` in range and the addressed
slot empty, `set_call_field` called with a handle (one outside the Variant, or
a slot of the Variant obtained from `get_call_field`) runs to its end, the
addressed slot holds the field the handle held, the handle is empty, and
every slot other than the addressed one and the handle, every row index,
validity flag, initialized flag and slot count, the number of calls, the
column interval and the query configuration are as before. -/
theorem C4_set_call_field_frame_apart_from_handle (v : Variant) (call_idx field_idx : Nat)
    (field : FieldHandle) (held : Option VariantFieldBase)
    (hslot : v.get_call_field call_idx field_idx = some none)
    (hfield : field.get v = some held) :
    ∃ (v1 : Variant) (field1 : FieldHandle),
      v.set_call_field_ref call_idx field_idx field = .ok (v1, field1)
      ∧ v1.get_call_field call_idx field_idx = some held
      ∧ field1.get v1 = some none
      ∧ (∀ j k, (j ≠ call_idx ∨ k ≠ field_idx) → field ≠ .slot j k →
          v1.get_call_field j k = v.get_call_field j k)
      ∧ (∀ j : Nat, (v1.m_calls[j]?).map
                (fun c : VariantCall =>
                  (c.m_row_idx, c.m_is_valid, c.m_is_initialized, c.m_fields.length))
            = (v.m_calls[j]?).map
                (fun c : VariantCall =>
                  (c.m_row_idx, c.m_is_valid, c.m_is_initialized, c.m_fields.length)))
      ∧ v1.get_num_calls = v.get_num_calls
      ∧ v1.m_col_begin = v.m_col_begin ∧ v1.m_col_end = v.m_col_end
      ∧ v1.m_query_config = v.m_query_config := by
  have hex : ∃ c, v.m_calls[call_idx]? = some c ∧ c.m_fields[field_idx]? = some none := by
    unfold Variant.get_call_field at hslot
    cases hc : v.m_calls[call_idx]? with
    | none => rw [hc] at hslot; cases hslot
    | some c => rw [hc] at hslot; exact ⟨c, rfl, hslot⟩
  obtain ⟨c, hc, hf⟩ := hex
  obtain ⟨hci, hcget⟩ := List.getElem?_eq_some_iff.mp hc
  obtain ⟨hfi, hfget⟩ := List.getElem?_eq_some_iff.mp hf
  have hrun : v.set_call_field_ref call_idx field_idx field
      = .ok ((field.release v).1.write_slot call_idx field_idx held, (field.release v).2) := by
    simp [Variant.set_call_field_ref, hfield, hci, hcget, hfi, hfget]
  cases field with
  | outside f =>
    have hh : held = f := by
      simp only [FieldHandle.get, Option.some.injEq] at hfield
      exact hfield.symm
    subst hh
    refine ⟨_, _, hrun, ?_, rfl, ?_, ?_, ?_, rfl, rfl, rfl⟩
    · simp [FieldHandle.release, Variant.get_call_field_write_slot, hslot]
    · intro j k hjk _
      rw [FieldHandle.release, Variant.get_call_field_write_slot]
      have : ¬ (j = call_idx ∧ k = field_idx) := by
        rintro ⟨h1, h2⟩
        rcases hjk with h | h
        · exact h h1
        · exact h h2
      rw [if_neg this]
    · intro j
      rw [FieldHandle.release, Variant.scalars_write_slot]
    · simp [FieldHandle.release, Variant.get_num_calls, Variant.write_slot]
  | slot a b =>
    have hab : v.get_call_field a b = some held := hfield
    refine ⟨_, _, hrun, ?_, ?_, ?_, ?_, ?_, rfl, rfl, rfl⟩
    · simp only [FieldHandle.release, Variant.get_call_field_write_slot, and_self, if_true]
      by_cases hsame : call_idx = a ∧ field_idx = b
      · rw [if_pos hsame, hab]
        rfl
      · rw [if_neg hsame, hslot]
        rfl
    · simp only [FieldHandle.release, FieldHandle.get, Variant.get_call_field_write_slot,
        and_self, if_true]
      by_cases hsame : a = call_idx ∧ b = field_idx
      · have hheld : held = none := by
          rw [hsame.1, hsame.2, hslot] at hab
          exact (Option.some.inj hab).symm
        rw [if_pos hsame]
        have hsame2 : call_idx = a ∧ field_idx = b := ⟨hsame.1.symm, hsame.2.symm⟩
        rw [if_pos hsame2, hsame.1, hsame.2, hslot, hheld]
        rfl
      · rw [if_neg hsame, hab]
        rfl
    · intro j k hjk hne
      simp only [FieldHandle.release, Variant.get_call_field_write_slot]
      have h1 : ¬ (j = call_idx ∧ k = field_idx) := by
        rintro ⟨h1, h2⟩
        rcases hjk with h | h
        · exact h h1
        · exact h h2
      have h2 : ¬ (j = a ∧ k = b) := by
        rintro ⟨h3, h4⟩
        apply hne
        rw [h3, h4]
      rw [if_neg h1, if_neg h2]
    · intro j
      simp only [FieldHandle.release]
      rw [Variant.scalars_write_slot, Variant.scalars_write_slot]
    · simp [FieldHandle.release, Variant.get_num_calls, Variant.write_slot]

/-- C4 (amended) at a concrete input: the field of slot 1 of call 0 passed by
reference to `set_call_field(0, 0, ...)` on the same Variant. -/
theorem C4_set_call_field_frame_apart_from_handle_witness :
    example_field_in_slot_1.get_call_field 0 0 = some none
    ∧ (FieldHandle.slot 0 1).get example_field_in_slot_1 = some (some example_field)
    ∧ ∃ (v1 : Variant) (field1 : FieldHandle),
      example_field_in_slot_1.set_call_field_ref 0 0 (.slot 0 1) = .ok (v1, field1)
      ∧ v1.get_call_field 0 0 = some (some example_field)
      ∧ field1.get v1 = some none
      ∧ (∀ j k, (j ≠ 0 ∨ k ≠ 0) → FieldHandle.slot 0 1 ≠ .slot j k →
          v1.get_call_field j k = example_field_in_slot_1.get_call_field j k)
      ∧ (∀ j : Nat, (v1.m_calls[j]?).map
                (fun c : VariantCall =>
                  (c.m_row_idx, c.m_is_valid, c.m_is_initialized, c.m_fields.length))
            = (example_field_in_slot_1.m_calls[j]?).map
                (fun c : VariantCall =>
                  (c.m_row_idx, c.m_is_valid, c.m_is_initialized, c.m_fields.length)))
      ∧ v1.get_num_calls = example_field_in_slot_1.get_num_calls
      ∧ v1.m_col_begin = example_field_in_slot_1.m_col_begin
      ∧ v1.m_col_end = example_field_in_slot_1.m_col_end
      ∧ v1.m_query_config = example_field_in_slot_1.m_query_config :=
  ⟨by decide, by decide,
    C4_set_call_field_frame_apart_from_handle example_field_in_slot_1 0 0 (.slot 0 1)
      (some example_field) (by decide) (by decide)⟩

/-! ## ValidVariantCallIter -/

/-- The valid calls of `l` with their positions, when `l` starts at position `p`. -/
theorem valid_from_cons (p : Nat) (c : VariantCall) (l : List VariantCall) :
    ((List.enumFrom p (c :: l)).filter (fun q => q.2.is_valid)).map (fun q => (q.2, q.1))
      = if c.is_valid then
          (c, p) :: ((List.enumFrom (p + 1) l).filter (fun q => q.2.is_valid)).map
            (fun q => (q.2, q.1))
        else ((List.enumFrom (p + 1) l).filter (fun q => q.2.is_valid)).map
            (fun q => (q.2, q.1)) := by
  by_cases h : c.is_valid = true
  · simp [List.enumFrom_cons, List.filter_cons, h]
  · simp [List.enumFrom_cons, List.filter_cons, h]

theorem valid_from_skip (skipped rest : List VariantCall) (p : Nat)
    (hs : ∀ c ∈ skipped, c.is_valid = false) :
    ((List.enumFrom p (skipped ++ rest)).filter (fun q => q.2.is_valid)).map (fun q => (q.2, q.1))
      = ((List.enumFrom (p + skipped.length) rest).filter (fun q => q.2.is_valid)).map
          (fun q => (q.2, q.1)) := by
  induction skipped generalizing p with
  | nil => simp
  | cons c s ih =>
    have hc : c.is_valid = false := hs c (List.mem_cons_self _ _)
    rw [List.cons_append, valid_from_cons, hc]
    simp only [Bool.false_eq_true, if_false]
    rw [ih (p + 1) (fun c hc => hs c (List.mem_cons_of_mem _ hc))]
    simp only [List.length_cons]
    congr 3
    omega

theorem getElem_append_cons_length {α : Type} (pre : List α) (c : α) (rest : List α)
    (h : pre.length < (pre ++ c :: rest).length) : (pre ++ c :: rest)[pre.length] = c := by
  have h2 : (pre ++ c :: rest)[pre.length]? = some c := by
    rw [List.getElem?_append_right (Nat.le_refl _)]
    simp
  obtain ⟨_, h3⟩ := List.getElem?_eq_some_iff.mp h2
  exact h3

/-- The loop of `operator++` started at the position after `pre`: it stops
after a run of invalid calls, at the end of the vector or at a valid call. -/
theorem ValidVariantCallIter.skip_invalid_spec (suf pre : List VariantCall) (k : Nat) :
    ∃ skipped rest, suf = skipped ++ rest
      ∧ (∀ c ∈ skipped, c.is_valid = false)
      ∧ (rest = [] ∨ ∃ c r, rest = c :: r ∧ c.is_valid = true)
      ∧ ValidVariantCallIter.skip_invalid (pre ++ suf)
            { m_iter_position := pre.length, m_end := (pre ++ suf).length,
              m_call_idx_in_variant := k }
          = some { m_iter_position := pre.length + skipped.length,
                   m_end := (pre ++ suf).length,
                   m_call_idx_in_variant := k + skipped.length } := by
  induction suf generalizing pre k with
  | nil =>
    refine ⟨[], [], rfl, by simp, Or.inl rfl, ?_⟩
    unfold ValidVariantCallIter.skip_invalid
    simp
  | cons c rest ih =>
    have hlt : pre.length < (pre ++ c :: rest).length := by simp
    have hget : (pre ++ c :: rest)[pre.length] = c := getElem_append_cons_length pre c rest hlt
    by_cases hv : c.is_valid = true
    · refine ⟨[], c :: rest, rfl, by simp, Or.inr ⟨c, rest, rfl, hv⟩, ?_⟩
      unfold ValidVariantCallIter.skip_invalid
      simp [hget, hv]
    · obtain ⟨skipped, rest2, hsplit, hinv, hnorm, hrun⟩ := ih (pre ++ [c]) (k + 1)
      have hv2 : c.is_valid = false := by simpa using hv
      refine ⟨c :: skipped, rest2, by rw [hsplit]; rfl, ?_, hnorm, ?_⟩
      · intro d hd
        rcases List.mem_cons.mp hd with rfl | hd
        · exact hv2
        · exact hinv d hd
      · unfold ValidVariantCallIter.skip_invalid
        have hne : pre.length ≠ (pre ++ c :: rest).length := by omega
        simp only [hne, ne_eq, not_false_eq_true, if_true, hlt, dite_true, hget, hv2,
          Bool.not_false]
        have e1 : pre ++ c :: rest = (pre ++ [c]) ++ rest := by simp
        have e2 : pre.length + 1 = (pre ++ [c]).length := by simp
        rw [e1, e2, hrun]
        simp only [List.length_append, List.length_cons, List.length_nil]
        congr 2 <;> omega

theorem ValidVariantCallIter.ctor_eq_skip_invalid (calls : List VariantCall) (x e k : Nat) :
    ValidVariantCallIter.ctor calls x e k
      = ValidVariantCallIter.skip_invalid calls
          { m_iter_position := x, m_end := e, m_call_idx_in_variant := k } := by
  unfold ValidVariantCallIter.ctor
  rw [ValidVariantCallIter.skip_invalid]
  rfl

theorem Variant.end_eq (v : Variant) :
    v.end_ = some { m_iter_position := v.m_calls.length, m_end := v.m_calls.length,
                    m_call_idx_in_variant := v.m_calls.length } := by
  unfold Variant.end_ ValidVariantCallIter.ctor
  simp

/-- The traversal from a position that is the end or holds a valid call. -/
theorem Variant.traverse_from_spec (v : Variant) (fuel : Nat) :
    ∀ (pre suf : List VariantCall), v.m_calls = pre ++ suf → suf.length < fuel →
      (suf = [] ∨ ∃ c r, suf = c :: r ∧ c.is_valid = true) →
      v.traverse_from fuel
          { m_iter_position := pre.length, m_end := v.m_calls.length,
            m_call_idx_in_variant := pre.length }
        = some (((List.enumFrom pre.length suf).filter (fun q => q.2.is_valid)).map
            (fun q => (q.2, q.1))) := by
  induction fuel with
  | zero => intro pre suf _ h; omega
  | succ fuel ih =>
    intro pre suf hsplit hfuel hnorm
    unfold Variant.traverse_from
    rw [Variant.end_eq]
    rcases hnorm with rfl | ⟨c, r, rfl, hv⟩
    · simp [ValidVariantCallIter.ne, hsplit]
    · have hne : pre.length ≠ v.m_calls.length := by rw [hsplit]; simp
      have hderef : ValidVariantCallIter.deref v.m_calls
          { m_iter_position := pre.length, m_end := v.m_calls.length,
            m_call_idx_in_variant := pre.length } = some c := by
        simp only [ValidVariantCallIter.deref]
        rw [hsplit, List.getElem?_append_right (Nat.le_refl _)]
        simp
      obtain ⟨skipped, rest, hs, hinv, hnorm2, hrun⟩ :=
        ValidVariantCallIter.skip_invalid_spec r (pre ++ [c]) ((pre ++ [c]).length)
      have e1 : v.m_calls = (pre ++ [c]) ++ r := by rw [hsplit]; simp
      have hinc : ValidVariantCallIter.increment v.m_calls
          { m_iter_position := pre.length, m_end := v.m_calls.length,
            m_call_idx_in_variant := pre.length }
          = some { m_iter_position := (pre ++ [c] ++ skipped).length,
                   m_end := v.m_calls.length,
                   m_call_idx_in_variant := (pre ++ [c] ++ skipped).length } := by
        unfold ValidVariantCallIter.increment
        simp only []
        have e2 : pre.length + 1 = (pre ++ [c]).length := by simp
        rw [e1]
        rw [e1] at hne
        rw [e2, hrun]
        simp [Nat.add_assoc]; omega
      simp only [ValidVariantCallIter.ne, bne_iff_ne, ne_eq, hne, not_false_eq_true, if_true,
        hderef, hinc]
      have hsplit2 : v.m_calls = (pre ++ [c] ++ skipped) ++ rest := by
        rw [e1, hs]; simp
      have hlen : rest.length < fuel := by
        have : r.length = skipped.length + rest.length := by rw [hs]; simp
        simp only [List.length_cons] at hfuel
        omega
      rw [ih (pre ++ [c] ++ skipped) rest hsplit2 hlen hnorm2]
      have hidx : (pre ++ [c] ++ skipped).length = pre.length + 1 + skipped.length := by
        simp; omega
      rw [valid_from_cons, hv, hs, valid_from_skip skipped rest (pre.length + 1) hinv, hidx]
      simp [ValidVariantCallIter.get_call_idx_in_variant]

/-- C5: with more loop tests allowed than there are calls, the traversal from
`begin()` until the iterator no longer differs from `end()` ends, and it yields
exactly the calls for which `is_valid()` holds, each once and in increasing
position order, each paired by `get_call_idx_in_variant()` with its position in
the vector of calls; and `begin()` differs from `end()` exactly when some call
is valid. -/
theorem C5_valid_call_iteration (v : Variant) (fuel : Nat) (hfuel : v.m_calls.length < fuel) :
    v.traverse fuel = some (valid_calls_with_position v.m_calls)
    ∧ ∃ b e, v.begin = some b ∧ v.end_ = some e
        ∧ (b.ne e = true ↔ ∃ c ∈ v.m_calls, c.is_valid = true) := by
  obtain ⟨skipped, rest, hs, hinv, hnorm, hrun⟩ :=
    ValidVariantCallIter.skip_invalid_spec v.m_calls [] 0
  simp only [List.nil_append, List.length_nil, Nat.zero_add] at hrun
  have hbegin : v.begin = some (ValidVariantCallIter.mk skipped.length v.m_calls.length
      skipped.length) := by
    unfold Variant.begin
    rw [ValidVariantCallIter.ctor_eq_skip_invalid, hrun]
  constructor
  · unfold Variant.traverse
    rw [hbegin]
    simp only []
    have hlen : rest.length < fuel := by
      have : v.m_calls.length = skipped.length + rest.length := by rw [hs]; simp
      omega
    have := Variant.traverse_from_spec v fuel skipped rest hs hlen hnorm
    rw [this]
    unfold valid_calls_with_position List.enum
    rw [hs, valid_from_skip skipped rest 0 hinv]
    simp
  · refine ⟨_, _, hbegin, Variant.end_eq v, ?_⟩
    simp only [ValidVariantCallIter.ne, bne_iff_ne, ne_eq]
    constructor
    · intro hne
      rcases hnorm with rfl | ⟨c, r, rfl, hv⟩
      · exfalso; apply hne; rw [hs]; simp
      · exact ⟨c, by rw [hs]; simp, hv⟩
    · rintro ⟨c, hc, hv⟩ heq
      have hlen : v.m_calls.length = skipped.length + rest.length := by rw [hs]; simp
      have hrest : rest = [] := by
        apply List.eq_nil_of_length_eq_zero; omega
      rw [hs, hrest, List.append_nil] at hc
      rw [hinv c hc] at hv
      cases hv

/-- C5 at a concrete input: a resized Variant whose call 1 was marked valid,
traversed with three loop tests. -/
theorem C5_valid_call_iteration_witness :
    (example_resized.get_call_and 1 (fun c => c.mark_valid true)).state.m_calls.length < 3
    ∧ (example_resized.get_call_and 1 (fun c => c.mark_valid true)).state.traverse 3
        = some (valid_calls_with_position
            (example_resized.get_call_and 1 (fun c => c.mark_valid true)).state.m_calls)
    ∧ ∃ b e, (example_resized.get_call_and 1 (fun c => c.mark_valid true)).state.begin = some b
        ∧ (example_resized.get_call_and 1 (fun c => c.mark_valid true)).state.end_ = some e
        ∧ (b.ne e = true
            ↔ ∃ c ∈ (example_resized.get_call_and 1 (fun c => c.mark_valid true)).state.m_calls,
                c.is_valid = true) :=
  ⟨by decide,
    C5_valid_call_iteration (example_resized.get_call_and 1 (fun c => c.mark_valid true)).state 3
      (by decide)⟩

/-! ## reset_for_new_interval -/

/-- C6: after `Variant::reset_for_new_interval` every call is invalid and
uninitialized, while the number of calls, the row index and the number of
slots of every call, the column interval and the query configuration are
unchanged. -/
theorem C6_reset_for_new_interval_frame (v : Variant) :
    (∀ c ∈ v.reset_for_new_interval.m_calls, c.is_valid = false ∧ c.is_initialized = false)
    ∧ v.reset_for_new_interval.get_num_calls = v.get_num_calls
    ∧ (∀ j : Nat, (v.reset_for_new_interval.m_calls[j]?).map
          (fun c : VariantCall => (c.get_row_idx, c.m_fields.length))
        = (v.m_calls[j]?).map (fun c : VariantCall => (c.get_row_idx, c.m_fields.length)))
    ∧ v.reset_for_new_interval.m_col_begin = v.m_col_begin
    ∧ v.reset_for_new_interval.m_col_end = v.m_col_end
    ∧ v.reset_for_new_interval.m_query_config = v.m_query_config := by
  refine ⟨?_, ?_, ?_, rfl, rfl, rfl⟩
  · intro c hc
    simp only [Variant.reset_for_new_interval, List.mem_map] at hc
    obtain ⟨d, _, rfl⟩ := hc
    exact ⟨rfl, rfl⟩
  · simp [Variant.reset_for_new_interval, Variant.get_num_calls]
  · intro j
    simp only [Variant.reset_for_new_interval, List.getElem?_map, Option.map_map]
    rfl

/-! ## Reset, then populate again -/

theorem map_modify_comm {α β : Type} (g : α → β) (f : α → α) (f2 : β → β)
    (h : ∀ x, g (f x) = f2 (g x)) (l : List α) (i : Nat) :
    (l.modify f i).map g = (l.map g).modify f2 i := by
  induction l generalizing i with
  | nil => simp
  | cons a l ih =>
    cases i with
    | zero => simp [h]
    | succ i => simp [ih]

theorem map_modify_same {α β : Type} (g : α → β) (f : α → α)
    (h : ∀ x, g (f x) = g x) (l : List α) (i : Nat) :
    (l.modify f i).map g = l.map g := by
  rw [map_modify_comm g f id (fun x => by simp [h]) l i, List.modify_id]

theorem map_set_same {α β : Type} (g : α → β) (l : List α) (i : Nat) (c x : α)
    (hc : l[i]? = some c) (h : g x = g c) :
    (l.set i x).map g = l.map g := by
  induction l generalizing i with
  | nil => simp
  | cons a l ih =>
    cases i with
    | zero =>
      simp only [List.getElem?_cons_zero, Option.some.injEq] at hc
      subst hc
      simp [h]
    | succ i =>
      simp only [List.getElem?_cons_succ] at hc
      simp [ih i hc]

theorem populate_cons_ok (step : PopulationStep) (rest : List PopulationStep) (a v1 : Variant)
    (h : populate (step :: rest) a = .ok v1) :
    ∃ a1, step.run a = .ok a1 ∧ populate rest a1 = .ok v1 := by
  unfold populate at h
  cases hrun : step.run a with
  | ok a1 => rw [hrun] at h; exact ⟨a1, rfl, h⟩
  | assert_failed a1 => rw [hrun] at h; cases h

theorem PopulationStep.run_length (step : PopulationStep) (a a1 : Variant)
    (h : step.run a = .ok a1) : a1.m_calls.length = a.m_calls.length := by
  cases step with
  | set_column_interval b e =>
    simp only [PopulationStep.run, Outcome.ok.injEq] at h
    subst h; rfl
  | set_call_field ci fi field =>
    simp only [PopulationStep.run] at h
    rcases Variant.set_call_field_cases a ci fi field with
      ⟨_, e⟩ | ⟨c, _, _, e⟩ | ⟨c, f, _, _, e⟩ | ⟨c, _, _, e⟩
    · rw [e] at h; cases h
    · rw [e] at h; cases h
    · rw [e] at h; cases h
    · rw [e] at h
      simp only [Outcome.ok.injEq] at h
      subst h; simp
  | mark_valid ci val =>
    simp only [PopulationStep.run, Variant.get_call_and] at h
    split at h
    · simp only [Outcome.ok.injEq] at h
      subst h; simp
    · cases h
  | mark_initialized ci val =>
    simp only [PopulationStep.run, Variant.get_call_and] at h
    split at h
    · simp only [Outcome.ok.injEq] at h
      subst h; simp
    · cases h

theorem populate_length (steps : List PopulationStep) (a v1 : Variant)
    (h : populate steps a = .ok v1) : v1.m_calls.length = a.m_calls.length := by
  induction steps generalizing a with
  | nil =>
    simp only [populate, Outcome.ok.injEq] at h
    subst h; rfl
  | cons step rest ih =>
    obtain ⟨a1, h1, h2⟩ := populate_cons_ok step rest a v1 h
    rw [ih a1 h2, PopulationStep.run_length step a a1 h1]

theorem calls_eq_of_maps (l1 l2 : List VariantCall)
    (h1 : l1.map (fun c => (c.m_is_valid, c.m_is_initialized))
        = l2.map (fun c => (c.m_is_valid, c.m_is_initialized)))
    (h2 : l1.map (fun c => (c.m_row_idx, c.m_fields))
        = l2.map (fun c => (c.m_row_idx, c.m_fields))) : l1 = l2 := by
  induction l1 generalizing l2 with
  | nil =>
    cases l2 with
    | nil => rfl
    | cons b l2 => simp at h1
  | cons a l1 ih =>
    cases l2 with
    | nil => simp at h1
    | cons b l2 =>
      simp only [List.map_cons, List.cons.injEq, Prod.mk.injEq] at h1 h2
      obtain ⟨⟨hv, hi⟩, ht1⟩ := h1
      obtain ⟨⟨hr, hf⟩, ht2⟩ := h2
      rw [ih l2 ht1 ht2]
      cases a; cases b
      simp only at hv hi hr hf
      subst hv hi hr hf
      rfl

/-- The second population, run beside the first: `a` is the state of the first
run, `b` the state of the second, `v1` the Variant the first run ends in. -/
theorem repopulate_simulation (steps : List PopulationStep) (v1 : Variant) :
    ∀ a b : Variant,
      a.m_calls.map (fun c => (c.m_is_valid, c.m_is_initialized))
        = b.m_calls.map (fun c => (c.m_is_valid, c.m_is_initialized)) →
      b.m_calls.map (fun c => (c.m_row_idx, c.m_fields))
        = v1.m_calls.map (fun c => (c.m_row_idx, c.m_fields)) →
      b.m_query_config = v1.m_query_config →
      ((b.m_col_begin = v1.m_col_begin ∧ b.m_col_end = v1.m_col_end)
        ∨ (a.m_col_begin = b.m_col_begin ∧ a.m_col_end = b.m_col_end)) →
      populate steps a = .ok v1 →
      populate (steps.filter (fun s => !s.is_set_call_field)) b = .ok v1 := by
  induction steps with
  | nil =>
    intro a b hflags hrest hcfg hint hpop
    simp only [populate, Outcome.ok.injEq] at hpop
    subst hpop
    simp only [List.filter_nil, populate, Outcome.ok.injEq]
    have hcalls := calls_eq_of_maps _ _ hflags.symm hrest
    have hi : b.m_col_begin = a.m_col_begin ∧ b.m_col_end = a.m_col_end := by
      rcases hint with h | h
      · exact h
      · exact ⟨h.1.symm, h.2.symm⟩
    cases a; cases b
    simp only at hcalls hcfg hi
    obtain ⟨hb, he⟩ := hi
    subst hcalls hcfg hb he
    rfl
  | cons step rest ih =>
    intro a b hflags hrest hcfg hint hpop
    obtain ⟨a1, hrun, hpop1⟩ := populate_cons_ok step rest a v1 hpop
    have hlen : a.m_calls.length = b.m_calls.length := by
      have := congrArg List.length hflags
      simpa using this
    cases step with
    | set_column_interval x y =>
      simp only [PopulationStep.run, Outcome.ok.injEq] at hrun
      subst hrun
      simp only [List.filter_cons, PopulationStep.is_set_call_field, Bool.not_false, if_true,
        populate, PopulationStep.run]
      exact ih (a.set_column_interval x y) (b.set_column_interval x y) hflags hrest hcfg
        (Or.inr ⟨rfl, rfl⟩) hpop1
    | set_call_field ci fi field =>
      simp only [List.filter_cons, PopulationStep.is_set_call_field, Bool.not_true,
        Bool.false_eq_true, if_false]
      simp only [PopulationStep.run] at hrun
      rcases Variant.set_call_field_cases a ci fi field with
        ⟨_, e⟩ | ⟨c, _, _, e⟩ | ⟨c, f, _, _, e⟩ | ⟨c, hc, _, e⟩
      · rw [e] at hrun; cases hrun
      · rw [e] at hrun; cases hrun
      · rw [e] at hrun; cases hrun
      · rw [e] at hrun
        simp only [Outcome.ok.injEq] at hrun
        subst hrun
        refine ih _ b ?_ hrest hcfg ?_ hpop1
        · simp only []
          rw [map_set_same (fun c : VariantCall => (c.m_is_valid, c.m_is_initialized))
            a.m_calls ci c { c with m_fields := c.m_fields.set fi field } hc rfl]
          exact hflags
        · exact hint
    | mark_valid ci val =>
      simp only [PopulationStep.run, Variant.get_call_and] at hrun
      split at hrun
      · rename_i hci
        simp only [Outcome.ok.injEq] at hrun
        subst hrun
        have hci2 : ci < b.m_calls.length := by omega
        simp only [List.filter_cons, PopulationStep.is_set_call_field, Bool.not_false, if_true,
          populate, PopulationStep.run, Variant.get_call_and, hci2]
        refine ih _ _ ?_ ?_ ?_ ?_ hpop1
        · simp only []
          rw [map_modify_comm (fun c : VariantCall => (c.m_is_valid, c.m_is_initialized))
              (fun c => c.mark_valid val) (fun p : Bool × Bool => (val, p.2)) (fun _ => rfl) a.m_calls ci,
            map_modify_comm (fun c : VariantCall => (c.m_is_valid, c.m_is_initialized))
              (fun c => c.mark_valid val) (fun p : Bool × Bool => (val, p.2)) (fun _ => rfl) b.m_calls ci,
            hflags]
        · simp only []
          rw [map_modify_same (fun c : VariantCall => (c.m_row_idx, c.m_fields))
            (fun c => c.mark_valid val) (fun _ => rfl) b.m_calls ci]
          exact hrest
        · exact hcfg
        · exact hint
      · cases hrun
    | mark_initialized ci val =>
      simp only [PopulationStep.run, Variant.get_call_and] at hrun
      split at hrun
      · rename_i hci
        simp only [Outcome.ok.injEq] at hrun
        subst hrun
        have hci2 : ci < b.m_calls.length := by omega
        simp only [List.filter_cons, PopulationStep.is_set_call_field, Bool.not_false, if_true,
          populate, PopulationStep.run, Variant.get_call_and, hci2]
        refine ih _ _ ?_ ?_ ?_ ?_ hpop1
        · simp only []
          rw [map_modify_comm (fun c : VariantCall => (c.m_is_valid, c.m_is_initialized))
              (fun c => c.mark_initialized val) (fun p : Bool × Bool => (p.1, val)) (fun _ => rfl) a.m_calls ci,
            map_modify_comm (fun c : VariantCall => (c.m_is_valid, c.m_is_initialized))
              (fun c => c.mark_initialized val) (fun p : Bool × Bool => (p.1, val)) (fun _ => rfl) b.m_calls ci,
            hflags]
        · simp only []
          rw [map_modify_same (fun c : VariantCall => (c.m_row_idx, c.m_fields))
            (fun c => c.mark_initialized val) (fun _ => rfl) b.m_calls ci]
          exact hrest
        · exact hcfg
        · exact hint
      · cases hrun

/-- C7 as stated fails on the code: `example_resized` is a freshly resized
Variant, `example_population` sets a field into an empty slot and succeeds,
and after `reset_for_new_interval` repeating the same population stops at the
failed assertion of `set_field`, because the slot still holds its field. -/
theorem C7_repeated_population_fails :
    ((Variant.ctor 0 (some example_config)).resize_based_on_query 0).succeeded = true
    ∧ example_resized.get_call_field 1 0 = some none
    ∧ (populate example_population example_resized).succeeded = true
    ∧ (populate example_population
        (populate example_population example_resized).state.reset_for_new_interval).succeeded
        = false
    ∧ (populate example_population example_resized).state.reset_for_new_interval.get_call_field
        1 0 = some (some example_field) := by
  refine ⟨rfl, by decide, rfl, rfl, by decide⟩

/-- C7 (amended): when every call is invalid and uninitialized as the
population starts (as `resize_based_on_query` leaves a Variant that had no
calls) and the population succeeds, then after `reset_for_new_interval`
repeating the population calls other than `set_call_field` succeeds and leaves
the very Variant the first population left, so the printed text is the same
byte for byte. -/
theorem C7_reset_then_repopulate (v0 v1 : Variant) (steps : List PopulationStep)
    (hflags : ∀ c ∈ v0.m_calls, c.is_valid = false ∧ c.is_initialized = false)
    (hpop : populate steps v0 = .ok v1) :
    ∃ v2 : Variant,
      populate (steps.filter (fun s => !s.is_set_call_field)) v1.reset_for_new_interval = .ok v2
      ∧ v2 = v1
      ∧ ∀ fptr : String, v2.print fptr = v1.print fptr := by
  refine ⟨v1, ?_, rfl, fun _ => rfl⟩
  apply repopulate_simulation steps v1 v0 v1.reset_for_new_interval
  · have hlen := populate_length steps v0 v1 hpop
    have h0 : v0.m_calls.map (fun c => (c.m_is_valid, c.m_is_initialized))
        = List.replicate v0.m_calls.length (false, false) := by
      apply List.eq_replicate_iff.mpr
      refine ⟨by simp, ?_⟩
      intro p hp
      simp only [List.mem_map] at hp
      obtain ⟨c, hc, rfl⟩ := hp
      have := hflags c hc
      simp only [VariantCall.is_valid, VariantCall.is_initialized] at this
      rw [this.1, this.2]
    have h1 : v1.reset_for_new_interval.m_calls.map (fun c => (c.m_is_valid, c.m_is_initialized))
        = List.replicate v1.m_calls.length (false, false) := by
      apply List.eq_replicate_iff.mpr
      refine ⟨by simp [Variant.reset_for_new_interval], ?_⟩
      intro p hp
      simp only [Variant.reset_for_new_interval, List.map_map, List.mem_map] at hp
      obtain ⟨c, _, rfl⟩ := hp
      rfl
    rw [h0, h1, hlen]
  · simp only [Variant.reset_for_new_interval, List.map_map]
    rfl
  · rfl
  · exact Or.inl ⟨rfl, rfl⟩
  · exact hpop

/-- C7 (amended) at a concrete input: `example_population` on `example_resized`. -/
theorem C7_reset_then_repopulate_witness :
    (∀ c ∈ example_resized.m_calls, c.is_valid = false ∧ c.is_initialized = false)
    ∧ ∃ v2 : Variant,
      populate (example_population.filter (fun s => !s.is_set_call_field))
          (populate example_population example_resized).state.reset_for_new_interval = .ok v2
      ∧ v2 = (populate example_population example_resized).state
      ∧ ∀ fptr : String,
          v2.print fptr = (populate example_population example_resized).state.print fptr :=
  ⟨by decide,
    C7_reset_then_repopulate example_resized (populate example_population example_resized).state
      example_population (by decide) rfl⟩

/-! ## VariantIntervalPQ -/

theorem is_heap_iff {α : Type} (comp : α → α → Bool) (a : List α) :
    is_heap comp a = true
      ↔ ∀ (i : Nat) (p x : α), 0 < i → a[(i - 1) / 2]? = some p → a[i]? = some x →
          comp p x = false := by
  unfold is_heap
  rw [List.all_eq_true]
  constructor
  · intro h i p x hi hp hx
    have hlt : i < a.length := (List.getElem?_eq_some_iff.mp hx).1
    have := h i (List.mem_range.mpr hlt)
    rw [hp, hx] at this
    have hi0 : (i == 0) = false := by simp; omega
    simpa [hi0] using this
  · intro h i _
    by_cases hi0 : i = 0
    · simp [hi0]
    · have hi : (i == 0) = false := by simpa using hi0
      rw [hi, Bool.false_or]
      cases hp : a[(i - 1) / 2]? with
      | none => rfl
      | some p =>
        cases hx : a[i]? with
        | none => rfl
        | some x =>
          have := h i p x (by omega) hp hx
          simp [this]

theorem is_heap_nil {α : Type} (comp : α → α → Bool) : is_heap comp ([] : List α) = true := rfl

/-- With `CmpPQStruct`, the first entry of a heap has the smallest `m_end_point`. -/
theorem heap_front_le (a : List PQStruct) (h : is_heap CmpPQStruct a = true) (t : PQStruct)
    (ht : a[0]? = some t) :
    ∀ (i : Nat) (x : PQStruct), a[i]? = some x → t.m_end_point ≤ x.m_end_point := by
  intro i
  induction i using Nat.strong_induction_on with
  | _ i ih =>
    intro x hx
    by_cases hi : i = 0
    · subst hi
      rw [ht] at hx
      cases hx
      exact le_refl _
    · have hlt : i < a.length := (List.getElem?_eq_some_iff.mp hx).1
      have hplt : (i - 1) / 2 < a.length := by omega
      have hp : a[(i - 1) / 2]? = some a[(i - 1) / 2] := List.getElem?_eq_getElem hplt
      have h1 := ih ((i - 1) / 2) (by omega) _ hp
      have h2 := (is_heap_iff CmpPQStruct a).mp h i _ x (by omega) hp hx
      simp only [CmpPQStruct, gt_iff_lt, decide_eq_false_iff_not, not_lt] at h2
      exact le_trans h1 h2

theorem heap_top_le (q : VariantIntervalPQ) (h : is_heap CmpPQStruct q.c = true)
    (t : PQStruct) (ht : q.top = some t) : ∀ x ∈ q.c, t.m_end_point ≤ x.m_end_point := by
  intro x hx
  obtain ⟨i, hi⟩ := List.getElem?_of_mem hx
  have ht0 : q.c[0]? = some t := by
    unfold VariantIntervalPQ.top at ht
    rw [← ht]
    cases q.c <;> simp
  exact heap_front_le q.c h t ht0 i x hi

theorem push_spec (H : HeapAlgorithms PQStruct) (hH : H.meets_contract CmpPQStruct)
    (q : VariantIntervalPQ) (x : PQStruct) (h : is_heap CmpPQStruct q.c = true) :
    is_heap CmpPQStruct (q.push H x).c = true ∧ List.Perm (q.push H x).c (q.c ++ [x]) := by
  obtain ⟨hperm, hheap, _⟩ := hH
  have hpre : is_heap CmpPQStruct (q.c ++ [x]).dropLast = true := by
    rw [List.dropLast_concat]
    exact h
  exact ⟨hheap _ hpre, hperm _ hpre⟩

theorem push_all_spec (H : HeapAlgorithms PQStruct) (hH : H.meets_contract CmpPQStruct)
    (entries : List PQStruct) :
    ∀ q : VariantIntervalPQ, is_heap CmpPQStruct q.c = true →
      is_heap CmpPQStruct (entries.foldl (VariantIntervalPQ.push H) q).c = true
      ∧ List.Perm (entries.foldl (VariantIntervalPQ.push H) q).c (q.c ++ entries) := by
  induction entries with
  | nil => intro q h; simpa using h
  | cons x rest ih =>
    intro q h
    obtain ⟨h1, h2⟩ := push_spec H hH q x h
    obtain ⟨h3, h4⟩ := ih (q.push H x) h1
    refine ⟨h3, h4.trans ?_⟩
    have := h2.append_right rest
    simpa using this

theorem pop_spec (H : HeapAlgorithms PQStruct) (hH : H.meets_contract CmpPQStruct)
    (q : VariantIntervalPQ) (h : is_heap CmpPQStruct q.c = true) (t : PQStruct)
    (ht : q.top = some t) :
    is_heap CmpPQStruct (q.pop H).c = true ∧ List.Perm (t :: (q.pop H).c) q.c := by
  obtain ⟨_, _, hlast, hperm, hheap⟩ := hH
  have hne : q.c ≠ [] := by
    intro h0
    unfold VariantIntervalPQ.top at ht
    rw [h0] at ht
    cases ht
  refine ⟨hheap q.c hne h, ?_⟩
  have hl : (H.pop_heap q.c).getLast? = some t := by
    rw [hlast q.c hne h]; exact ht
  have hsplit : (H.pop_heap q.c).dropLast ++ [t] = H.pop_heap q.c :=
    List.dropLast_append_getLast? t hl
  have h1 : List.Perm (t :: (H.pop_heap q.c).dropLast) (H.pop_heap q.c) := by
    rw [← hsplit, List.dropLast_concat]
    exact (List.perm_append_singleton t _).symm
  exact h1.trans (hperm q.c hne h)

theorem pop_until_empty_spec (H : HeapAlgorithms PQStruct) (hH : H.meets_contract CmpPQStruct)
    (fuel : Nat) :
    ∀ q : VariantIntervalPQ, is_heap CmpPQStruct q.c = true → q.c.length ≤ fuel →
      ∃ out, VariantIntervalPQ.pop_until_empty H fuel q = some out
        ∧ List.Perm out q.c
        ∧ out.Pairwise (fun x y => x.m_end_point ≤ y.m_end_point) := by
  induction fuel with
  | zero =>
    intro q _ hlen
    have : q.c = [] := List.eq_nil_of_length_eq_zero (by omega)
    refine ⟨[], ?_, by rw [this], List.Pairwise.nil⟩
    simp [VariantIntervalPQ.pop_until_empty, VariantIntervalPQ.empty, this]
  | succ fuel ih =>
    intro q h hlen
    cases hc : q.c with
    | nil =>
      refine ⟨[], ?_, List.Perm.refl _, List.Pairwise.nil⟩
      simp [VariantIntervalPQ.pop_until_empty, VariantIntervalPQ.empty, hc]
    | cons t rest =>
      have ht : q.top = some t := by simp [VariantIntervalPQ.top, hc]
      obtain ⟨h1, h2⟩ := pop_spec H hH q h t ht
      have hlen2 : (q.pop H).c.length ≤ fuel := by
        have := h2.length_eq
        simp only [List.length_cons] at this
        omega
      obtain ⟨out, hrun, hperm, hsorted⟩ := ih (q.pop H) h1 hlen2
      refine ⟨t :: out, ?_, ?_, ?_⟩
      · simp [VariantIntervalPQ.pop_until_empty, VariantIntervalPQ.empty, hc, ht, hrun]
      · rw [← hc]
        exact (List.Perm.cons t hperm).trans h2
      · refine List.Pairwise.cons ?_ hsorted
        intro x hx
        apply heap_top_le q h t ht
        have : x ∈ t :: (q.pop H).c := List.mem_cons_of_mem _ (hperm.subset hx)
        exact h2.subset this

/-- C8: for every collection of entries pushed into a `VariantIntervalPQ`
(over any heap algorithms meeting the contract of the standard library), the
queue holds exactly the pushed entries, its top entry has an `m_end_point`
less than or equal to that of every entry in the queue, and popping until the
queue is empty ends and returns every pushed entry exactly once, in
non-decreasing `m_end_point` order. -/
theorem C8_min_heap_on_end_point (H : HeapAlgorithms PQStruct)
    (hH : H.meets_contract CmpPQStruct) (entries : List PQStruct) (fuel : Nat)
    (hfuel : entries.length ≤ fuel) :
    List.Perm (VariantIntervalPQ.push_all H entries).c entries
    ∧ (∀ t, (VariantIntervalPQ.push_all H entries).top = some t →
        ∀ x ∈ (VariantIntervalPQ.push_all H entries).c, t.m_end_point ≤ x.m_end_point)
    ∧ ∃ out, VariantIntervalPQ.pop_until_empty H fuel (VariantIntervalPQ.push_all H entries)
          = some out
        ∧ List.Perm out entries
        ∧ out.Pairwise (fun x y => x.m_end_point ≤ y.m_end_point) := by
  obtain ⟨hheap, hperm⟩ := push_all_spec H hH entries VariantIntervalPQ.ctor (is_heap_nil _)
  have hperm2 : List.Perm (VariantIntervalPQ.push_all H entries).c entries := by
    simpa [VariantIntervalPQ.ctor] using hperm
  refine ⟨hperm2, heap_top_le _ hheap, ?_⟩
  have hlen : (VariantIntervalPQ.push_all H entries).c.length ≤ fuel := by
    rw [hperm2.length_eq]; exact hfuel
  obtain ⟨out, hrun, hp, hs⟩ := pop_until_empty_spec H hH fuel _ hheap hlen
  exact ⟨out, hrun, hp.trans hperm2, hs⟩

/-! ### The heap algorithms of libstdc++ meet the contract -/

theorem end_point_at_set (a : List PQStruct) (j : Nat) (x : PQStruct) (i : Nat) :
    end_point_at (a.set j x) i
      = if i = j ∧ j < a.length then x.m_end_point else end_point_at a i := by
  unfold end_point_at
  rw [List.getElem?_set]
  by_cases hij : j = i
  · subst hij
    by_cases hj : j < a.length
    · simp [hj]
    · have : a[j]? = none := by simp; omega
      simp [hj, this]
  · have : ¬ (i = j ∧ j < a.length) := fun h => hij h.1.symm
    simp [hij, this]

theorem end_point_at_of_getElem? (a : List PQStruct) (i : Nat) (x : PQStruct)
    (h : a[i]? = some x) : end_point_at a i = x.m_end_point := by
  unfold end_point_at; rw [h]

theorem is_heap_iff_end_point (a : List PQStruct) :
    is_heap CmpPQStruct a = true
      ↔ ∀ i, 0 < i → i < a.length → end_point_at a ((i - 1) / 2) ≤ end_point_at a i := by
  rw [is_heap_iff]
  constructor
  · intro h i hi hlt
    have hp : a[(i - 1) / 2]? = some a[(i - 1) / 2] := List.getElem?_eq_getElem (by omega)
    have hx : a[i]? = some a[i] := List.getElem?_eq_getElem hlt
    have := h i _ _ hi hp hx
    rw [end_point_at_of_getElem? a _ _ hp, end_point_at_of_getElem? a _ _ hx]
    simpa [CmpPQStruct] using this
  · intro h i p x hi hp hx
    have hlt : i < a.length := (List.getElem?_eq_some_iff.mp hx).1
    have := h i hi hlt
    rw [end_point_at_of_getElem? a _ _ hp, end_point_at_of_getElem? a _ _ hx] at this
    simpa [CmpPQStruct] using this

theorem perm_cons_set {α : Type} (t : List α) (j : Nat) (x y : α) (h : t[j]? = some y) :
    List.Perm (y :: t.set j x) (x :: t) := by
  induction t generalizing j with
  | nil => simp at h
  | cons b t ih =>
    cases j with
    | zero =>
      simp only [List.getElem?_cons_zero, Option.some.injEq] at h
      subst h
      exact List.Perm.swap _ _ _
    | succ k =>
      simp only [List.getElem?_cons_succ] at h
      simp only [List.set_cons_succ]
      exact (List.Perm.swap _ _ _).trans (((ih k h).cons b).trans (List.Perm.swap _ _ _))

/-- Exchanging the elements at two different positions permutes a list. -/
theorem perm_set_set {α : Type} (l : List α) (i j : Nat) (x y : α) (hi : l[i]? = some x)
    (hj : l[j]? = some y) (hij : i ≠ j) : List.Perm ((l.set i y).set j x) l := by
  induction l generalizing i j with
  | nil => simp at hi
  | cons a t ih =>
    cases i with
    | zero =>
      cases j with
      | zero => exact absurd rfl hij
      | succ k =>
        simp only [List.getElem?_cons_zero, Option.some.injEq] at hi
        simp only [List.getElem?_cons_succ] at hj
        subst hi
        simp only [List.set_cons_zero, List.set_cons_succ]
        exact perm_cons_set t k a y hj
    | succ k =>
      cases j with
      | zero =>
        simp only [List.getElem?_cons_zero, Option.some.injEq] at hj
        simp only [List.getElem?_cons_succ] at hi
        subst hj
        simp only [List.set_cons_zero, List.set_cons_succ]
        exact perm_cons_set t k a x hi
      | succ m =>
        simp only [List.getElem?_cons_succ] at hi hj
        simp only [List.set_cons_succ]
        exact (ih k m hi hj (by omega)).cons a

/-- One step of the climbing hole, on end points: `f` before, `g` after the
hole moved from `h` to its parent. -/
theorem climb_step (f g : Nat → Int) (len h : Nat) (hh : 0 < h) (hlen : h < len)
    (hg_p : g ((h - 1) / 2) = f h) (hg_h : g h = f ((h - 1) / 2))
    (hg : ∀ j, j ≠ h → j ≠ (h - 1) / 2 → g j = f j)
    (hlt : f h < f ((h - 1) / 2))
    (e1 : ∀ i, 0 < i → i < len → i ≠ h → f ((i - 1) / 2) ≤ f i)
    (e2 : ∀ c, 0 < c → c < len → (c - 1) / 2 = h → f ((h - 1) / 2) ≤ f c) :
    (∀ i, 0 < i → i < len → i ≠ (h - 1) / 2 → g ((i - 1) / 2) ≤ g i)
    ∧ (0 < (h - 1) / 2 → ∀ c, 0 < c → c < len → (c - 1) / 2 = (h - 1) / 2 →
        g (((h - 1) / 2 - 1) / 2) ≤ g c) := by
  constructor
  · intro i hi hil hip
    by_cases h1 : i = h
    · subst h1
      rw [hg_p, hg_h]
      omega
    · by_cases h2 : (i - 1) / 2 = (h - 1) / 2
      · rw [h2, hg_p, hg i h1 hip]
        have := e1 i hi hil h1
        rw [h2] at this
        omega
      · by_cases h3 : (i - 1) / 2 = h
        · rw [h3, hg_h, hg i h1 hip]
          exact e2 i hi hil h3
        · rw [hg _ h3 h2, hg i h1 hip]
          exact e1 i hi hil h1
  · intro hp c hc hcl hcp
    have hpp : g (((h - 1) / 2 - 1) / 2) = f (((h - 1) / 2 - 1) / 2) :=
      hg _ (by omega) (by omega)
    have e3 := e1 ((h - 1) / 2) hp (by omega) (by omega)
    rw [hpp]
    by_cases h1 : c = h
    · subst h1
      rw [hg_h]
      exact e3
    · rw [hg c h1 (by omega)]
      have := e1 c hc hcl h1
      rw [hcp] at this
      omega

/-- One step of the descending hole, on end points: `f` before, `g` after the
hole moved from `h` to its child `c`, whose end point is not above that of the
other child. -/
theorem descend_step (f g : Nat → Int) (len h c : Nat) (hc : (c - 1) / 2 = h) (hc0 : 0 < c)
    (hcl : c < len)
    (hg_h : g h = f c) (hg_c : g c = f h)
    (hg : ∀ j, j ≠ h → j ≠ c → g j = f j)
    (hmin : ∀ d, 0 < d → d < len → (d - 1) / 2 = h → f c ≤ f d)
    (e1 : ∀ i, 0 < i → i < len → i ≠ h → (i - 1) / 2 ≠ h → f ((i - 1) / 2) ≤ f i)
    (e2 : 0 < h → ∀ d, 0 < d → d < len → (d - 1) / 2 = h → f ((h - 1) / 2) ≤ f d) :
    (∀ i, 0 < i → i < len → i ≠ c → (i - 1) / 2 ≠ c → g ((i - 1) / 2) ≤ g i)
    ∧ (∀ d, 0 < d → d < len → (d - 1) / 2 = c → g ((c - 1) / 2) ≤ g d) := by
  constructor
  · intro i hi hil hic hipc
    by_cases h1 : i = h
    · subst h1
      rw [hg _ (by omega) (by omega), hg_h]
      exact e2 hi c hc0 hcl hc
    · by_cases h2 : (i - 1) / 2 = h
      · rw [h2, hg_h, hg i h1 hic]
        exact hmin i hi hil h2
      · rw [hg _ h2 hipc, hg i h1 hic]
        exact e1 i hi hil h1 h2
  · intro d hd hdl hdc
    rw [hc, hg_h, hg d (by omega) (by omega)]
    have := e1 d hd hdl (by omega) (by omega)
    rw [hdc] at this
    exact this

/-- `std::__push_heap` from a hole `h` with `topIndex` 0: when the range with
`v` put into the hole is a heap except for the edge into the hole, the result
is a heap holding the same elements. -/
theorem std_push_heap_loop_spec (len : Nat) :
    ∀ (h : Nat) (a : List PQStruct) (v : PQStruct), h < len → len ≤ a.length →
      (∀ i, 0 < i → i < len → i ≠ h →
        end_point_at (a.set h v) ((i - 1) / 2) ≤ end_point_at (a.set h v) i) →
      (0 < h → ∀ c, 0 < c → c < len → (c - 1) / 2 = h →
        end_point_at (a.set h v) ((h - 1) / 2) ≤ end_point_at (a.set h v) c) →
      List.Perm (std_push_heap_loop CmpPQStruct a h 0 v) (a.set h v)
      ∧ (∀ i, 0 < i → i < len →
          end_point_at (std_push_heap_loop CmpPQStruct a h 0 v) ((i - 1) / 2)
            ≤ end_point_at (std_push_heap_loop CmpPQStruct a h 0 v) i)
      ∧ (∀ i, len ≤ i → (std_push_heap_loop CmpPQStruct a h 0 v)[i]? = a[i]?) := by
  intro h
  induction h using Nat.strong_induction_on with
  | _ h ih =>
    intro a v hlen hle e1 e2
    have hha : h < a.length := by omega
    have hf : ∀ j, end_point_at (a.set h v) j
        = if j = h then v.m_end_point else end_point_at a j := by
      intro j
      rw [end_point_at_set]
      by_cases hj : j = h
      · simp [hj, hha]
      · simp [hj]
    rw [std_push_heap_loop]
    by_cases hh : h > 0
    · have hpl : (h - 1) / 2 < a.length := by omega
      have hp : a[(h - 1) / 2]? = some a[(h - 1) / 2] := List.getElem?_eq_getElem hpl
      have hkp : end_point_at a ((h - 1) / 2) = (a[(h - 1) / 2]).m_end_point :=
        end_point_at_of_getElem? a _ _ hp
      have hph : (h - 1) / 2 ≠ h := by omega
      simp only [hh, if_true, hp]
      by_cases hcmp : CmpPQStruct a[(h - 1) / 2] v = true
      · rw [if_pos hcmp]
        have hlt : v.m_end_point < (a[(h - 1) / 2]).m_end_point := by
          simpa [CmpPQStruct] using hcmp
        have hg : ∀ j, end_point_at ((a.set h a[(h - 1) / 2]).set ((h - 1) / 2) v) j
            = if j = (h - 1) / 2 then v.m_end_point
              else if j = h then (a[(h - 1) / 2]).m_end_point else end_point_at a j := by
          intro j
          rw [end_point_at_set, end_point_at_set]
          by_cases hj : j = (h - 1) / 2
          · simp [hj, hpl]
          · by_cases hj2 : j = h
            · simp [hj2, hha, Ne.symm hph]
            · simp [hj, hj2]
        have step := climb_step (end_point_at (a.set h v))
          (end_point_at ((a.set h a[(h - 1) / 2]).set ((h - 1) / 2) v)) len h hh hlen
          (by rw [hg, hf]; simp)
          (by rw [hg, hf]; simp [hph, Ne.symm hph, hkp])
          (by intro j hj1 hj2; rw [hg, hf]; simp [hj1, hj2])
          (by rw [hf, hf]; simp [hph, hkp]; exact hlt)
          e1 (e2 hh)
        obtain ⟨r1, r2, r3⟩ := ih ((h - 1) / 2) (by omega) (a.set h a[(h - 1) / 2]) v (by omega)
          (by simp; omega) step.1 step.2
        refine ⟨r1.trans ?_, r2, ?_⟩
        · have hsw := perm_set_set (a.set h v) h ((h - 1) / 2) v a[(h - 1) / 2]
            (by simp [hha]) (by rw [List.getElem?_set]; simp [Ne.symm hph, hp])
            (Ne.symm hph)
          rw [List.set_set] at hsw
          exact hsw
        · intro i hi
          rw [r3 i hi, List.getElem?_set]
          have : h ≠ i := by omega
          simp [this]
      · rw [if_neg hcmp]
        have hge : (a[(h - 1) / 2]).m_end_point ≤ v.m_end_point := by
          simpa [CmpPQStruct] using hcmp
        refine ⟨List.Perm.refl _, ?_, ?_⟩
        · intro i hi hil
          by_cases hih : i = h
          · subst hih
            rw [hf, hf]
            simp [hph, hkp]
            exact hge
          · exact e1 i hi hil hih
        · intro i hi
          rw [List.getElem?_set]
          have : h ≠ i := by omega
          simp [this]
    · have h0 : h = 0 := by omega
      subst h0
      simp only [gt_iff_lt, Nat.lt_irrefl, if_false]
      refine ⟨List.Perm.refl _, ?_, ?_⟩
      · intro i hi hil
        exact e1 i hi hil (by omega)
      · intro i hi
        rw [List.getElem?_set]
        have : 0 ≠ i := by omega
        simp [this]

/-- The `while` loop of `std::__adjust_heap` from a hole `sc`: when the range
with `v` put into the hole is a heap except for the edges at the hole, it ends
at a hole without two children, with the same property and the same elements. -/
theorem std_adjust_heap_loop_spec (len : Nat) (v : PQStruct) :
    ∀ (n sc : Nat) (a : List PQStruct), len - sc ≤ n → sc < len → len ≤ a.length →
      (∀ i, 0 < i → i < len → i ≠ sc → (i - 1) / 2 ≠ sc →
        end_point_at (a.set sc v) ((i - 1) / 2) ≤ end_point_at (a.set sc v) i) →
      (0 < sc → ∀ d, 0 < d → d < len → (d - 1) / 2 = sc →
        end_point_at (a.set sc v) ((sc - 1) / 2) ≤ end_point_at (a.set sc v) d) →
      sc ≤ (std_adjust_heap_loop CmpPQStruct a sc len).2
      ∧ (std_adjust_heap_loop CmpPQStruct a sc len).2 < len
      ∧ ¬ (std_adjust_heap_loop CmpPQStruct a sc len).2 < (len - 1) / 2
      ∧ (std_adjust_heap_loop CmpPQStruct a sc len).1.length = a.length
      ∧ List.Perm
          ((std_adjust_heap_loop CmpPQStruct a sc len).1.set
            (std_adjust_heap_loop CmpPQStruct a sc len).2 v) (a.set sc v)
      ∧ (∀ i, 0 < i → i < len → i ≠ (std_adjust_heap_loop CmpPQStruct a sc len).2 →
          (i - 1) / 2 ≠ (std_adjust_heap_loop CmpPQStruct a sc len).2 →
          end_point_at ((std_adjust_heap_loop CmpPQStruct a sc len).1.set
              (std_adjust_heap_loop CmpPQStruct a sc len).2 v) ((i - 1) / 2)
            ≤ end_point_at ((std_adjust_heap_loop CmpPQStruct a sc len).1.set
              (std_adjust_heap_loop CmpPQStruct a sc len).2 v) i)
      ∧ (0 < (std_adjust_heap_loop CmpPQStruct a sc len).2 →
          ∀ d, 0 < d → d < len → (d - 1) / 2 = (std_adjust_heap_loop CmpPQStruct a sc len).2 →
          end_point_at ((std_adjust_heap_loop CmpPQStruct a sc len).1.set
              (std_adjust_heap_loop CmpPQStruct a sc len).2 v)
              (((std_adjust_heap_loop CmpPQStruct a sc len).2 - 1) / 2)
            ≤ end_point_at ((std_adjust_heap_loop CmpPQStruct a sc len).1.set
              (std_adjust_heap_loop CmpPQStruct a sc len).2 v) d)
      ∧ (∀ i, len ≤ i → (std_adjust_heap_loop CmpPQStruct a sc len).1[i]? = a[i]?) := by
  intro n
  induction n with
  | zero => intro sc a hn hsc; omega
  | succ n ih =>
    intro sc a hn hsc hle e1 e2
    have hsa : sc < a.length := by omega
    have hf : ∀ j, end_point_at (a.set sc v) j
        = if j = sc then v.m_end_point else end_point_at a j := by
      intro j
      rw [end_point_at_set]
      by_cases hj : j = sc
      · simp [hj, hsa]
      · simp [hj]
    rw [std_adjust_heap_loop]
    by_cases hlt : sc < (len - 1) / 2
    · have hrl : 2 * (sc + 1) < a.length := by omega
      have hll : 2 * (sc + 1) - 1 < a.length := by omega
      have hr : a[2 * (sc + 1)]? = some a[2 * (sc + 1)] := List.getElem?_eq_getElem hrl
      have hl : a[2 * (sc + 1) - 1]? = some a[2 * (sc + 1) - 1] := List.getElem?_eq_getElem hll
      have hkr := end_point_at_of_getElem? a _ _ hr
      have hkl := end_point_at_of_getElem? a _ _ hl
      simp only [hlt, if_true, hr, hl]
      -- the step to a child `c` holding `x`
      have key : ∀ (c : Nat) (x : PQStruct), (c = 2 * (sc + 1) ∨ c = 2 * (sc + 1) - 1) →
          a[c]? = some x →
          x.m_end_point ≤ (a[2 * (sc + 1)]).m_end_point →
          x.m_end_point ≤ (a[2 * (sc + 1) - 1]).m_end_point →
          sc ≤ (std_adjust_heap_loop CmpPQStruct (a.set sc x) c len).2
          ∧ (std_adjust_heap_loop CmpPQStruct (a.set sc x) c len).2 < len
          ∧ ¬ (std_adjust_heap_loop CmpPQStruct (a.set sc x) c len).2 < (len - 1) / 2
          ∧ (std_adjust_heap_loop CmpPQStruct (a.set sc x) c len).1.length = a.length
          ∧ List.Perm
              ((std_adjust_heap_loop CmpPQStruct (a.set sc x) c len).1.set
                (std_adjust_heap_loop CmpPQStruct (a.set sc x) c len).2 v) (a.set sc v)
          ∧ (∀ i, 0 < i → i < len →
              i ≠ (std_adjust_heap_loop CmpPQStruct (a.set sc x) c len).2 →
              (i - 1) / 2 ≠ (std_adjust_heap_loop CmpPQStruct (a.set sc x) c len).2 →
              end_point_at ((std_adjust_heap_loop CmpPQStruct (a.set sc x) c len).1.set
                  (std_adjust_heap_loop CmpPQStruct (a.set sc x) c len).2 v) ((i - 1) / 2)
                ≤ end_point_at ((std_adjust_heap_loop CmpPQStruct (a.set sc x) c len).1.set
                  (std_adjust_heap_loop CmpPQStruct (a.set sc x) c len).2 v) i)
          ∧ (0 < (std_adjust_heap_loop CmpPQStruct (a.set sc x) c len).2 →
              ∀ d, 0 < d → d < len →
              (d - 1) / 2 = (std_adjust_heap_loop CmpPQStruct (a.set sc x) c len).2 →
              end_point_at ((std_adjust_heap_loop CmpPQStruct (a.set sc x) c len).1.set
                  (std_adjust_heap_loop CmpPQStruct (a.set sc x) c len).2 v)
                  (((std_adjust_heap_loop CmpPQStruct (a.set sc x) c len).2 - 1) / 2)
                ≤ end_point_at ((std_adjust_heap_loop CmpPQStruct (a.set sc x) c len).1.set
                  (std_adjust_heap_loop CmpPQStruct (a.set sc x) c len).2 v) d)
          ∧ (∀ i, len ≤ i →
              (std_adjust_heap_loop CmpPQStruct (a.set sc x) c len).1[i]? = a[i]?) := by
        intro c x hc hx hxr hxl
        have hcl : c < len := by omega
        have hca : c < a.length := by omega
        have hcs : c ≠ sc := by omega
        have hkc := end_point_at_of_getElem? a _ _ hx
        have hg : ∀ j, end_point_at ((a.set sc x).set c v) j
            = if j = c then v.m_end_point
              else if j = sc then x.m_end_point else end_point_at a j := by
          intro j
          rw [end_point_at_set, end_point_at_set]
          by_cases hj : j = c
          · simp [hj, hca]
          · by_cases hj2 : j = sc
            · simp [hj2, hsa, Ne.symm hcs]
            · simp [hj, hj2]
        have step := descend_step (end_point_at (a.set sc v))
          (end_point_at ((a.set sc x).set c v)) len sc c (by omega) (by omega) hcl
          (by rw [hg, hf]; simp [hcs, Ne.symm hcs, hkc])
          (by rw [hg, hf]; simp)
          (by intro j hj1 hj2; rw [hg, hf]; simp [hj1, hj2])
          (by
            intro d hd hdl hds
            rw [hf, hf]
            have hd2 : d = 2 * (sc + 1) ∨ d = 2 * (sc + 1) - 1 := by omega
            have hdne : d ≠ sc := by omega
            simp only [hcs, hdne, if_false, hkc]
            rcases hd2 with rfl | rfl
            · rw [hkr]; exact hxr
            · rw [hkl]; exact hxl)
          e1 e2
        obtain ⟨r1, r2, r3, r4, r5, r6, r7, r8⟩ := ih c (a.set sc x) (by omega) hcl
          (by simp; omega) step.1 (fun _ => step.2)
        refine ⟨by omega, r2, r3, by simpa using r4, r5.trans ?_, r6, r7, ?_⟩
        · have hsw := perm_set_set (a.set sc v) sc c v x
            (by simp [hsa]) (by rw [List.getElem?_set]; simp [Ne.symm hcs, hx])
            (Ne.symm hcs)
          rw [List.set_set] at hsw
          exact hsw
        · intro i hi
          rw [r8 i hi, List.getElem?_set]
          have : sc ≠ i := by omega
          simp [this]
      by_cases hcmp : CmpPQStruct a[2 * (sc + 1)] a[2 * (sc + 1) - 1] = true
      · rw [if_pos hcmp]
        have hlt2 : (a[2 * (sc + 1) - 1]).m_end_point < (a[2 * (sc + 1)]).m_end_point := by
          simpa [CmpPQStruct] using hcmp
        exact key _ _ (Or.inr rfl) hl (by omega) (le_refl _)
      · rw [if_neg hcmp]
        have hge : (a[2 * (sc + 1)]).m_end_point ≤ (a[2 * (sc + 1) - 1]).m_end_point := by
          simpa [CmpPQStruct] using hcmp
        exact key _ _ (Or.inl rfl) hr (le_refl _) hge
    · rw [if_neg hlt]
      exact ⟨le_refl _, hsc, hlt, rfl, List.Perm.refl _, e1, e2, fun _ _ => rfl⟩

theorem end_point_at_dropLast (r : List PQStruct) (i : Nat) (h : i < r.length - 1) :
    end_point_at r.dropLast i = end_point_at r i := by
  unfold end_point_at
  rw [List.getElem?_dropLast]
  simp [h]

/-- `std::__adjust_heap` from hole 0 over the first `len` elements. -/
theorem std_adjust_heap_spec (a : List PQStruct) (len : Nat) (v : PQStruct) (hlen : 0 < len)
    (hle : len ≤ a.length)
    (e1 : ∀ i, 0 < i → i < len → (i - 1) / 2 ≠ 0 →
      end_point_at (a.set 0 v) ((i - 1) / 2) ≤ end_point_at (a.set 0 v) i) :
    List.Perm (std_adjust_heap CmpPQStruct a 0 len v) (a.set 0 v)
    ∧ (∀ i, 0 < i → i < len →
        end_point_at (std_adjust_heap CmpPQStruct a 0 len v) ((i - 1) / 2)
          ≤ end_point_at (std_adjust_heap CmpPQStruct a 0 len v) i)
    ∧ (∀ i, len ≤ i → (std_adjust_heap CmpPQStruct a 0 len v)[i]? = a[i]?) := by
  obtain ⟨_, s2, s3, s4, s5, s6, s7, s8⟩ := std_adjust_heap_loop_spec len v len 0 a (by omega)
    hlen hle (fun i hi hil _ hp => e1 i hi hil hp) (fun h => absurd h (Nat.lt_irrefl 0))
  unfold std_adjust_heap
  simp only []
  generalize std_adjust_heap_loop CmpPQStruct a 0 len = st at *
  obtain ⟨a1, h1⟩ := st
  simp only [] at s2 s3 s4 s5 s6 s7 s8 ⊢
  have hh1 : h1 < a1.length := by omega
  have hf : ∀ j, end_point_at (a1.set h1 v) j
      = if j = h1 then v.m_end_point else end_point_at a1 j := by
    intro j
    rw [end_point_at_set]
    by_cases hj : j = h1
    · simp [hj, hh1]
    · simp [hj]
  by_cases hc : len % 2 = 0 ∧ 2 ≤ len ∧ h1 = (len - 2) / 2
  · rw [if_pos hc]
    have hcl : 2 * (h1 + 1) - 1 < a1.length := by omega
    have hl : a1[2 * (h1 + 1) - 1]? = some a1[2 * (h1 + 1) - 1] := List.getElem?_eq_getElem hcl
    have hkc := end_point_at_of_getElem? a1 _ _ hl
    have hcs : 2 * (h1 + 1) - 1 ≠ h1 := by omega
    simp only [hl]
    have hg : ∀ j, end_point_at ((a1.set h1 a1[2 * (h1 + 1) - 1]).set (2 * (h1 + 1) - 1) v) j
        = if j = 2 * (h1 + 1) - 1 then v.m_end_point
          else if j = h1 then (a1[2 * (h1 + 1) - 1]).m_end_point else end_point_at a1 j := by
      intro j
      rw [end_point_at_set, end_point_at_set]
      by_cases hj : j = 2 * (h1 + 1) - 1
      · simp [hj, hcl]
      · by_cases hj2 : j = h1
        · simp [hj2, hh1, Ne.symm hcs]
        · simp [hj, hj2]
    have step := descend_step (end_point_at (a1.set h1 v))
      (end_point_at ((a1.set h1 a1[2 * (h1 + 1) - 1]).set (2 * (h1 + 1) - 1) v)) len h1
      (2 * (h1 + 1) - 1) (by omega) (by omega) (by omega)
      (by rw [hg, hf]; simp [hcs, Ne.symm hcs, hkc])
      (by rw [hg, hf]; simp)
      (by intro j hj1 hj2; rw [hg, hf]; simp [hj1, hj2])
      (by
        intro d hd hdl hds
        have hd2 : d = 2 * (h1 + 1) - 1 := by omega
        rw [hd2])
      s6 s7
    obtain ⟨r1, r2, r3⟩ := std_push_heap_loop_spec len (2 * (h1 + 1) - 1)
      (a1.set h1 a1[2 * (h1 + 1) - 1]) v (by omega) (by simp; omega)
      (fun i hi hil hic => step.1 i hi hil hic (by omega))
      (fun _ c hc0 hcl2 hcp => by omega)
    refine ⟨r1.trans (List.Perm.trans ?_ s5), r2, ?_⟩
    · have hsw := perm_set_set (a1.set h1 v) h1 (2 * (h1 + 1) - 1) v a1[2 * (h1 + 1) - 1]
        (by simp [hh1]) (by rw [List.getElem?_set]; simp [Ne.symm hcs, hl]) (Ne.symm hcs)
      rw [List.set_set] at hsw
      exact hsw
    · intro i hi
      rw [r3 i hi, List.getElem?_set]
      have : h1 ≠ i := by omega
      simp only [this, if_false]
      exact s8 i hi
  · rw [if_neg hc]
    obtain ⟨r1, r2, r3⟩ := std_push_heap_loop_spec len h1 a1 v s2 (by omega)
      (fun i hi hil hic => s6 i hi hil hic (by omega))
      (fun _ c hc0 hcl2 hcp => by omega)
    exact ⟨r1.trans s5, r2, fun i hi => (r3 i hi).trans (s8 i hi)⟩

theorem std_push_heap_spec (a : List PQStruct) (h : is_heap CmpPQStruct a.dropLast = true) :
    List.Perm (std_push_heap CmpPQStruct a) a
    ∧ is_heap CmpPQStruct (std_push_heap CmpPQStruct a) = true := by
  unfold std_push_heap
  cases hlast : a.getLast? with
  | none =>
    have : a = [] := List.getLast?_eq_none_iff.mp hlast
    subst this
    exact ⟨List.Perm.refl _, rfl⟩
  | some v =>
    simp only []
    have hne : a ≠ [] := by
      intro h0; subst h0; simp at hlast
    have hpos : 0 < a.length := List.length_pos.mpr hne
    have hv : a[a.length - 1]? = some v := by
      rw [← List.getLast?_eq_getElem?]; exact hlast
    have hset : a.set (a.length - 1) v = a := by
      obtain ⟨hl, he⟩ := List.getElem?_eq_some_iff.mp hv
      rw [← he]
      exact set_getElem_same a _ hl
    have hheap := (is_heap_iff_end_point a.dropLast).mp h
    simp only [List.length_dropLast] at hheap
    obtain ⟨r1, r2, _⟩ := std_push_heap_loop_spec a.length (a.length - 1) a v (by omega)
      (Nat.le_refl _)
      (by
        intro i hi hil hic
        rw [hset]
        have := hheap i hi (by omega)
        rw [end_point_at_dropLast a _ (by omega), end_point_at_dropLast a _ (by omega)] at this
        exact this)
      (fun _ c hc0 hcl hcp => by omega)
    rw [hset] at r1
    refine ⟨r1, ?_⟩
    rw [is_heap_iff_end_point]
    intro i hi hil
    rw [r1.length_eq] at hil
    exact r2 i hi hil

theorem std_pop_heap_spec (a : List PQStruct) (hne : a ≠ [])
    (h : is_heap CmpPQStruct a = true) :
    (std_pop_heap CmpPQStruct a).getLast? = a.head?
    ∧ List.Perm (std_pop_heap CmpPQStruct a) a
    ∧ is_heap CmpPQStruct (std_pop_heap CmpPQStruct a).dropLast = true := by
  unfold std_pop_heap
  have hpos : 0 < a.length := List.length_pos.mpr hne
  by_cases hlen : a.length > 1
  · rw [if_pos hlen]
    have hfront : a[0]? = some a[0] := List.getElem?_eq_getElem hpos
    have hlast : a[a.length - 1]? = some a[a.length - 1] := List.getElem?_eq_getElem (by omega)
    rw [List.head?_eq_getElem?, List.getLast?_eq_getElem? a, hfront, hlast]
    simp only []
    have hheap := (is_heap_iff_end_point a).mp h
    have hk : ∀ j, end_point_at ((a.set (a.length - 1) a[0]).set 0 a[a.length - 1]) j
        = if j = 0 then (a[a.length - 1]).m_end_point
          else if j = a.length - 1 then (a[0]).m_end_point else end_point_at a j := by
      intro j
      rw [end_point_at_set, end_point_at_set]
      by_cases hj : j = 0
      · simp [hj, hpos]
      · by_cases hj2 : j = a.length - 1
        · have hne0 : a.length - 1 ≠ 0 := by omega
          have hlt : a.length - 1 < a.length := by omega
          rw [hj2]
          simp [hne0, hlt]
        · simp [hj, hj2]
    obtain ⟨r1, r2, r3⟩ := std_adjust_heap_spec (a.set (a.length - 1) a[0]) (a.length - 1)
      a[a.length - 1] (by omega) (by simp)
      (by
        intro i hi hil hp
        rw [hk, hk]
        have h1 : i ≠ 0 := by omega
        have h2 : i ≠ a.length - 1 := by omega
        have h3 : (i - 1) / 2 ≠ a.length - 1 := by omega
        simp only [hp, h1, h2, h3, if_false]
        exact hheap i hi (by omega))
    have hperm : List.Perm
        (std_adjust_heap CmpPQStruct (a.set (a.length - 1) a[0]) 0 (a.length - 1)
          a[a.length - 1]) a :=
      r1.trans (perm_set_set a (a.length - 1) 0 a[a.length - 1] a[0] hlast hfront (by omega))
    refine ⟨?_, hperm, ?_⟩
    · rw [List.getLast?_eq_getElem?, hperm.length_eq, r3 _ (Nat.le_refl _), List.getElem?_set,
        if_pos rfl, if_pos (by omega)]
    · rw [is_heap_iff_end_point]
      intro i hi hil
      simp only [List.length_dropLast, hperm.length_eq] at hil
      rw [end_point_at_dropLast _ _ (by rw [hperm.length_eq]; omega),
        end_point_at_dropLast _ _ (by rw [hperm.length_eq]; omega)]
      exact r2 i hi hil
  · rw [if_neg hlen]
    have h1 : a.length = 1 := by omega
    match a, h1 with
    | [x], _ => exact ⟨rfl, List.Perm.refl _, rfl⟩

/-- The heap algorithms of libstdc++ meet the contract under `CmpPQStruct`. -/
theorem libstdcxx_heap_algorithms_meets_contract :
    libstdcxx_heap_algorithms.meets_contract CmpPQStruct :=
  ⟨fun a h => (std_push_heap_spec a h).1,
    fun a h => (std_push_heap_spec a h).2,
    fun a hne h => (std_pop_heap_spec a hne h).1,
    fun a hne h => (std_pop_heap_spec a hne h).2.1,
    fun a hne h => (std_pop_heap_spec a hne h).2.2⟩

/-- C8 at a concrete input: three entries ending at 30, 10 and 20, pushed in
that order, with the heap algorithms of libstdc++. -/
theorem C8_min_heap_on_end_point_witness :
    libstdcxx_heap_algorithms.meets_contract CmpPQStruct
    ∧ [example_entry 0 30, example_entry 1 10, example_entry 2 20].length ≤ 3
    ∧ List.Perm
        (VariantIntervalPQ.push_all libstdcxx_heap_algorithms
          [example_entry 0 30, example_entry 1 10, example_entry 2 20]).c
        [example_entry 0 30, example_entry 1 10, example_entry 2 20]
    ∧ (∀ t, (VariantIntervalPQ.push_all libstdcxx_heap_algorithms
          [example_entry 0 30, example_entry 1 10, example_entry 2 20]).top = some t →
        ∀ x ∈ (VariantIntervalPQ.push_all libstdcxx_heap_algorithms
          [example_entry 0 30, example_entry 1 10, example_entry 2 20]).c,
          t.m_end_point ≤ x.m_end_point)
    ∧ ∃ out, VariantIntervalPQ.pop_until_empty libstdcxx_heap_algorithms 3
          (VariantIntervalPQ.push_all libstdcxx_heap_algorithms
            [example_entry 0 30, example_entry 1 10, example_entry 2 20])
          = some out
        ∧ List.Perm out [example_entry 0 30, example_entry 1 10, example_entry 2 20]
        ∧ out.Pairwise (fun x y => x.m_end_point ≤ y.m_end_point) :=
  ⟨libstdcxx_heap_algorithms_meets_contract, by decide,
    C8_min_heap_on_end_point libstdcxx_heap_algorithms libstdcxx_heap_algorithms_meets_contract
      [example_entry 0 30, example_entry 1 10, example_entry 2 20] 3 (by decide)⟩

/-! ## Printing -/

theorem print_slots_loop (query_config : Option VariantQueryConfig)
    (fields : List (Option VariantFieldBase)) (out : String) (idx : Nat) :
    (fields.foldl (VariantCall.print_field query_config) (out, idx)).1
      = out ++ spec_slots_text query_config idx fields := by
  induction fields generalizing out idx with
  | nil => simp [spec_slots_text]
  | cons slot rest ih =>
    rw [List.foldl_cons]
    cases slot with
    | none =>
      have e : VariantCall.print_field query_config (out, idx) none = (out, idx + 1) := rfl
      rw [e, ih]
      simp [spec_slots_text]
    | some f =>
      cases query_config with
      | none =>
        have e : VariantCall.print_field none (out, idx) (some f)
            = (out ++ f.printed ++ ", ", idx + 1) := rfl
        rw [e, ih]
        simp [spec_slots_text, String.append_assoc]
      | some q =>
        have e : VariantCall.print_field (some q) (out, idx) (some f)
            = (out ++ q.get_query_attribute_name idx ++ " : " ++ f.printed ++ ", ", idx + 1) :=
          rfl
        rw [e, ih]
        simp [spec_slots_text, String.append_assoc]

/-- `VariantCall::print` appends the text the specification gives for a call. -/
theorem VariantCall.print_appends_call_text (c : VariantCall) (fptr : String)
    (query_config : Option VariantQueryConfig) :
    c.print fptr query_config = fptr ++ spec_call_text query_config c := by
  unfold VariantCall.print spec_call_text
  by_cases h : (c.m_is_initialized && c.m_is_valid) = true
  · have h2 : c.m_is_initialized = true ∧ c.m_is_valid = true := by simpa using h
    rw [if_pos h, if_pos h2, print_slots_loop]
    simp [String.append_assoc]
  · have h2 : ¬ (c.m_is_initialized = true ∧ c.m_is_valid = true) := by simpa using h
    rw [if_neg h, if_neg h2]
    simp

theorem spec_calls_text_cons (query_config : Option VariantQueryConfig) (i : Nat)
    (c : VariantCall) (rest : List VariantCall) :
    spec_calls_text query_config i (c :: rest)
      = " " ++ toString i ++ " : \x7b" ++ spec_call_text query_config c ++ " \x7d"
          ++ spec_calls_text query_config (i + 1) rest := rfl

theorem spec_calls_text_append (query_config : Option VariantQueryConfig)
    (l1 l2 : List VariantCall) (i : Nat) :
    spec_calls_text query_config i (l1 ++ l2)
      = spec_calls_text query_config i l1
          ++ spec_calls_text query_config (i + l1.length) l2 := by
  induction l1 generalizing i with
  | nil => simp [spec_calls_text]
  | cons c l1 ih =>
    have e : i + 1 + l1.length = i + (c :: l1).length := by simp; omega
    rw [List.cons_append, spec_calls_text_cons, spec_calls_text_cons, ih, e]
    simp only [String.append_assoc]

theorem print_calls_loop (v : Variant) (out : String) (n : Nat) (hn : n ≤ v.m_calls.length) :
    for_upto n v.print_call_at out
      = out ++ spec_calls_text v.m_query_config 0 (v.m_calls.take n) := by
  induction n with
  | zero => simp [for_upto_zero, spec_calls_text]
  | succ n ih =>
    have hlt : n < v.m_calls.length := by omega
    have hmin : min n v.m_calls.length = n := by omega
    rw [for_upto_succ, ih (by omega), List.take_succ, List.getElem?_eq_getElem hlt,
      spec_calls_text_append]
    simp only [Variant.print_call_at, List.getElem?_eq_getElem hlt, VariantCall.print_appends_call_text,
      Option.toList, spec_calls_text, List.length_take, Nat.zero_add, String.append_assoc,
      String.append_empty, hmin]

/-- `Variant::print` appends the text the specification gives for a Variant. -/
theorem Variant.print_appends_variant_text (v : Variant) (fptr : String) :
    v.print fptr = fptr ++ spec_variant_text v := by
  unfold Variant.print spec_variant_text
  rw [print_calls_loop v _ v.m_calls.length (Nat.le_refl _), List.take_length]
  simp only [String.append_assoc]

/-- C9: `Variant::print` writes `Interval:[ <col_begin>, <col_end> ] Calls {`,
then for each call in increasing query row index `i` the text ` <i> : {`, the
text of the call and ` }`, and finally ` }` and a newline; the text of a call
is empty unless the call is initialized and valid, and is then ` row : <row_idx>, `
followed, for each occupied slot in slot order, by the attribute name of the
slot index and ` : ` (when a configuration is present), the printed value of
the field and `, `; empty slots write nothing. -/
theorem C9_print_format (v : Variant) (fptr : String) :
    v.print fptr = fptr ++ spec_variant_text v :=
  Variant.print_appends_variant_text v fptr

theorem spec_call_text_congr (query_config : Option VariantQueryConfig) (c d : VariantCall)
    (h : prints_alike c d) : spec_call_text query_config c = spec_call_text query_config d := by
  obtain ⟨h1, h2⟩ := h
  unfold spec_call_text
  by_cases hc : (c.m_is_initialized && c.m_is_valid) = true
  · have hd : (d.m_is_initialized && d.m_is_valid) = true := by rw [← h1]; exact hc
    obtain ⟨hr, hf⟩ := h2 hc
    have hc2 : c.m_is_initialized = true ∧ c.m_is_valid = true := by simpa using hc
    have hd2 : d.m_is_initialized = true ∧ d.m_is_valid = true := by simpa using hd
    rw [if_pos hc2, if_pos hd2, hr, hf]
  · have hd : ¬ (d.m_is_initialized && d.m_is_valid) = true := by rw [← h1]; exact hc
    have hc2 : ¬ (c.m_is_initialized = true ∧ c.m_is_valid = true) := by simpa using hc
    have hd2 : ¬ (d.m_is_initialized = true ∧ d.m_is_valid = true) := by simpa using hd
    rw [if_neg hc2, if_neg hd2]

theorem spec_calls_text_congr (query_config : Option VariantQueryConfig)
    (l1 l2 : List VariantCall) (h : List.Forall₂ prints_alike l1 l2) (i : Nat) :
    spec_calls_text query_config i l1 = spec_calls_text query_config i l2 := by
  induction h generalizing i with
  | nil => rfl
  | cons hcd _ ih =>
    simp only [spec_calls_text]
    rw [spec_call_text_congr query_config _ _ hcd, ih]

/-- C10 as stated fails on the code: `example_source` and
`example_source_with_gap` have the same interval, the same (absent)
configuration and the same valid calls, the second only has an invalid call in
front, and `Variant::print` writes different texts for them. -/
theorem C10_invalid_call_shows_in_print :
    example_source.m_col_begin = example_source_with_gap.m_col_begin
    ∧ example_source.m_col_end = example_source_with_gap.m_col_end
    ∧ example_source.m_query_config = none
    ∧ example_source_with_gap.m_query_config = none
    ∧ example_source.m_calls.filter VariantCall.is_valid
        = example_source_with_gap.m_calls.filter VariantCall.is_valid
    ∧ example_source.print "" = "Interval:[ 10, 20 ] Calls \x7b 0 : \x7b row : 7, A,  \x7d \x7d\n"
    ∧ example_source_with_gap.print ""
        = "Interval:[ 10, 20 ] Calls \x7b 0 : \x7b \x7d 1 : \x7b row : 7, A,  \x7d \x7d\n"
    ∧ example_source.print "" ≠ example_source_with_gap.print "" := by
  refine ⟨rfl, rfl, rfl, rfl, by decide, by decide, by decide, by decide⟩

/-- C10 (amended): two Variants with the same column interval and query
configuration and the same number of calls, whose calls at every query row
index either both fail the test "initialized and valid" or both pass it with
the same row index and the same slots, print the same text; what the calls
failing the test hold does not show. -/
theorem C10_print_ignores_unprinted_content (v w : Variant)
    (hbegin : v.m_col_begin = w.m_col_begin) (hend : v.m_col_end = w.m_col_end)
    (hcfg : v.m_query_config = w.m_query_config)
    (hcalls : List.Forall₂ prints_alike v.m_calls w.m_calls) (fptr : String) :
    v.print fptr = w.print fptr := by
  rw [Variant.print_appends_variant_text, Variant.print_appends_variant_text]
  unfold spec_variant_text
  rw [hbegin, hend, hcfg, spec_calls_text_congr w.m_query_config _ _ hcalls 0]

/-- C10 (amended) at a concrete input: the unprinted call in front differs in
row index, slots and validity flag. -/
theorem C10_print_ignores_unprinted_content_witness :
    example_source_with_gap.m_col_begin = example_source_with_other_gap.m_col_begin
    ∧ example_source_with_gap.m_col_end = example_source_with_other_gap.m_col_end
    ∧ example_source_with_gap.m_query_config = example_source_with_other_gap.m_query_config
    ∧ List.Forall₂ prints_alike example_source_with_gap.m_calls
        example_source_with_other_gap.m_calls
    ∧ example_source_with_gap.print "" = example_source_with_other_gap.print "" :=
  ⟨rfl, rfl, rfl,
    List.Forall₂.cons ⟨rfl, by decide⟩ (List.Forall₂.cons ⟨rfl, fun _ => ⟨rfl, rfl⟩⟩ List.Forall₂.nil),
    C10_print_ignores_unprinted_content example_source_with_gap example_source_with_other_gap
      rfl rfl rfl
      (List.Forall₂.cons ⟨rfl, by decide⟩
        (List.Forall₂.cons ⟨rfl, fun _ => ⟨rfl, rfl⟩⟩ List.Forall₂.nil)) ""⟩

/-! ## Decimal digits of a natural number -/

theorem digits_value_append (l : List Char) (d : Char) :
    digits_value (l ++ [d]) = 10 * digits_value l + (d.toNat - 48) := by
  simp [digits_value, List.foldl_append]

theorem digitChar_spec (k : Nat) (h : k < 10) :
    isdigit (Nat.digitChar k) = true ∧ (Nat.digitChar k).toNat - 48 = k := by
  interval_cases k <;> exact ⟨by decide, by decide⟩

theorem toDigitsCore_spec (fuel : Nat) :
    ∀ (n : Nat) (ds : List Char), n < fuel →
      ∃ l, Nat.toDigitsCore 10 fuel n ds = l ++ ds ∧ l ≠ []
        ∧ (∀ c ∈ l, isdigit c = true) ∧ digits_value l = n := by
  induction fuel with
  | zero => intro n ds h; omega
  | succ fuel ih =>
    intro n ds h
    have hd := digitChar_spec (n % 10) (Nat.mod_lt _ (by omega))
    unfold Nat.toDigitsCore
    simp only []
    by_cases h0 : n / 10 = 0
    · rw [if_pos h0]
      refine ⟨[Nat.digitChar (n % 10)], rfl, by simp, ?_, ?_⟩
      · intro c hc
        simp only [List.mem_singleton] at hc
        rw [hc]; exact hd.1
      · have : digits_value [Nat.digitChar (n % 10)] = (Nat.digitChar (n % 10)).toNat - 48 := by
          simp [digits_value]
        rw [this, hd.2]
        omega
    · rw [if_neg h0]
      obtain ⟨l, hl, _, hdig, hval⟩ := ih (n / 10) (Nat.digitChar (n % 10) :: ds) (by omega)
      refine ⟨l ++ [Nat.digitChar (n % 10)], by rw [hl]; simp, by simp, ?_, ?_⟩
      · intro c hc
        rcases List.mem_append.mp hc with hc | hc
        · exact hdig c hc
        · simp only [List.mem_singleton] at hc
          rw [hc]; exact hd.1
      · rw [digits_value_append, hval, hd.2]
        omega

/-- The decimal text of `n`: non-empty, digits only, with value `n`. -/
theorem toString_nat_spec (n : Nat) :
    (toString n).data ≠ [] ∧ (∀ c ∈ (toString n).data, isdigit c = true)
      ∧ digits_value (toString n).data = n := by
  obtain ⟨l, hl, hne, hdig, hval⟩ := toDigitsCore_spec (n + 1) n [] (by omega)
  have e : (toString n).data = l := by
    show (Nat.repr n).data = l
    simp only [Nat.repr, Nat.toDigits, List.asString, hl, List.append_nil]
  rw [e]
  exact ⟨hne, hdig, hval⟩

theorem toString_nat_injective (n m : Nat) (h : (toString n).data = (toString m).data) :
    n = m := by
  rw [← (toString_nat_spec n).2.2, ← (toString_nat_spec m).2.2, h]
/-! ## What the printed text determines -/

/-- Two texts with the same element `p` after parts free of `p` have the same
parts before and after it. -/
theorem pivot_split {α : Type} (p : α) :
    ∀ (x x1 z z1 : List α), p ∉ x → p ∉ x1 → x ++ p :: z = x1 ++ p :: z1 → x = x1 ∧ z = z1 := by
  intro x
  induction x with
  | nil =>
    intro x1 z z1 _ hx1 h
    cases x1 with
    | nil => simpa using h
    | cons a x1 =>
      simp only [List.nil_append, List.cons_append, List.cons.injEq] at h
      exact absurd (h.1 ▸ List.mem_cons_self _ _) hx1
  | cons a x ih =>
    intro x1 z z1 hx hx1 h
    cases x1 with
    | nil =>
      simp only [List.nil_append, List.cons_append, List.cons.injEq] at h
      exact absurd (h.1 ▸ List.mem_cons_self _ _) hx
    | cons b x1 =>
      simp only [List.cons_append, List.cons.injEq] at h
      obtain ⟨e1, e2⟩ := ih x1 z z1 (fun hm => hx (List.mem_cons_of_mem _ hm))
        (fun hm => hx1 (List.mem_cons_of_mem _ hm)) h.2
      exact ⟨by rw [h.1, e1], e2⟩

/-- The decimal text of a number contains no character that is not a digit. -/
theorem not_mem_toString_nat (n : Nat) (p : Char) (hp : isdigit p = false) :
    p ∉ (toString n).data := by
  intro hm
  have := (toString_nat_spec n).2.1 p hm
  rw [hp] at this
  exact Bool.noConfusion this

theorem mem_occupied_slots (fs : List (Option VariantFieldBase)) :
    ∀ (idx : Nat) (slot : Nat × String), slot ∈ occupied_slots idx fs →
      slot.1 < idx + fs.length ∧ ∃ f, some f ∈ fs ∧ f.printed = slot.2 := by
  induction fs with
  | nil => intro idx slot h; simp [occupied_slots] at h
  | cons a rest ih =>
    intro idx slot h
    cases a with
    | none =>
      simp only [occupied_slots] at h
      obtain ⟨h1, f, hf, e⟩ := ih (idx + 1) slot h
      exact ⟨by simp only [List.length_cons]; omega, f, List.mem_cons_of_mem _ hf, e⟩
    | some g =>
      simp only [occupied_slots, List.mem_cons] at h
      rcases h with h | h
      · subst h
        exact ⟨by simp only [List.length_cons]; omega, g, List.mem_cons_self _ _, rfl⟩
      · obtain ⟨h1, f, hf, e⟩ := ih (idx + 1) slot h
        exact ⟨by simp only [List.length_cons]; omega, f, List.mem_cons_of_mem _ hf, e⟩

theorem lookup_occupied_slots_lt (fs : List (Option VariantFieldBase)) :
    ∀ (idx k : Nat), k < idx → (occupied_slots idx fs).lookup k = none := by
  induction fs with
  | nil => intro idx k _; simp [occupied_slots]
  | cons a rest ih =>
    intro idx k hk
    cases a with
    | none => simp only [occupied_slots]; exact ih (idx + 1) k (by omega)
    | some g =>
      simp only [occupied_slots, List.lookup]
      have hne : (k == idx) = false := by simp; omega
      rw [hne]
      exact ih (idx + 1) k (by omega)

/-- Looking up a slot index among the occupied slots gives the printed value
of the field in that slot, if the slot exists and is occupied. -/
theorem lookup_occupied_slots (fs : List (Option VariantFieldBase)) :
    ∀ (idx j : Nat), (occupied_slots idx fs).lookup (idx + j)
      = ((fs[j]?).join).map (fun f : VariantFieldBase => f.printed) := by
  induction fs with
  | nil => intro idx j; simp [occupied_slots]
  | cons a rest ih =>
    intro idx j
    cases j with
    | zero =>
      cases a with
      | none =>
        simp only [occupied_slots, Nat.add_zero]
        rw [lookup_occupied_slots_lt rest (idx + 1) idx (by omega)]
        simp
      | some g => simp [occupied_slots, List.lookup]
    | succ j =>
      have e : idx + (j + 1) = idx + 1 + j := by omega
      cases a with
      | none =>
        simp only [occupied_slots, e, ih (idx + 1) j]
        simp
      | some g =>
        simp only [occupied_slots, List.lookup]
        have hne : (idx + (j + 1) == idx) = false := by simp
        rw [hne, e, ih (idx + 1) j]
        simp

/-- The printed values of the occupied slots, in slot order. -/
theorem occupied_slots_values (fs : List (Option VariantFieldBase)) :
    ∀ idx : Nat, (occupied_slots idx fs).map Prod.snd
      = (fs.filterMap id).map (fun f : VariantFieldBase => f.printed) := by
  induction fs with
  | nil => intro idx; simp [occupied_slots]
  | cons a rest ih =>
    intro idx
    cases a with
    | none => simp [occupied_slots, ih (idx + 1)]
    | some g => simp [occupied_slots, ih (idx + 1)]

/-- The slots part of the printed text is the text of the occupied slots. -/
theorem spec_slots_text_eq_slots_text (query_config : Option VariantQueryConfig)
    (fs : List (Option VariantFieldBase)) :
    ∀ idx : Nat, spec_slots_text query_config idx fs
      = slots_text query_config (occupied_slots idx fs) := by
  induction fs with
  | nil => intro idx; simp [spec_slots_text, occupied_slots, slots_text]
  | cons a rest ih =>
    intro idx
    cases a with
    | none => simp only [spec_slots_text, occupied_slots]; exact ih (idx + 1)
    | some g => simp only [spec_slots_text, occupied_slots, slots_text, ih (idx + 1)]

theorem slots_text_cons_some_data (q : VariantQueryConfig) (slot : Nat × String)
    (rest : List (Nat × String)) :
    (slots_text (some q) (slot :: rest)).data
      = ((q.get_query_attribute_name slot.1).data ++ [' ']) ++ ':' ::
          (' ' :: (slot.2.data ++ ',' :: (' ' :: (slots_text (some q) rest).data))) := by
  simp only [slots_text, String.data_append]
  simp

theorem slots_text_cons_none_data (slot : Nat × String) (rest : List (Nat × String)) :
    (slots_text none (slot :: rest)).data
      = slot.2.data ++ ',' :: (' ' :: (slots_text none rest).data) := by
  simp only [slots_text, String.data_append]
  simp

/-- With a configuration whose attribute names are pairwise different and
free of colons, the text of occupied slots with comma-free values determines
the slots. -/
theorem slots_text_some_injective (q : VariantQueryConfig)
    (hnames : ∀ i, i < q.get_num_queried_attributes →
      ∀ ch ∈ (q.get_query_attribute_name i).data, ch ≠ ':' ∧ ch ≠ '\x7d')
    (hinj : ∀ i j, i < q.get_num_queried_attributes → j < q.get_num_queried_attributes →
      q.get_query_attribute_name i = q.get_query_attribute_name j → i = j) :
    ∀ (l l1 : List (Nat × String)),
      (∀ slot ∈ l, slot.1 < q.get_num_queried_attributes ∧ ',' ∉ slot.2.data) →
      (∀ slot ∈ l1, slot.1 < q.get_num_queried_attributes ∧ ',' ∉ slot.2.data) →
      (slots_text (some q) l).data = (slots_text (some q) l1).data → l = l1 := by
  intro l
  induction l with
  | nil =>
    intro l1 _ _ h
    cases l1 with
    | nil => rfl
    | cons s1 r1 =>
      rw [slots_text_cons_some_data] at h
      simp [slots_text] at h
  | cons s r ih =>
    intro l1 hl hl1 h
    cases l1 with
    | nil =>
      rw [slots_text_cons_some_data] at h
      simp [slots_text] at h
    | cons s1 r1 =>
      rw [slots_text_cons_some_data, slots_text_cons_some_data] at h
      have hs := hl s (List.mem_cons_self _ _)
      have hs1 := hl1 s1 (List.mem_cons_self _ _)
      have hc : ∀ i, i < q.get_num_queried_attributes →
          ':' ∉ (q.get_query_attribute_name i).data ++ [' '] := by
        intro i hi hm
        simp only [List.mem_append, List.mem_singleton] at hm
        rcases hm with hm | hm
        · exact (hnames i hi ':' hm).1 rfl
        · exact absurd hm (by decide)
      obtain ⟨e1, e2⟩ := pivot_split ':' _ _ _ _ (hc s.1 hs.1) (hc s1.1 hs1.1) h
      have e3 : q.get_query_attribute_name s.1 = q.get_query_attribute_name s1.1 :=
        String.ext (List.append_cancel_right e1)
      have e4 : s.1 = s1.1 := hinj _ _ hs.1 hs1.1 e3
      have e5 := List.tail_eq_of_cons_eq e2
      obtain ⟨e6, e7⟩ := pivot_split ',' _ _ _ _ hs.2 hs1.2 e5
      have e8 : s.2 = s1.2 := String.ext e6
      have e9 := ih r1 (fun x hx => hl x (List.mem_cons_of_mem _ hx))
        (fun x hx => hl1 x (List.mem_cons_of_mem _ hx)) (List.tail_eq_of_cons_eq e7)
      rw [e9, Prod.ext e4 e8]

/-- Without a configuration the text of occupied slots with comma-free values
determines the values, in order. -/
theorem slots_text_none_injective :
    ∀ (l l1 : List (Nat × String)),
      (∀ slot ∈ l, ',' ∉ slot.2.data) → (∀ slot ∈ l1, ',' ∉ slot.2.data) →
      (slots_text none l).data = (slots_text none l1).data →
      l.map Prod.snd = l1.map Prod.snd := by
  intro l
  induction l with
  | nil =>
    intro l1 _ _ h
    cases l1 with
    | nil => rfl
    | cons s1 r1 =>
      rw [slots_text_cons_none_data] at h
      simp [slots_text] at h
  | cons s r ih =>
    intro l1 hl hl1 h
    cases l1 with
    | nil =>
      rw [slots_text_cons_none_data] at h
      simp [slots_text] at h
    | cons s1 r1 =>
      rw [slots_text_cons_none_data, slots_text_cons_none_data] at h
      obtain ⟨e6, e7⟩ := pivot_split ',' _ _ _ _ (hl s (List.mem_cons_self _ _))
        (hl1 s1 (List.mem_cons_self _ _)) h
      have e8 : s.2 = s1.2 := String.ext e6
      have e9 := ih r1 (fun x hx => hl x (List.mem_cons_of_mem _ hx))
        (fun x hx => hl1 x (List.mem_cons_of_mem _ hx)) (List.tail_eq_of_cons_eq e7)
      simp only [List.map_cons, e8, e9]

/-- The text of occupied slots holds no closing brace when neither the
attribute names nor the printed values do. -/
theorem slots_text_no_brace (query_config : Option VariantQueryConfig) :
    ∀ l : List (Nat × String),
      (∀ slot ∈ l, '\x7d' ∉ slot.2.data
        ∧ ∀ q, query_config = some q → '\x7d' ∉ (q.get_query_attribute_name slot.1).data) →
      '\x7d' ∉ (slots_text query_config l).data := by
  intro l
  induction l with
  | nil => intro _; simp [slots_text]
  | cons s r ih =>
    intro hl
    have hs := hl s (List.mem_cons_self _ _)
    have hr := ih (fun x hx => hl x (List.mem_cons_of_mem _ hx))
    cases query_config with
    | none =>
      rw [slots_text_cons_none_data]
      simp only [List.mem_append, List.mem_cons, not_or]
      exact ⟨hs.1, by decide, by decide, hr⟩
    | some q =>
      rw [slots_text_cons_some_data]
      simp only [List.mem_append, List.mem_cons, List.mem_singleton, not_or, List.not_mem_nil,
        not_false_eq_true, and_true]
      exact ⟨⟨hs.2 q rfl, by decide⟩, by decide, by decide, hs.1, by decide, by decide, hr⟩

theorem spec_call_text_data (query_config : Option VariantQueryConfig) (c : VariantCall) :
    (spec_call_text query_config c).data
      = if (c.m_is_initialized && c.m_is_valid) = true then
          [' ', 'r', 'o', 'w', ' ', ':', ' '] ++ ((toString c.m_row_idx).data ++ ',' ::
            (' ' :: (slots_text query_config (occupied_slots 0 c.m_fields)).data))
        else [] := by
  unfold spec_call_text
  by_cases h : (c.m_is_initialized && c.m_is_valid) = true
  · have h2 : c.m_is_initialized = true ∧ c.m_is_valid = true := by simpa using h
    rw [if_pos h, if_pos h2, spec_slots_text_eq_slots_text]
    simp only [String.data_append]
    simp
  · have h2 : ¬ (c.m_is_initialized = true ∧ c.m_is_valid = true) := by simpa using h
    rw [if_neg h, if_neg h2]

/-- The occupied slots of a printed, well separated call: values free of
comma and closing brace, slot indices below the number of attributes. -/
theorem occupied_slots_of_well_separated (query_config : Option VariantQueryConfig)
    (c : VariantCall) (hc : c.well_separated query_config)
    (hp : (c.m_is_initialized && c.m_is_valid) = true) :
    ∀ slot ∈ occupied_slots 0 c.m_fields,
      ',' ∉ slot.2.data ∧ '\x7d' ∉ slot.2.data
        ∧ ∀ q, query_config = some q → slot.1 < q.get_num_queried_attributes := by
  intro slot hs
  obtain ⟨h1, f, hf, e⟩ := mem_occupied_slots c.m_fields 0 slot hs
  obtain ⟨hv, hn⟩ := hc hp
  refine ⟨?_, ?_, ?_⟩
  · intro hm
    rw [← e] at hm
    exact (hv f hf ',' hm).1 rfl
  · intro hm
    rw [← e] at hm
    exact (hv f hf '\x7d' hm).2 rfl
  · intro q hq
    have := hn q hq
    omega

/-- The text of a well separated call holds no closing brace. -/
theorem spec_call_text_no_brace (query_config : Option VariantQueryConfig)
    (hnames : ∀ q, query_config = some q → ∀ i, i < q.get_num_queried_attributes →
      ∀ ch ∈ (q.get_query_attribute_name i).data, ch ≠ ':' ∧ ch ≠ '\x7d')
    (c : VariantCall) (hc : c.well_separated query_config) :
    '\x7d' ∉ (spec_call_text query_config c).data := by
  rw [spec_call_text_data]
  by_cases hp : (c.m_is_initialized && c.m_is_valid) = true
  · rw [if_pos hp]
    have hocc := occupied_slots_of_well_separated query_config c hc hp
    have hs := slots_text_no_brace query_config (occupied_slots 0 c.m_fields)
      (fun slot hslot => ⟨(hocc slot hslot).2.1, fun q hq hm =>
        (hnames q hq slot.1 ((hocc slot hslot).2.2 q hq) '\x7d' hm).2 rfl⟩)
    have hd := not_mem_toString_nat c.m_row_idx '\x7d' (by decide)
    simp only [List.mem_append, List.mem_cons, not_or]
    exact ⟨by decide, hd, by decide, by decide, hs⟩
  · rw [if_neg hp]
    simp

/-- The text of a well separated call determines whether the call is printed,
and for a printed call its row and the text of its slots. -/
theorem spec_call_text_injective (query_config : Option VariantQueryConfig)
    (c d : VariantCall)
    (h : (spec_call_text query_config c).data = (spec_call_text query_config d).data) :
    (c.m_is_initialized && c.m_is_valid) = (d.m_is_initialized && d.m_is_valid)
    ∧ ((c.m_is_initialized && c.m_is_valid) = true →
        c.m_row_idx = d.m_row_idx
        ∧ (slots_text query_config (occupied_slots 0 c.m_fields)).data
            = (slots_text query_config (occupied_slots 0 d.m_fields)).data) := by
  rw [spec_call_text_data, spec_call_text_data] at h
  by_cases hp : (c.m_is_initialized && c.m_is_valid) = true
  · by_cases hq : (d.m_is_initialized && d.m_is_valid) = true
    · rw [if_pos hp, if_pos hq] at h
      have h1 := List.append_cancel_left h
      obtain ⟨e1, e2⟩ := pivot_split ',' _ _ _ _
        (not_mem_toString_nat c.m_row_idx ',' (by decide))
        (not_mem_toString_nat d.m_row_idx ',' (by decide)) h1
      exact ⟨by rw [hp, hq], fun _ => ⟨toString_nat_injective _ _ e1,
        List.tail_eq_of_cons_eq e2⟩⟩
    · rw [if_pos hp, if_neg hq] at h
      simp at h
  · by_cases hq : (d.m_is_initialized && d.m_is_valid) = true
    · rw [if_neg hp, if_pos hq] at h
      simp at h
    · refine ⟨?_, fun h1 => absurd h1 hp⟩
      rw [Bool.not_eq_true] at hp hq
      rw [hp, hq]

theorem spec_calls_text_cons_data (query_config : Option VariantQueryConfig) (i : Nat)
    (c : VariantCall) (rest : List VariantCall) :
    (spec_calls_text query_config i (c :: rest)).data
      = (' ' :: ((toString i).data ++ [' ', ':', ' ', '\x7b']))
          ++ (((spec_call_text query_config c).data ++ [' ']) ++ '\x7d' ::
            (spec_calls_text query_config (i + 1) rest).data) := by
  simp only [spec_calls_text, String.data_append]
  simp

/-- The text of well separated calls determines how many they are and the
text of each. -/
theorem spec_calls_text_injective (query_config : Option VariantQueryConfig)
    (hnames : ∀ q, query_config = some q → ∀ i, i < q.get_num_queried_attributes →
      ∀ ch ∈ (q.get_query_attribute_name i).data, ch ≠ ':' ∧ ch ≠ '\x7d') :
    ∀ (cs ds : List VariantCall) (i : Nat),
      (∀ c ∈ cs, c.well_separated query_config) → (∀ d ∈ ds, d.well_separated query_config) →
      (spec_calls_text query_config i cs).data = (spec_calls_text query_config i ds).data →
      cs.length = ds.length
      ∧ ∀ (j : Nat) (c d : VariantCall), cs[j]? = some c → ds[j]? = some d →
          (spec_call_text query_config c).data = (spec_call_text query_config d).data := by
  intro cs
  induction cs with
  | nil =>
    intro ds i _ _ h
    cases ds with
    | nil => exact ⟨rfl, by intro j c d hc; simp at hc⟩
    | cons d ds =>
      rw [spec_calls_text_cons_data] at h
      simp [spec_calls_text] at h
  | cons c cs ih =>
    intro ds i hcs hds h
    cases ds with
    | nil =>
      rw [spec_calls_text_cons_data] at h
      simp [spec_calls_text] at h
    | cons d ds =>
      rw [spec_calls_text_cons_data, spec_calls_text_cons_data] at h
      have h1 := List.append_cancel_left h
      have hb : ∀ x : VariantCall, x.well_separated query_config →
          '\x7d' ∉ (spec_call_text query_config x).data ++ [' '] := by
        intro x hx hm
        simp only [List.mem_append, List.mem_singleton] at hm
        rcases hm with hm | hm
        · exact spec_call_text_no_brace query_config hnames x hx hm
        · exact absurd hm (by decide)
      obtain ⟨e1, e2⟩ := pivot_split '\x7d' _ _ _ _ (hb c (hcs c (List.mem_cons_self _ _)))
        (hb d (hds d (List.mem_cons_self _ _))) h1
      have e3 := List.append_cancel_right e1
      obtain ⟨e4, e5⟩ := ih ds (i + 1) (fun x hx => hcs x (List.mem_cons_of_mem _ hx))
        (fun x hx => hds x (List.mem_cons_of_mem _ hx)) e2
      refine ⟨by simp only [List.length_cons, e4], ?_⟩
      intro j c1 d1 hc1 hd1
      cases j with
      | zero =>
        simp only [List.getElem?_cons_zero, Option.some.injEq] at hc1 hd1
        rw [← hc1, ← hd1]
        exact e3
      | succ j =>
        simp only [List.getElem?_cons_succ] at hc1 hd1
        exact e5 j c1 d1 hc1 hd1

theorem spec_variant_text_data (v : Variant) :
    (spec_variant_text v).data
      = ['I', 'n', 't', 'e', 'r', 'v', 'a', 'l', ':', '[', ' ']
          ++ ((toString v.m_col_begin).data ++ ',' :: (' ' :: ((toString v.m_col_end).data
            ++ ' ' :: ([']', ' ', 'C', 'a', 'l', 'l', 's', ' ', '\x7b']
              ++ ((spec_calls_text v.m_query_config 0 v.m_calls).data
                ++ [' ', '\x7d', '\n']))))) := by
  simp only [spec_variant_text, String.data_append]
  simp

/-- The text of a Variant determines its interval and the text of its calls. -/
theorem spec_variant_text_injective (v w : Variant)
    (h : (spec_variant_text v).data = (spec_variant_text w).data) :
    v.m_col_begin = w.m_col_begin ∧ v.m_col_end = w.m_col_end
    ∧ (spec_calls_text v.m_query_config 0 v.m_calls).data
        = (spec_calls_text w.m_query_config 0 w.m_calls).data := by
  rw [spec_variant_text_data, spec_variant_text_data] at h
  have h1 := List.append_cancel_left h
  obtain ⟨e1, e2⟩ := pivot_split ',' _ _ _ _
    (not_mem_toString_nat v.m_col_begin ',' (by decide))
    (not_mem_toString_nat w.m_col_begin ',' (by decide)) h1
  obtain ⟨e3, e4⟩ := pivot_split ' ' _ _ _ _
    (not_mem_toString_nat v.m_col_end ' ' (by decide))
    (not_mem_toString_nat w.m_col_end ' ' (by decide)) (List.tail_eq_of_cons_eq e2)
  exact ⟨toString_nat_injective _ _ e1, toString_nat_injective _ _ e3,
    List.append_cancel_right (List.append_cancel_left e4)⟩

theorem example_configured_well_separated : example_configured.well_separated := by
  refine ⟨?_, ?_⟩
  · intro q hq
    have e : q = example_config := by
      simp only [example_configured, Option.some.injEq] at hq
      exact hq.symm
    subst e
    refine ⟨by decide, ?_⟩
    intro i j hi hj hn
    have hi2 : i < 2 := hi
    have hj2 : j < 2 := hj
    have h0 : i = 0 ∨ i = 1 := by omega
    have h1 : j = 0 ∨ j = 1 := by omega
    rcases h0 with rfl | rfl <;> rcases h1 with rfl | rfl <;>
      first | rfl | exact absurd hn (by decide)
  · intro c hc hp
    simp only [example_configured, List.mem_cons, List.mem_singleton, List.not_mem_nil,
      or_false] at hc
    rcases hc with rfl | rfl
    · refine ⟨?_, ?_⟩
      · intro f hf
        have e : f = example_field := by simpa using hf
        subst e
        decide
      intro q hq
      have e : q = example_config := by
        simp only [example_configured, Option.some.injEq] at hq
        exact hq.symm
      subst e
      decide
    · exact absurd hp (by decide)

theorem example_configured_other_well_separated : example_configured_other.well_separated := by
  refine ⟨?_, ?_⟩
  · intro q hq
    have e : q = example_config := by
      simp only [example_configured_other, Option.some.injEq] at hq
      exact hq.symm
    subst e
    refine ⟨by decide, ?_⟩
    intro i j hi hj hn
    have hi2 : i < 2 := hi
    have hj2 : j < 2 := hj
    have h0 : i = 0 ∨ i = 1 := by omega
    have h1 : j = 0 ∨ j = 1 := by omega
    rcases h0 with rfl | rfl <;> rcases h1 with rfl | rfl <;>
      first | rfl | exact absurd hn (by decide)
  · intro c hc hp
    simp only [example_configured_other, List.mem_cons, List.mem_singleton, List.not_mem_nil,
      or_false] at hc
    rcases hc with rfl | rfl
    · refine ⟨?_, ?_⟩
      · intro f hf
        have e : f = { payload := [97], printed := "A" } := by simpa using hf
        subst e
        decide
      intro q hq
      have e : q = example_config := by
        simp only [example_configured_other, Option.some.injEq] at hq
        exact hq.symm
      subst e
      decide
    · exact absurd hp (by decide)

/-- C11 as stated fails on the code: two Variants without configuration whose
only call is valid, initialized and on row 7, the one with its field in slot
0 and the other with the same field in slot 1, print the same text;
`VariantCall::print` writes no slot index, and an empty slot writes nothing. -/
theorem C11_slot_index_is_not_printed :
    example_field_in_slot_0.m_query_config = none
    ∧ example_field_in_slot_1.m_query_config = none
    ∧ example_field_in_slot_0.print "" = "Interval:[ 10, 20 ] Calls \x7b 0 : \x7b row : 7, A,  \x7d \x7d\n"
    ∧ example_field_in_slot_1.print "" = example_field_in_slot_0.print ""
    ∧ (example_field_in_slot_0.m_calls.map
        (fun c => (c.m_is_initialized && c.m_is_valid, c.m_row_idx))) = [(true, 7)]
    ∧ (example_field_in_slot_1.m_calls.map
        (fun c => (c.m_is_initialized && c.m_is_valid, c.m_row_idx))) = [(true, 7)]
    ∧ example_field_in_slot_0.get_call_field 0 0 = some (some example_field)
    ∧ example_field_in_slot_1.get_call_field 0 0 = some none := by
  refine ⟨rfl, rfl, by decide, by decide, by decide, by decide, by decide, by decide⟩

/-- C11 (amended): let two Variants have the same query configuration (or both
none) and be well separated: the attribute names of the configuration are
pairwise different and free of colon and closing brace, the printed calls have
no more slots than the configuration has attributes, and the printed values of
their fields are free of comma and closing brace.  If `Variant::print` yields
the same text for both, they have the same col_begin and col_end and the same
number of calls, the same query row indices hold initialized valid calls, with
the same array row indices, and in each such call the occupied slots have the
same printed values in the same order; with a configuration the occupied slot
indices are the same too, each with the same printed value. -/
theorem C11_print_determines_content (v w : Variant) (fptr : String)
    (hcfg : v.m_query_config = w.m_query_config)
    (hv : v.well_separated) (hw : w.well_separated)
    (h : v.print fptr = w.print fptr) :
    v.m_col_begin = w.m_col_begin ∧ v.m_col_end = w.m_col_end
    ∧ v.m_calls.length = w.m_calls.length
    ∧ ∀ (i : Nat) (c d : VariantCall), v.m_calls[i]? = some c → w.m_calls[i]? = some d →
        (c.m_is_initialized && c.m_is_valid) = (d.m_is_initialized && d.m_is_valid)
        ∧ ((c.m_is_initialized && c.m_is_valid) = true →
            c.m_row_idx = d.m_row_idx
            ∧ (c.m_fields.filterMap id).map (fun f : VariantFieldBase => f.printed)
                = (d.m_fields.filterMap id).map (fun f : VariantFieldBase => f.printed)
            ∧ (v.m_query_config.isSome = true →
                ∀ j : Nat, ((c.m_fields[j]?).join).map (fun f : VariantFieldBase => f.printed)
                  = ((d.m_fields[j]?).join).map (fun f : VariantFieldBase => f.printed))) := by
  rw [Variant.print_appends_variant_text, Variant.print_appends_variant_text] at h
  have h1 : (spec_variant_text v).data = (spec_variant_text w).data := by
    have := congrArg String.data h
    simp only [String.data_append] at this
    exact List.append_cancel_left this
  obtain ⟨e1, e2, e3⟩ := spec_variant_text_injective v w h1
  rw [← hcfg] at e3
  have hw2 : ∀ d ∈ w.m_calls, d.well_separated v.m_query_config := by
    rw [hcfg]
    exact hw.2
  obtain ⟨e4, e5⟩ := spec_calls_text_injective v.m_query_config
    (fun q hq => (hv.1 q hq).1) v.m_calls w.m_calls 0 hv.2 hw2 e3
  refine ⟨e1, e2, e4, ?_⟩
  intro i c d hc hd
  obtain ⟨e6, e7⟩ := spec_call_text_injective v.m_query_config c d (e5 i c d hc hd)
  refine ⟨e6, ?_⟩
  intro hp
  have hq : (d.m_is_initialized && d.m_is_valid) = true := by rw [← e6]; exact hp
  obtain ⟨e8, e9⟩ := e7 hp
  have hoc := occupied_slots_of_well_separated v.m_query_config c
    (hv.2 c (List.getElem?_mem hc)) hp
  have hod := occupied_slots_of_well_separated v.m_query_config d
    (hw2 d (List.getElem?_mem hd)) hq
  refine ⟨e8, ?_, ?_⟩
  · cases hcq : v.m_query_config with
    | none =>
      rw [hcq] at e9
      have := slots_text_none_injective _ _ (fun s hs => (hoc s hs).1)
        (fun s hs => (hod s hs).1) e9
      rw [occupied_slots_values, occupied_slots_values] at this
      exact this
    | some q =>
      rw [hcq] at e9
      have := slots_text_some_injective q (hv.1 q hcq).1 (hv.1 q hcq).2 _ _
        (fun s hs => ⟨(hoc s hs).2.2 q hcq, (hoc s hs).1⟩)
        (fun s hs => ⟨(hod s hs).2.2 q hcq, (hod s hs).1⟩) e9
      rw [← occupied_slots_values c.m_fields 0, ← occupied_slots_values d.m_fields 0, this]
  · intro hsome j
    obtain ⟨q, hcq⟩ := Option.isSome_iff_exists.mp hsome
    rw [hcq] at e9
    have := slots_text_some_injective q (hv.1 q hcq).1 (hv.1 q hcq).2 _ _
      (fun s hs => ⟨(hoc s hs).2.2 q hcq, (hoc s hs).1⟩)
      (fun s hs => ⟨(hod s hs).2.2 q hcq, (hod s hs).1⟩) e9
    have l1 := lookup_occupied_slots c.m_fields 0 j
    have l2 := lookup_occupied_slots d.m_fields 0 j
    rw [← l1, ← l2, this]

/-- C11 (amended) at a concrete input: two Variants bound to the same
configuration that differ in the payload behind a printed value and in a call
that is not valid, and print the same text. -/
theorem C11_print_determines_content_witness :
    example_configured.m_query_config = example_configured_other.m_query_config
    ∧ example_configured.well_separated ∧ example_configured_other.well_separated
    ∧ example_configured.print "" = example_configured_other.print ""
    ∧ example_configured ≠ example_configured_other
    ∧ example_configured.m_col_begin = example_configured_other.m_col_begin
    ∧ example_configured.m_col_end = example_configured_other.m_col_end
    ∧ example_configured.m_calls.length = example_configured_other.m_calls.length
    ∧ ∀ (i : Nat) (c d : VariantCall), example_configured.m_calls[i]? = some c →
        example_configured_other.m_calls[i]? = some d →
        (c.m_is_initialized && c.m_is_valid) = (d.m_is_initialized && d.m_is_valid)
        ∧ ((c.m_is_initialized && c.m_is_valid) = true →
            c.m_row_idx = d.m_row_idx
            ∧ (c.m_fields.filterMap id).map (fun f : VariantFieldBase => f.printed)
                = (d.m_fields.filterMap id).map (fun f : VariantFieldBase => f.printed)
            ∧ (example_configured.m_query_config.isSome = true →
                ∀ j : Nat, ((c.m_fields[j]?).join).map (fun f : VariantFieldBase => f.printed)
                  = ((d.m_fields[j]?).join).map (fun f : VariantFieldBase => f.printed))) :=
  ⟨rfl, example_configured_well_separated, example_configured_other_well_separated,
    by decide,
    fun e => absurd (congrArg (fun x : Variant => x.m_calls) e) (by decide),
    C11_print_determines_content example_configured example_configured_other "" rfl
      example_configured_well_separated example_configured_other_well_separated (by decide)⟩

/-! ## The batch loop of the driver -/

theorem takeWhile_append_of_stop {α : Type} (p : α → Bool) (l : List α) (c : α) (t : List α)
    (hl : ∀ x ∈ l, p x = true) (hc : p c = false) :
    (l ++ c :: t).takeWhile p = l ∧ (l ++ c :: t).dropWhile p = c :: t := by
  induction l with
  | nil => simp [hc]
  | cons a l ih =>
    have ha : p a = true := hl a (List.mem_cons_self _ _)
    have := ih (fun x hx => hl x (List.mem_cons_of_mem _ hx))
    simp [List.takeWhile_cons, List.dropWhile_cons, ha, this.1, this.2]

theorem isdigit_not_space (c : Char) (h : isdigit c = true) :
    isspace c = false ∧ (c == '-') = false ∧ (c == '+') = false := by
  simp only [isdigit, decide_eq_true_eq] at h
  refine ⟨?_, ?_, ?_⟩
  · simp only [isspace, Bool.or_eq_false_iff, beq_eq_false_iff_ne, ne_eq]
    refine ⟨⟨⟨⟨⟨?_, ?_⟩, ?_⟩, ?_⟩, ?_⟩, ?_⟩ <;> (intro hc; rw [hc] at h; revert h; decide)
  · simp only [beq_eq_false_iff_ne, ne_eq]
    intro hc; rw [hc] at h; revert h; decide
  · simp only [beq_eq_false_iff_ne, ne_eq]
    intro hc; rw [hc] at h; revert h; decide

/-- Extraction where no number can start: `failbit` is set. -/
theorem extract_uint64_fails (pre : List Char) (fin : List Char)
    (hpre : ∀ x ∈ pre, isspace x = true)
    (hfin : fin = [] ∨ ∃ c t, fin = c :: t ∧ starts_no_number c = true) :
    (extract_uint64 (IStream.on (pre ++ fin))).1.failbit = true := by
  rcases hfin with rfl | ⟨c, t, rfl, hc⟩
  · have hskip : (pre ++ []).dropWhile isspace = [] := by
      rw [List.append_nil]
      exact List.dropWhile_eq_nil_iff.mpr hpre
    unfold extract_uint64
    simp only [IStream.on, Bool.or_self, Bool.false_eq_true, if_false, hskip]
  · simp only [starts_no_number, Bool.and_eq_true, Bool.not_eq_true'] at hc
    obtain ⟨⟨⟨h1, h2⟩, h3⟩, h4⟩ := hc
    have hskip : (pre ++ c :: t).dropWhile isspace = c :: t :=
      (takeWhile_append_of_stop isspace pre c t hpre h1).2
    unfold extract_uint64
    simp only [IStream.on, Bool.or_self, Bool.false_eq_true, if_false, hskip, h3, h4,
      List.takeWhile_cons, h2]
    simp

/-- The loop stops at once where no number can start. -/
theorem positions_loop_stops (pre fin : List Char) (fuel : Nat)
    (hpre : ∀ x ∈ pre, isspace x = true)
    (hfin : fin = [] ∨ ∃ c t, fin = c :: t ∧ starts_no_number c = true)
    (hfuel : 0 < fuel) :
    positions_loop fuel (IStream.on (pre ++ fin)) = some [] := by
  obtain ⟨k, rfl⟩ : ∃ k, fuel = k + 1 := ⟨fuel - 1, by omega⟩
  have hf := extract_uint64_fails pre fin hpre hfin
  unfold positions_loop
  simp [hf]

/-- The batch branch of `main` when the loop runs the queries `positions`. -/
theorem main_batch (cl : CommandLineOpts) (S fuel : Nat) (workspace array_name : String)
    (s : IStream) (positions : List Nat)
    (hw : cl.m_workspace = some workspace) (ha : cl.m_array_name = some array_name)
    (hscan : cl.m_do_scan = false) (hlist : cl.m_positions_list = some s)
    (hloop : positions_loop fuel s = some positions) :
    main cl S fuel
      = some ([DriverEvent.create_storage_manager workspace none,
            DriverEvent.open_array array_name,
            DriverEvent.create_storage_manager workspace
              (some (if 40000 > S then S else 40000)),
            DriverEvent.open_array array_name, DriverEvent.create_query_processor]
          ++ positions.map DriverEvent.point_query
          ++ [DriverEvent.close_array] ++ main_epilogue cl) := by
  unfold main
  simp [missing_configuration, hw, ha, hscan, hlist, hloop]

/-! ## The batch loop on the entries of a text -/

theorem isspace_not_digit (c : Char) (h : isspace c = true) : isdigit c = false := by
  cases hd : isdigit c with
  | false => rfl
  | true =>
    have := (isdigit_not_space c hd).1
    rw [h] at this
    cases this

/-- Extraction of a run of digits spelling a number below `2^64`, after
whitespace and before a character that is not a digit: the value is that
number and no error bit is set. -/
theorem extract_uint64_digits (pre ds : List Char) (c : Char) (t : List Char)
    (hpre : ∀ x ∈ pre, isspace x = true) (hne : ds ≠ [])
    (hdig : ∀ x ∈ ds, isdigit x = true) (hval : digits_value ds < 2 ^ 64)
    (hc : isdigit c = false) :
    extract_uint64 (IStream.on (pre ++ ds ++ c :: t))
      = (IStream.on (c :: t), digits_value ds) := by
  obtain ⟨d, ds1, hds⟩ := List.exists_cons_of_ne_nil hne
  have hd : isdigit d = true := hdig d (by rw [hds]; exact List.mem_cons_self _ _)
  obtain ⟨hd1, hd2, hd3⟩ := isdigit_not_space d hd
  have hskip : (pre ++ ds ++ c :: t).dropWhile isspace = d :: (ds1 ++ c :: t) := by
    rw [List.append_assoc, hds]
    exact (takeWhile_append_of_stop isspace pre d (ds1 ++ c :: t) hpre hd1).2
  have hsplit := takeWhile_append_of_stop isdigit ds c t hdig hc
  rw [hds] at hsplit
  unfold extract_uint64
  simp only [IStream.on, Bool.or_self, Bool.false_eq_true, if_false, hskip, hd2, hd3]
  have e : d :: (ds1 ++ c :: t) = (d :: ds1) ++ c :: t := rfl
  rw [e, hsplit.1, hsplit.2, ← hds]
  have h1 : digits_value ds < 18446744073709551616 := by simpa using hval
  simp [hne, h1]

/-- Extraction of a run of digits spelling a number that does not fit:
`failbit` is set. -/
theorem extract_uint64_overflow (pre ds rest : List Char)
    (hpre : ∀ x ∈ pre, isspace x = true) (hne : ds ≠ [])
    (hdig : ∀ x ∈ ds, isdigit x = true) (hval : 2 ^ 64 ≤ digits_value ds)
    (hrest : rest = [] ∨ ∃ c t, rest = c :: t ∧ isdigit c = false) :
    (extract_uint64 (IStream.on (pre ++ ds ++ rest))).1.failbit = true := by
  obtain ⟨d, ds1, hds⟩ := List.exists_cons_of_ne_nil hne
  have hd : isdigit d = true := hdig d (by rw [hds]; exact List.mem_cons_self _ _)
  obtain ⟨hd1, hd2, hd3⟩ := isdigit_not_space d hd
  have hskip : (pre ++ ds ++ rest).dropWhile isspace = d :: (ds1 ++ rest) := by
    rw [List.append_assoc, hds]
    exact (takeWhile_append_of_stop isspace pre d (ds1 ++ rest) hpre hd1).2
  have htake : (ds ++ rest).takeWhile isdigit = ds := by
    rcases hrest with rfl | ⟨c, t, rfl, hc⟩
    · rw [List.append_nil]
      exact List.takeWhile_eq_self_iff.mpr hdig
    · exact (takeWhile_append_of_stop isdigit ds c t hdig hc).1
  rw [hds] at htake
  unfold extract_uint64
  simp only [IStream.on, Bool.or_self, Bool.false_eq_true, if_false, hskip, hd2, hd3]
  have e : d :: (ds1 ++ rest) = (d :: ds1) ++ rest := rfl
  rw [e, htake, ← hds]
  have h1 : 18446744073709551616 ≤ digits_value ds := by simpa using hval
  simp [hne, h1]

/-- The loop on digits spelling a number below `2^64` directly followed by a
character at which no number can start: one query, then the loop stops. -/
theorem positions_loop_digits_then_stop (pre ds : List Char) (c : Char) (t : List Char)
    (fuel : Nat) (hpre : ∀ x ∈ pre, isspace x = true) (hne : ds ≠ [])
    (hdig : ∀ x ∈ ds, isdigit x = true) (hval : digits_value ds < 2 ^ 64)
    (hc : starts_no_number c = true) (hfuel : 1 < fuel) :
    positions_loop fuel (IStream.on (pre ++ ds ++ c :: t)) = some [digits_value ds] := by
  obtain ⟨k, rfl⟩ : ∃ k, fuel = k + 1 := ⟨fuel - 1, by omega⟩
  have hcd : isdigit c = false := by
    simp only [starts_no_number, Bool.and_eq_true, Bool.not_eq_true'] at hc
    exact hc.1.1.2
  have hex := extract_uint64_digits pre ds c t hpre hne hdig hval hcd
  have hstop := positions_loop_stops [] (c :: t) k (by simp) (Or.inr ⟨c, t, rfl, hc⟩) (by omega)
  unfold positions_loop
  simp only []
  rw [hex]
  simp only [List.nil_append] at hstop
  rw [hstop]
  rfl

/-- The loop at a failing extraction stops with no query. -/
theorem positions_loop_of_failbit (s : IStream) (fuel : Nat) (hfuel : 0 < fuel)
    (h : (extract_uint64 s).1.failbit = true) : positions_loop fuel s = some [] := by
  obtain ⟨k, rfl⟩ : ∃ k, fuel = k + 1 := ⟨fuel - 1, by omega⟩
  unfold positions_loop
  simp [h]

/-- Leading whitespace adds no entry. -/
theorem list_entries_space (ws t : List Char) (hws : ∀ x ∈ ws, isspace x = true) :
    list_entries (ws ++ t) = list_entries t := by
  induction ws with
  | nil => rfl
  | cons a ws ih =>
    have ha : isspace a = true := hws a (List.mem_cons_self _ _)
    have := ih (fun x hx => hws x (List.mem_cons_of_mem _ hx))
    unfold list_entries at this ⊢
    simp [List.splitOnP_cons, ha, this]

/-- A run of characters other than whitespace, at the end of the text or
before whitespace, is the first entry. -/
theorem list_entries_token (tok rest : List Char) (hne : tok ≠ [])
    (htok : ∀ x ∈ tok, isspace x = false)
    (hrest : rest = [] ∨ ∃ w r, rest = w :: r ∧ isspace w = true) :
    list_entries (tok ++ rest) = tok :: list_entries rest := by
  have key : (tok ++ rest).splitOnP isspace
      = tok :: (match rest with | [] => [] | _ :: r => r.splitOnP isspace) := by
    clear hne
    induction tok with
    | nil =>
      rcases hrest with rfl | ⟨w, r, rfl, hw⟩
      · simp [List.splitOnP_nil]
      · simp [List.splitOnP_cons, hw]
    | cons a tok ih =>
      have ha : isspace a = false := htok a (List.mem_cons_self _ _)
      have := ih (fun x hx => htok x (List.mem_cons_of_mem _ hx))
      simp [List.splitOnP_cons, ha, this]
  unfold list_entries
  rw [key]
  rcases hrest with rfl | ⟨w, r, rfl, hw⟩
  · simp [List.splitOnP_nil, hne]
  · simp [List.splitOnP_cons, hw, hne]

/-- A text is whitespace only, or whitespace, then a first entry, then the
end of the text or whitespace. -/
theorem text_decomposition (text : List Char) :
    (∀ x ∈ text, isspace x = true)
    ∨ ∃ ws tok rest, text = ws ++ tok ++ rest ∧ (∀ x ∈ ws, isspace x = true) ∧ tok ≠ []
        ∧ (∀ x ∈ tok, isspace x = false)
        ∧ (rest = [] ∨ ∃ w r, rest = w :: r ∧ isspace w = true) := by
  by_cases hall : text.dropWhile isspace = []
  · left
    exact List.dropWhile_eq_nil_iff.mp hall
  · right
    refine ⟨text.takeWhile isspace,
      (text.dropWhile isspace).takeWhile (fun x => !isspace x),
      (text.dropWhile isspace).dropWhile (fun x => !isspace x), ?_, ?_, ?_, ?_, ?_⟩
    · rw [List.append_assoc, List.takeWhile_append_dropWhile, List.takeWhile_append_dropWhile]
    · intro x hx
      exact List.mem_takeWhile_imp hx
    · obtain ⟨a, l, hl⟩ := List.exists_cons_of_ne_nil hall
      have ha : isspace a = false := by
        have := List.head?_dropWhile_not isspace text
        rw [hl] at this
        simpa using this
      rw [hl]
      simp [List.takeWhile_cons, ha]
    · intro x hx
      have := List.mem_takeWhile_imp hx
      simpa using this
    · cases hr : (text.dropWhile isspace).dropWhile (fun x => !isspace x) with
      | nil => exact Or.inl rfl
      | cons w r =>
        right
        refine ⟨w, r, rfl, ?_⟩
        have := List.head?_dropWhile_not (fun x => !isspace x) (text.dropWhile isspace)
        rw [hr] at this
        simpa using this

/-- An entry that is an unsigned integer: non-empty, digits only, below `2^64`. -/
theorem parses_as_unsigned_iff (e : List Char) :
    parses_as_unsigned e = true
      ↔ e ≠ [] ∧ (∀ x ∈ e, isdigit x = true) ∧ digits_value e < 2 ^ 64 := by
  unfold parses_as_unsigned
  simp only [Bool.and_eq_true, Bool.not_eq_true', List.isEmpty_eq_false, List.all_eq_true,
    decide_eq_true_eq, and_assoc]

/-- The batch loop on a text, by its entries: the integers before the first
entry that is not an unsigned integer are queried, then the number spelled by
the leading digits of that entry, when the entries queried are each followed
by whitespace and that entry has no sign right after its leading digits. -/
theorem positions_loop_on_entries :
    ∀ (n : Nat) (text : List Char), text.length ≤ n → ∀ fuel : Nat,
      (list_entries text).length < fuel →
      (first_unparsed_entry text = none → ∀ c, text.getLast? = some c → isspace c = true) →
      (∀ e, first_unparsed_entry text = some e → no_sign_after_digits e = true) →
      positions_loop fuel (IStream.on text)
        = some (listed_positions text
            ++ (match first_unparsed_entry text with
                | some e => digit_prefix_query e
                | none => [])) := by
  intro n
  induction n with
  | zero =>
    intro text hlen fuel hfuel _ _
    have ht : text = [] := List.eq_nil_of_length_eq_zero (by omega)
    subst ht
    have := positions_loop_stops [] [] fuel (by simp) (Or.inl rfl) (by omega)
    simpa [listed_positions, list_entries, first_unparsed_entry, List.splitOnP_nil] using this
  | succ n ih =>
    intro text hlen fuel hfuel hlast hsign
    rcases text_decomposition text with hall | ⟨ws, tok, rest, rfl, hws, hne, htok, hrest⟩
    · have hent : list_entries text = [] := by
        have := list_entries_space text [] hall
        rw [List.append_nil] at this
        rw [this]
        simp [list_entries, List.splitOnP_nil]
      have := positions_loop_stops text [] fuel hall (Or.inl rfl) (by omega)
      rw [List.append_nil] at this
      rw [this]
      simp [listed_positions, first_unparsed_entry, hent]
    · have hent : list_entries (ws ++ tok ++ rest) = tok :: list_entries rest := by
        rw [List.append_assoc, list_entries_space ws _ hws, list_entries_token tok rest hne htok hrest]
      have hfuel2 : (list_entries rest).length + 1 < fuel := by
        rw [hent] at hfuel
        simpa using hfuel
      cases hp : parses_as_unsigned tok with
      | true =>
        obtain ⟨_, hdig, hval⟩ := (parses_as_unsigned_iff tok).mp hp
        have hfirst : first_unparsed_entry (ws ++ tok ++ rest) = first_unparsed_entry rest := by
          unfold first_unparsed_entry
          rw [hent]
          simp [List.dropWhile_cons, hp]
        have hlisted : listed_positions (ws ++ tok ++ rest)
            = digits_value tok :: listed_positions rest := by
          unfold listed_positions
          rw [hent]
          simp [List.takeWhile_cons, hp]
        rcases hrest with rfl | ⟨w, r, rfl, hw⟩
        · exfalso
          have hf : first_unparsed_entry (ws ++ tok ++ []) = none := by
            rw [hfirst]
            simp [first_unparsed_entry, list_entries, List.splitOnP_nil]
          obtain ⟨c, hc⟩ : ∃ c, tok.getLast? = some c := by
            cases hg : tok.getLast? with
            | none => exact absurd (List.getLast?_eq_none_iff.mp hg) hne
            | some c => exact ⟨c, rfl⟩
          have hl : (ws ++ tok ++ []).getLast? = some c := by
            rw [List.append_nil, List.getLast?_append, hc]
            rfl
          have h1 := hlast hf c hl
          have h2 := htok c (List.mem_of_getLast?_eq_some hc)
          rw [h1] at h2
          cases h2
        · obtain ⟨k, rfl⟩ : ∃ k, fuel = k + 1 := ⟨fuel - 1, by omega⟩
          have hex := extract_uint64_digits ws tok w r hws hne hdig hval (isspace_not_digit w hw)
          have hlen2 : (w :: r).length ≤ n := by
            have h1 : tok.length ≠ 0 := fun h => hne (List.eq_nil_of_length_eq_zero h)
            simp only [List.length_append, List.length_cons] at hlen ⊢
            omega
          have hlast2 : first_unparsed_entry (w :: r) = none →
              ∀ c, (w :: r).getLast? = some c → isspace c = true := by
            intro hf c hc
            apply hlast (by rw [hfirst]; exact hf) c
            rw [List.getLast?_append, hc]
            rfl
          have hnext := ih (w :: r) hlen2 k (by omega) hlast2
            (fun e he => hsign e (by rw [hfirst]; exact he))
          unfold positions_loop
          simp only []
          rw [hex, hnext, hfirst, hlisted]
          rfl
      | false =>
        have hfirst : first_unparsed_entry (ws ++ tok ++ rest) = some tok := by
          unfold first_unparsed_entry
          rw [hent]
          simp [List.dropWhile_cons, hp]
        have hlisted : listed_positions (ws ++ tok ++ rest) = [] := by
          unfold listed_positions
          rw [hent]
          simp [List.takeWhile_cons, hp]
        have hns := hsign tok hfirst
        rw [hfirst, hlisted, List.nil_append]
        simp only []
        have hsplit : tok.takeWhile isdigit ++ tok.dropWhile isdigit = tok :=
          List.takeWhile_append_dropWhile isdigit tok
        have hdig : ∀ x ∈ tok.takeWhile isdigit, isdigit x = true :=
          fun x hx => List.mem_takeWhile_imp hx
        have hrest2 : rest = [] ∨ ∃ c t, rest = c :: t ∧ isdigit c = false := by
          rcases hrest with rfl | ⟨w, r, rfl, hw⟩
          · exact Or.inl rfl
          · exact Or.inr ⟨w, r, rfl, isspace_not_digit w hw⟩
        have htext : ws ++ tok ++ rest
            = ws ++ tok.takeWhile isdigit ++ (tok.dropWhile isdigit ++ rest) := by
          rw [List.append_assoc ws (tok.takeWhile isdigit), ← List.append_assoc
            (tok.takeWhile isdigit), hsplit, List.append_assoc]
        cases hd : tok.dropWhile isdigit with
        | nil =>
          have htd : tok.takeWhile isdigit = tok := by
            rw [hd, List.append_nil] at hsplit
            exact hsplit
          have hov : 2 ^ 64 ≤ digits_value tok := by
            by_contra hlt
            have : parses_as_unsigned tok = true :=
              (parses_as_unsigned_iff tok).mpr ⟨hne, by rw [← htd]; exact hdig, by omega⟩
            rw [hp] at this
            cases this
          have hq : digit_prefix_query tok = [] := by
            unfold digit_prefix_query
            rw [htd, if_neg]
            intro h
            omega
          rw [hq]
          apply positions_loop_of_failbit _ _ (by omega)
          have := extract_uint64_overflow ws tok rest hws hne (by rw [← htd]; exact hdig) hov hrest2
          exact this
        | cons c t =>
          have hcd : isdigit c = false := by
            have := List.head?_dropWhile_not isdigit tok
            rw [hd] at this
            simpa using this
          have hcmem : c ∈ tok := by
            rw [← hsplit, hd]
            simp
          have hcs : isspace c = false := htok c hcmem
          have hstart : starts_no_number c = true := by
            simp only [no_sign_after_digits, hd, Bool.and_eq_true, Bool.not_eq_true'] at hns
            simp [starts_no_number, hcs, hcd, hns.1, hns.2]
          by_cases hds : tok.takeWhile isdigit = []
          · have hq : digit_prefix_query tok = [] := by
              unfold digit_prefix_query
              rw [if_neg]
              intro h
              exact h.1 hds
            rw [hq, htext, hds, List.append_nil, hd]
            exact positions_loop_stops ws (c :: t ++ rest) fuel hws
              (Or.inr ⟨c, t ++ rest, rfl, hstart⟩) (by omega)
          · by_cases hv : digits_value (tok.takeWhile isdigit) < 2 ^ 64
            · have hq : digit_prefix_query tok = [digits_value (tok.takeWhile isdigit)] := by
                unfold digit_prefix_query
                rw [if_pos ⟨hds, hv⟩]
              rw [hq, htext, hd]
              exact positions_loop_digits_then_stop ws _ c (t ++ rest) fuel hws hds hdig hv
                hstart (by omega)
            · have hq : digit_prefix_query tok = [] := by
                unfold digit_prefix_query
                rw [if_neg]
                intro h
                exact hv h.2
              rw [hq, htext, hd]
              apply positions_loop_of_failbit _ _ (by omega)
              exact extract_uint64_overflow ws _ (c :: t ++ rest) hws hds hdig (by omega)
                (Or.inr ⟨c, t ++ rest, rfl, hcd⟩)

/-- C12 as stated fails on the code: in the list `12abc` the only entry is not
an unsigned integer, so no integer comes before the first such entry, yet the
loop runs a query at 12, the digits the entry starts with, before it stops; in
the list `+7`, `8` the first entry is not an unsigned integer either, yet the
loop reads it as a signed number and runs queries at 7 and at 8.  (And for the
list `5`, `15` without a final newline, where both entries are integers, the
loop runs the query at 5 only.) -/
theorem C12_digit_prefix_of_an_entry_is_queried :
    list_entries "12abc\n".data = ["12abc".data]
    ∧ parses_as_unsigned "12abc".data = false
    ∧ listed_positions "12abc\n".data = []
    ∧ positions_loop 3 (IStream.on "12abc\n".data) = some [12]
    ∧ listed_positions "+7\n8\n".data = []
    ∧ positions_loop 3 (IStream.on "+7\n8\n".data) = some [7, 8]
    ∧ listed_positions "5\n15".data = [5, 15]
    ∧ positions_loop 3 (IStream.on "5\n15".data) = some [5] := by
  refine ⟨by decide, by decide, by decide, by decide, by decide, by decide, by decide,
    by decide⟩

/-- C12 (amended): for every positions-list text, given more extractions than
it has entries (its maximal runs of characters other than whitespace; an entry
is an unsigned integer when it is made of digits only and spells a number
below `2^64`), the batch loop ends, and
(1) when every entry is an unsigned integer and the text is empty or ends in
whitespace, it runs one point query per entry, in list order;
(2) when some entry is not an unsigned integer and the first such entry has no
sign right after its leading digits (at its start, when it has none), it runs
one point query per entry before that one, in list order, and then one more,
at the number its leading digits spell, when it has leading digits and they
spell a number below `2^64`;
(3) `main` makes exactly the point queries the loop runs, between opening and
closing the array, and reports no error. -/
theorem C12_batch_loop_on_entries (text : List Char) (fuel : Nat)
    (hfuel : (list_entries text).length < fuel) :
    ((∀ e ∈ list_entries text, parses_as_unsigned e = true) →
      (∀ c, text.getLast? = some c → isspace c = true) →
      positions_loop fuel (IStream.on text) = some (listed_positions text))
    ∧ (∀ e, first_unparsed_entry text = some e → no_sign_after_digits e = true →
        positions_loop fuel (IStream.on text)
          = some (listed_positions text ++ digit_prefix_query e))
    ∧ (∀ (cl : CommandLineOpts) (S : Nat) (workspace array_name : String)
        (positions : List Nat),
        cl.m_workspace = some workspace → cl.m_array_name = some array_name →
        cl.m_do_scan = false → cl.m_positions_list = some (IStream.on text) →
        positions_loop fuel (IStream.on text) = some positions →
        main cl S fuel
          = some ([DriverEvent.create_storage_manager workspace none,
                DriverEvent.open_array array_name,
                DriverEvent.create_storage_manager workspace
                  (some (if 40000 > S then S else 40000)),
                DriverEvent.open_array array_name, DriverEvent.create_query_processor]
              ++ positions.map DriverEvent.point_query
              ++ [DriverEvent.close_array] ++ main_epilogue cl)) := by
  refine ⟨?_, ?_, ?_⟩
  · intro hall hlast
    have hnone : first_unparsed_entry text = none := by
      unfold first_unparsed_entry
      rw [List.dropWhile_eq_nil_iff.mpr hall]
      rfl
    have := positions_loop_on_entries text.length text (Nat.le_refl _) fuel hfuel
      (fun _ => hlast) (fun e he => by rw [hnone] at he; cases he)
    rw [this, hnone]
    simp
  · intro e he hsign
    have := positions_loop_on_entries text.length text (Nat.le_refl _) fuel hfuel
      (fun hn => by rw [he] at hn; cases hn)
      (fun e1 he1 => by rw [he] at he1; cases he1; exact hsign)
    rw [this, he]
  · intro cl S workspace array_name positions hw ha hscan hlist hloop
    exact main_batch cl S fuel workspace array_name _ positions hw ha hscan hlist hloop

/-- C12 (amended) at concrete inputs, with four extractions allowed: the list
of the end-to-end scenario, a list separated by blanks, and a list whose
first entry that is not an integer starts with digits. -/
theorem C12_batch_loop_on_entries_witness :
    (list_entries "5\n15\nabc\n".data).length < 4
    ∧ first_unparsed_entry "5\n15\nabc\n".data = some "abc".data
    ∧ no_sign_after_digits "abc".data = true
    ∧ positions_loop 4 (IStream.on "5\n15\nabc\n".data) = some [5, 15]
    ∧ positions_loop 4 (IStream.on "5 15 ".data) = some [5, 15]
    ∧ positions_loop 4 (IStream.on "7 012abc 9\n".data) = some [7, 12] :=
  ⟨by decide, by decide, by decide,
    (C12_batch_loop_on_entries "5\n15\nabc\n".data 4 (by decide)).2.1 "abc".data (by decide)
      (by decide),
    (C12_batch_loop_on_entries "5 15 ".data 4 (by decide)).1 (by decide) (by decide),
    (C12_batch_loop_on_entries "7 012abc 9\n".data 4 (by decide)).2.1 "012abc".data (by decide)
      (by decide)⟩

/-! ## The configuration check of the driver -/

/-- The rejection of `main` when the configuration check fires. -/
theorem main_rejects_missing_configuration (cl : CommandLineOpts) (S fuel : Nat)
    (h : cl.m_workspace = none ∨ cl.m_array_name = none
      ∨ (cl.m_position = 0 ∧ cl.m_positions_list = none ∧ cl.m_do_scan = false)) :
    main cl S fuel
      = some [DriverEvent.report_error "Missing workspace|[position or scan]|array_name\n",
          DriverEvent.exit (-1)] := by
  have hm : missing_configuration cl = true := by
    unfold missing_configuration
    rcases h with h | h | ⟨h1, h2, h3⟩
    · simp [h]
    · simp [h]
    · simp [h1, h2, h3]
  unfold main
  rw [if_pos hm]

/-- C13: if the workspace is missing, or the array name is missing, or none of
target position (a non-zero `m_position`), positions list and scan flag is
given, `main` reports the error and exits with the non-zero status -1, and
makes no other call: no storage manager is created, no array opened, no query
run. -/
theorem C13_missing_configuration_exits_first (cl : CommandLineOpts) (S fuel : Nat)
    (h : cl.m_workspace = none ∨ cl.m_array_name = none
      ∨ (cl.m_position = 0 ∧ cl.m_positions_list = none ∧ cl.m_do_scan = false)) :
    main cl S fuel
      = some [DriverEvent.report_error "Missing workspace|[position or scan]|array_name\n",
          DriverEvent.exit (-1)]
    ∧ (-1 : Int) ≠ 0 := by
  exact ⟨main_rejects_missing_configuration cl S fuel h, by decide⟩

/-- C13 at a concrete input: options without a workspace. -/
theorem C13_missing_configuration_exits_first_witness :
    (example_options_no_workspace.m_workspace = none
      ∨ example_options_no_workspace.m_array_name = none
      ∨ (example_options_no_workspace.m_position = 0
          ∧ example_options_no_workspace.m_positions_list = none
          ∧ example_options_no_workspace.m_do_scan = false))
    ∧ main example_options_no_workspace 1000 5
        = some [DriverEvent.report_error "Missing workspace|[position or scan]|array_name\n",
            DriverEvent.exit (-1)]
    ∧ (-1 : Int) ≠ 0 :=
  ⟨Or.inl rfl, C13_missing_configuration_exits_first example_options_no_workspace 1000 5
    (Or.inl rfl)⟩

/-- C14 as stated fails on the code: with workspace and array name present,
options giving both a target position and the scan flag are not rejected;
`main` runs the scan. -/
theorem C14_two_modes_are_accepted :
    example_options_scan_and_position.m_workspace = some "ws"
    ∧ example_options_scan_and_position.m_array_name = some "gvcf"
    ∧ example_options_scan_and_position.m_position = 5
    ∧ example_options_scan_and_position.m_do_scan = true
    ∧ main example_options_scan_and_position 1000 5
        = some [DriverEvent.create_storage_manager "ws" none, DriverEvent.open_array "gvcf",
            DriverEvent.create_query_processor, DriverEvent.scan_and_operate,
            DriverEvent.close_array, DriverEvent.return_from_main 0] := by
  refine ⟨rfl, rfl, rfl, rfl, by decide⟩

/-- C14 (amended): with workspace and array name present, `main` rejects the
configuration exactly when none of target position (a non-zero `m_position`),
positions list and scan flag is given; when several are given none is
rejected: the scan flag selects the scan, otherwise an open positions list
selects the batch, otherwise the single point query at `m_position` is run. -/
theorem C14_at_least_one_mode (cl : CommandLineOpts) (S fuel : Nat)
    (workspace array_name : String)
    (hw : cl.m_workspace = some workspace) (ha : cl.m_array_name = some array_name) :
    (main cl S fuel
        = some [DriverEvent.report_error "Missing workspace|[position or scan]|array_name\n",
            DriverEvent.exit (-1)]
      ↔ (cl.m_position = 0 ∧ cl.m_positions_list = none ∧ cl.m_do_scan = false))
    ∧ (cl.m_do_scan = true →
        main cl S fuel
          = some ([DriverEvent.create_storage_manager workspace none,
              DriverEvent.open_array array_name, DriverEvent.create_query_processor,
              DriverEvent.scan_and_operate] ++ main_epilogue cl))
    ∧ (cl.m_do_scan = false → ∀ s positions, cl.m_positions_list = some s →
        positions_loop fuel s = some positions →
        main cl S fuel
          = some ([DriverEvent.create_storage_manager workspace none,
                DriverEvent.open_array array_name,
                DriverEvent.create_storage_manager workspace
                  (some (if 40000 > S then S else 40000)),
                DriverEvent.open_array array_name, DriverEvent.create_query_processor]
              ++ positions.map DriverEvent.point_query
              ++ [DriverEvent.close_array] ++ main_epilogue cl))
    ∧ (cl.m_do_scan = false → cl.m_positions_list = none → cl.m_position ≠ 0 →
        main cl S fuel
          = some ([DriverEvent.create_storage_manager workspace none,
                DriverEvent.open_array array_name,
                DriverEvent.create_storage_manager workspace
                  (some (if 40000 > S then S else 40000)),
                DriverEvent.open_array array_name, DriverEvent.create_query_processor,
                DriverEvent.point_query cl.m_position]
              ++ [DriverEvent.close_array] ++ main_epilogue cl)) := by
  refine ⟨?_, ?_, ?_, ?_⟩
  · constructor
    · intro hmain
      by_cases hm : missing_configuration cl = true
      · simp only [missing_configuration, hw, ha] at hm
        cases hl : cl.m_positions_list with
        | none => simpa [hl] using hm
        | some s => simp [hl] at hm
      · exfalso
        unfold main at hmain
        rw [if_neg hm] at hmain
        simp only [hw, ha] at hmain
        cases hscan : cl.m_do_scan with
        | true => simp [hscan] at hmain
        | false =>
          cases hlist : cl.m_positions_list with
          | none => simp [hscan, hlist] at hmain
          | some s =>
            cases hloop : positions_loop fuel s with
            | none => simp [hscan, hlist, hloop] at hmain
            | some ps => simp [hscan, hlist, hloop] at hmain
    · rintro ⟨h1, h2, h3⟩
      exact (main_rejects_missing_configuration cl S fuel (Or.inr (Or.inr ⟨h1, h2, h3⟩)))
  · intro hscan
    unfold main
    simp [missing_configuration, hw, ha, hscan]
  · intro hscan s positions hlist hloop
    exact main_batch cl S fuel workspace array_name s positions hw ha hscan hlist hloop
  · intro hscan hlist hpos
    unfold main
    simp [missing_configuration, hw, ha, hscan, hlist, hpos]

/-- C14 (amended) at a concrete input: position 5 and the scan flag together. -/
theorem C14_at_least_one_mode_witness :
    example_options_scan_and_position.m_workspace = some "ws"
    ∧ example_options_scan_and_position.m_array_name = some "gvcf"
    ∧ (main example_options_scan_and_position 1000 5
        = some [DriverEvent.report_error "Missing workspace|[position or scan]|array_name\n",
            DriverEvent.exit (-1)]
      ↔ (example_options_scan_and_position.m_position = 0
          ∧ example_options_scan_and_position.m_positions_list = none
          ∧ example_options_scan_and_position.m_do_scan = false)) :=
  ⟨rfl, rfl,
    (C14_at_least_one_mode example_options_scan_and_position 1000 5 "ws" "gvcf" rfl rfl).1⟩

/-! ## Move assignment of a VariantCall -/

theorem set_append_cons_length {α : Type} (pre : List α) (x y : α) (rest : List α) :
    (pre ++ x :: rest).set pre.length y = pre ++ y :: rest := by
  induction pre with
  | nil => rfl
  | cons a pre ih => simp [ih]

theorem VariantCall.move_in_loop_spec (todo : List (Option VariantFieldBase)) :
    ∀ (self : VariantCall) (done filled : List (Option VariantFieldBase)) (idx : Nat),
      self.m_fields = filled ++ List.replicate todo.length none → filled.length = idx →
      VariantCall.move_in_loop self done todo idx
        = .ok ({ self with m_fields := filled ++ todo },
               done ++ List.replicate todo.length none) := by
  induction todo with
  | nil =>
    intro self done filled idx hf _
    simp only [List.length_nil, List.replicate_zero, List.append_nil] at hf
    simp only [VariantCall.move_in_loop, List.length_nil, List.replicate_zero, List.append_nil,
      ← hf]
  | cons f rest ih =>
    intro self done filled idx hf hidx
    subst hidx
    simp only [List.length_cons, List.replicate_succ] at hf
    have hlt : filled.length < self.m_fields.length := by rw [hf]; simp
    have hget : self.m_fields[filled.length] = none := by
      have := getElem_append_cons_length filled none (List.replicate rest.length none)
        (by rw [← hf]; exact hlt)
      simp only [hf]
      exact this
    have hset : self.set_field filled.length f
        = .ok ({ self with m_fields := (filled ++ [f]) ++ List.replicate rest.length none },
               none) := by
      unfold VariantCall.set_field
      rw [dif_pos hlt, if_pos hget]
      congr 3
      rw [hf, set_append_cons_length]
      simp
    unfold VariantCall.move_in_loop
    rw [hset]
    simp only []
    rw [ih _ (done ++ [none]) (filled ++ [f]) (filled.length + 1) rfl (by simp)]
    simp [List.replicate_succ]

/-- What `VariantCall::move_in` computes on every pair of calls. -/
theorem VariantCall.call_move_in_eq (dst src : VariantCall) :
    VariantCall.move_in dst src
      = .ok ({ m_is_valid := src.m_is_valid, m_is_initialized := src.m_is_initialized,
               m_row_idx := src.m_row_idx, m_fields := src.m_fields },
             { src with m_fields := List.replicate src.m_fields.length none }) := by
  unfold VariantCall.move_in
  simp only []
  rw [VariantCall.move_in_loop_spec src.m_fields _ [] [] 0
    (by simp [VariantCall.clear, vector_resize]) rfl]
  simp [VariantCall.clear, VariantCall.is_valid, VariantCall.is_initialized,
    VariantCall.get_row_idx]

/-- C15: for every destination and source call, the move assignment
`dst = std::move(src)` runs to its end; afterwards `dst` has the validity flag,
initialized flag, row index and number of slots `src` had, slot `i` of `dst`
holds what slot `i` of `src` held (nothing of what `dst` held is left), and
every slot of `src` is empty, so no field is held by both calls. -/
theorem C15_call_move_assignment (dst src : VariantCall) :
    ∃ dst1 src1 : VariantCall, VariantCall.move_in dst src = .ok (dst1, src1)
      ∧ dst1.is_valid = src.is_valid
      ∧ dst1.is_initialized = src.is_initialized
      ∧ dst1.get_row_idx = src.get_row_idx
      ∧ dst1.m_fields.length = src.m_fields.length
      ∧ (∀ i : Nat, dst1.m_fields[i]? = src.m_fields[i]?)
      ∧ src1.m_fields.length = src.m_fields.length
      ∧ (∀ slot ∈ src1.m_fields, slot = none)
      ∧ (∀ (i j : Nat) (f : VariantFieldBase),
          dst1.m_fields[i]? = some (some f) → src1.m_fields[j]? ≠ some (some f)) := by
  refine ⟨_, _, VariantCall.call_move_in_eq dst src, rfl, rfl, rfl, rfl, fun _ => rfl, by simp, ?_, ?_⟩
  · intro slot hs
    exact (List.mem_replicate.mp hs).2
  · intro i j f _ h
    have hm := List.getElem?_mem h
    have := (List.mem_replicate.mp hm).2
    cases this

/-! ## The shape of a resized Variant -/

theorem PopulationStep.run_shape (step : PopulationStep) (a a1 : Variant)
    (h : step.run a = .ok a1) :
    a1.m_calls.map (fun c => (c.m_row_idx, c.m_fields.length))
      = a.m_calls.map (fun c => (c.m_row_idx, c.m_fields.length)) := by
  cases step with
  | set_column_interval b e =>
    simp only [PopulationStep.run, Outcome.ok.injEq] at h
    subst h; rfl
  | set_call_field ci fi field =>
    simp only [PopulationStep.run] at h
    rcases Variant.set_call_field_cases a ci fi field with
      ⟨_, e⟩ | ⟨c, _, _, e⟩ | ⟨c, f, _, _, e⟩ | ⟨c, hc, _, e⟩
    · rw [e] at h; cases h
    · rw [e] at h; cases h
    · rw [e] at h; cases h
    · rw [e] at h
      simp only [Outcome.ok.injEq] at h
      subst h
      exact map_set_same (fun c : VariantCall => (c.m_row_idx, c.m_fields.length)) a.m_calls ci c
        { c with m_fields := c.m_fields.set fi field } hc (by simp)
  | mark_valid ci val =>
    simp only [PopulationStep.run, Variant.get_call_and] at h
    split at h
    · simp only [Outcome.ok.injEq] at h
      subst h
      exact map_modify_same (fun c : VariantCall => (c.m_row_idx, c.m_fields.length))
        (fun c => c.mark_valid val) (fun _ => rfl) a.m_calls ci
    · cases h
  | mark_initialized ci val =>
    simp only [PopulationStep.run, Variant.get_call_and] at h
    split at h
    · simp only [Outcome.ok.injEq] at h
      subst h
      exact map_modify_same (fun c : VariantCall => (c.m_row_idx, c.m_fields.length))
        (fun c => c.mark_initialized val) (fun _ => rfl) a.m_calls ci
    · cases h

theorem QueryOperation.operation_run_shape (op : QueryOperation) (a a1 : Variant)
    (h : op.run a = .ok a1) :
    a1.m_calls.map (fun c => (c.m_row_idx, c.m_fields.length))
      = a.m_calls.map (fun c => (c.m_row_idx, c.m_fields.length)) := by
  cases op with
  | populate step => exact PopulationStep.run_shape step a a1 h
  | reset_for_new_interval =>
    simp only [QueryOperation.run, Outcome.ok.injEq] at h
    subst h
    simp only [Variant.reset_for_new_interval, List.map_map]
    rfl

theorem run_operations_shape (ops : List QueryOperation) (a a1 : Variant)
    (h : run_operations ops a = .ok a1) :
    a1.m_calls.map (fun c => (c.m_row_idx, c.m_fields.length))
      = a.m_calls.map (fun c => (c.m_row_idx, c.m_fields.length)) := by
  induction ops generalizing a with
  | nil =>
    simp only [run_operations, Outcome.ok.injEq] at h
    subst h; rfl
  | cons op rest ih =>
    unfold run_operations at h
    cases hrun : op.run a with
    | ok a2 =>
      rw [hrun] at h
      rw [ih a2 h, QueryOperation.operation_run_shape op a a2 hrun]
    | assert_failed a2 => rw [hrun] at h; cases h

/-- C16: once `resize_based_on_query` has run, after any sequence of
successful `set_call_field`, `reset_for_new_interval`, `mark_valid`,
`mark_initialized` (on calls obtained by `get_call`) and `set_column_interval`
operations, the number of calls equals the configured row count, every call
has the configured number of slots, and the call at query row index `i`
carries the array row index the configuration maps `i` to. -/
theorem C16_shape_is_invariant (v0 v1 v2 : Variant) (U : Nat) (cfg : VariantQueryConfig)
    (hcfg : v0.m_query_config = some cfg) (hbk : cfg.is_bookkeeping_done = true)
    (hres : v0.resize_based_on_query U = .ok v1) (ops : List QueryOperation)
    (hrun : run_operations ops v1 = .ok v2) :
    v2.get_num_calls = cfg.get_num_rows_to_query
    ∧ (∀ c ∈ v2.m_calls, c.m_fields.length = cfg.get_num_queried_attributes)
    ∧ (∀ i, i < cfg.get_num_rows_to_query →
        (v2.m_calls[i]?).map VariantCall.get_row_idx
          = some (cfg.get_array_row_idx_for_query_row_idx i)) := by
  have hshape := run_operations_shape ops v1 v2 hrun
  rw [Variant.resize_based_on_query_eq v0 U cfg hcfg hbk] at hres
  simp only [Outcome.ok.injEq] at hres
  subst hres
  simp only [List.map_map] at hshape
  have hlen : v2.m_calls.length = cfg.get_num_rows_to_query := by
    have := congrArg List.length hshape
    simpa using this
  have hget : ∀ i, i < cfg.get_num_rows_to_query → ∀ c, v2.m_calls[i]? = some c →
      c.m_row_idx = cfg.get_array_row_idx_for_query_row_idx i
      ∧ c.m_fields.length = cfg.get_num_queried_attributes := by
    intro i hi c hc
    have h1 := congrArg (fun l => l[i]?) hshape
    simp only [List.getElem?_map, hc, Option.map_some', List.getElem?_range hi,
      Function.comp] at h1
    simp only [Option.some.injEq, Prod.mk.injEq] at h1
    simpa [VariantCall.set_row_idx, VariantCall.resize, length_vector_resize] using h1
  refine ⟨hlen, ?_, ?_⟩
  · intro c hc
    obtain ⟨i, hi⟩ := List.getElem?_of_mem hc
    have hlt : i < cfg.get_num_rows_to_query := by
      rw [← hlen]; exact (List.getElem?_eq_some_iff.mp hi).1
    exact (hget i hlt c hi).2
  · intro i hi
    have hlt : i < v2.m_calls.length := by rw [hlen]; exact hi
    rw [List.getElem?_eq_getElem hlt]
    simp only [Option.map_some', Option.some.injEq, VariantCall.get_row_idx]
    exact (hget i hi _ (List.getElem?_eq_getElem hlt)).1

/-- C16 at a concrete input: `example_resized`, populated, reset and marked again. -/
theorem C16_shape_is_invariant_witness :
    (Variant.ctor 0 (some example_config)).m_query_config = some example_config
    ∧ example_config.is_bookkeeping_done = true
    ∧ (Variant.ctor 0 (some example_config)).resize_based_on_query 0 = .ok example_resized
    ∧ run_operations example_operations example_resized
        = .ok (run_operations example_operations example_resized).state
    ∧ (run_operations example_operations example_resized).state.get_num_calls = 2
    ∧ (∀ c ∈ (run_operations example_operations example_resized).state.m_calls,
        c.m_fields.length = 2)
    ∧ (∀ i, i < 2 →
        ((run_operations example_operations example_resized).state.m_calls[i]?).map
          VariantCall.get_row_idx = some (10 + i)) :=
  ⟨rfl, rfl, rfl, rfl,
    C16_shape_is_invariant (Variant.ctor 0 (some example_config)) example_resized
      (run_operations example_operations example_resized).state 0 example_config rfl rfl rfl
      example_operations rfl⟩

/-! ## Failure and idempotence of resize_based_on_query -/

/-- C18: `resize_based_on_query` stops at a failed assertion exactly when the
Variant has no query configuration or the bookkeeping of its configuration is
not done; whenever it does not run to its end, the Variant at the failed
assertion is the Variant as it was: no call was allocated, resized or stamped. -/
theorem C18_resize_based_on_query_fails_iff (v : Variant) (U : Nat) :
    ((v.resize_based_on_query U).succeeded = false
      ↔ (v.m_query_config = none
          ∨ ∃ cfg, v.m_query_config = some cfg ∧ cfg.is_bookkeeping_done = false))
    ∧ ((v.resize_based_on_query U).succeeded = true
        ∨ v.resize_based_on_query U = .assert_failed v) := by
  cases hcfg : v.m_query_config with
  | none =>
    have e : v.resize_based_on_query U = .assert_failed v := by
      unfold Variant.resize_based_on_query; rw [hcfg]
    rw [e]
    exact ⟨by simp [Outcome.succeeded], Or.inr rfl⟩
  | some cfg =>
    cases hbk : cfg.is_bookkeeping_done with
    | false =>
      have e : v.resize_based_on_query U = .assert_failed v := by
        unfold Variant.resize_based_on_query; rw [hcfg]; simp [hbk]
      rw [e]
      exact ⟨by simp [Outcome.succeeded, hbk], Or.inr rfl⟩
    | true =>
      rw [Variant.resize_based_on_query_eq v U cfg hcfg hbk]
      refine ⟨?_, Or.inl rfl⟩
      simp only [Outcome.succeeded, Bool.true_eq_false, false_iff]
      rintro (h | ⟨cfg2, h1, h2⟩)
      · cases h
      · cases h1
        rw [hbk] at h2
        cases h2

theorem vector_resize_self {α : Type} (l : List α) (d : α) :
    vector_resize l l.length d = l := by
  simp [vector_resize]

theorem vector_resize_of_length {α : Type} (l : List α) (n : Nat) (d : α) (h : l.length = n) :
    vector_resize l n d = l := by
  rw [← h, vector_resize_self]

/-- C20: with a query configuration whose bookkeeping is done,
`resize_based_on_query` run a second time leaves the Variant exactly as the
first run left it; and on a Variant that already has the configured number of
calls and slots it keeps every slot, validity flag and initialized flag. -/
theorem C20_resize_based_on_query_idempotent (v : Variant) (U : Nat) (cfg : VariantQueryConfig)
    (hcfg : v.m_query_config = some cfg) (hbk : cfg.is_bookkeeping_done = true) :
    ∃ v1 : Variant, v.resize_based_on_query U = .ok v1
      ∧ v1.resize_based_on_query U = .ok v1
      ∧ (v.get_num_calls = cfg.get_num_rows_to_query →
          (∀ c ∈ v.m_calls, c.m_fields.length = cfg.get_num_queried_attributes) →
          ∀ i : Nat, (v1.m_calls[i]?).map
                (fun c : VariantCall => (c.m_fields, c.m_is_valid, c.m_is_initialized))
              = (v.m_calls[i]?).map
                (fun c : VariantCall => (c.m_fields, c.m_is_valid, c.m_is_initialized))) := by
  refine ⟨_, Variant.resize_based_on_query_eq v U cfg hcfg hbk, ?_, ?_⟩
  · have key : ∀ v1 : Variant, v1.m_query_config = some cfg →
        v1.m_calls = (List.range cfg.get_num_rows_to_query).map (fun j =>
          ((v.m_calls.getD j (VariantCall.default_ctor U)).resize
            cfg.get_num_queried_attributes).set_row_idx
              (cfg.get_array_row_idx_for_query_row_idx j)) →
        v1.resize_based_on_query U = .ok v1 := by
      intro v1 hc1 hcalls
      rw [Variant.resize_based_on_query_eq v1 U cfg hc1 hbk]
      have : (List.range cfg.get_num_rows_to_query).map (fun j =>
          ((v1.m_calls.getD j (VariantCall.default_ctor U)).resize
            cfg.get_num_queried_attributes).set_row_idx
              (cfg.get_array_row_idx_for_query_row_idx j)) = v1.m_calls := by
        conv_rhs => rw [hcalls]
        apply List.map_congr_left
        intro j hj
        have hj2 : j < cfg.get_num_rows_to_query := List.mem_range.mp hj
        rw [hcalls]
        simp only [List.getD_eq_getElem?_getD, List.getElem?_map, List.getElem?_range hj2,
          Option.map_some', Option.getD_some]
        simp only [VariantCall.resize, VariantCall.set_row_idx]
        congr 1
        have hl : (vector_resize ((v.m_calls[j]?).getD (VariantCall.default_ctor U)).m_fields
            cfg.get_num_queried_attributes none).length = cfg.get_num_queried_attributes :=
          length_vector_resize _ _ _
        exact vector_resize_of_length _ _ _ hl
      rw [this]
    exact key _ hcfg rfl
  · intro hn hslots i
    simp only [Variant.get_num_calls] at hn
    simp only [List.getElem?_map]
    by_cases hi : i < cfg.get_num_rows_to_query
    · have hi2 : i < v.m_calls.length := by rw [hn]; exact hi
      have hc : v.m_calls[i]? = some v.m_calls[i] := List.getElem?_eq_getElem hi2
      have hs := hslots _ (List.getElem_mem hi2)
      simp only [List.getElem?_range hi, Option.map_some', hc, List.getD_eq_getElem?_getD,
        Option.getD_some, Option.some.injEq, Prod.mk.injEq]
      refine ⟨?_, rfl, rfl⟩
      simp only [VariantCall.resize, VariantCall.set_row_idx]
      rw [← hs, vector_resize_self]
    · have h1 : (List.range cfg.get_num_rows_to_query)[i]? = none := by
        simp; omega
      have h2 : v.m_calls[i]? = none := by
        simp; omega
      simp [h1, h2]

/-- C20 at a concrete input: `example_resized` after `example_population`. -/
theorem C20_resize_based_on_query_idempotent_witness :
    (populate example_population example_resized).state.m_query_config = some example_config
    ∧ example_config.is_bookkeeping_done = true
    ∧ ∃ v1 : Variant,
        (populate example_population example_resized).state.resize_based_on_query 0 = .ok v1
      ∧ v1.resize_based_on_query 0 = .ok v1
      ∧ ((populate example_population example_resized).state.get_num_calls = 2 →
          (∀ c ∈ (populate example_population example_resized).state.m_calls,
            c.m_fields.length = 2) →
          ∀ i : Nat, (v1.m_calls[i]?).map
                (fun c : VariantCall => (c.m_fields, c.m_is_valid, c.m_is_initialized))
              = ((populate example_population example_resized).state.m_calls[i]?).map
                (fun c : VariantCall => (c.m_fields, c.m_is_valid, c.m_is_initialized))) :=
  ⟨rfl, rfl,
    C20_resize_based_on_query_idempotent (populate example_population example_resized).state 0
      example_config rfl rfl⟩

/-! ## CmpPQStruct as an ordering -/

/-- C19: `CmpPQStruct` is a strict weak ordering that looks at `m_end_point`
only: it is irreflexive and transitive, incomparability under it is
transitive, its value is fixed by the two end points, and two entries with
equal `m_end_point` are not ordered either way, whatever their other members. -/
theorem C19_cmp_strict_weak_ordering :
    (∀ x : PQStruct, CmpPQStruct x x = false)
    ∧ (∀ x y z : PQStruct, CmpPQStruct x y = true → CmpPQStruct y z = true →
        CmpPQStruct x z = true)
    ∧ (∀ x y z : PQStruct, CmpPQStruct x y = false ∧ CmpPQStruct y x = false →
        CmpPQStruct y z = false ∧ CmpPQStruct z y = false →
        CmpPQStruct x z = false ∧ CmpPQStruct z x = false)
    ∧ (∀ x y x1 y1 : PQStruct, x.m_end_point = x1.m_end_point →
        y.m_end_point = y1.m_end_point → CmpPQStruct x y = CmpPQStruct x1 y1)
    ∧ (∀ x y : PQStruct, x.m_end_point = y.m_end_point →
        CmpPQStruct x y = false ∧ CmpPQStruct y x = false) := by
  refine ⟨?_, ?_, ?_, ?_, ?_⟩
  · intro x
    simp [CmpPQStruct]
  · intro x y z hxy hyz
    simp only [CmpPQStruct, gt_iff_lt, decide_eq_true_eq] at *
    omega
  · intro x y z hxy hyz
    simp only [CmpPQStruct, gt_iff_lt, decide_eq_false_iff_not, not_lt] at *
    omega
  · intro x y x1 y1 hx hy
    simp only [CmpPQStruct, hx, hy]
  · intro x y h
    simp only [CmpPQStruct, gt_iff_lt, decide_eq_false_iff_not, not_lt]
    omega

/-! ## The iterator and print read the same calls -/

/-- The traversal from `begin()` yields the valid calls with their positions. -/
theorem Variant.traverse_eq_valid_calls (v : Variant) (fuel : Nat)
    (hfuel : v.m_calls.length < fuel) :
    v.traverse fuel = some (valid_calls_with_position v.m_calls) := by
  obtain ⟨skipped, rest, hs, hinv, hnorm, hrun⟩ :=
    ValidVariantCallIter.skip_invalid_spec v.m_calls [] 0
  simp only [List.nil_append, List.length_nil, Nat.zero_add] at hrun
  have hbegin : v.begin = some (ValidVariantCallIter.mk skipped.length v.m_calls.length
      skipped.length) := by
    unfold Variant.begin
    rw [ValidVariantCallIter.ctor_eq_skip_invalid, hrun]
  unfold Variant.traverse
  rw [hbegin]
  simp only []
  have hlen : rest.length < fuel := by
    have : v.m_calls.length = skipped.length + rest.length := by rw [hs]; simp
    omega
  rw [Variant.traverse_from_spec v fuel skipped rest hs hlen hnorm]
  unfold valid_calls_with_position List.enum
  rw [hs, valid_from_skip skipped rest 0 hinv]
  simp

/-- `VariantCall::print` writes the row id exactly for the calls that are
initialized and valid. -/
theorem VariantCall.writes_row_id_eq (c : VariantCall)
    (query_config : Option VariantQueryConfig) :
    c.writes_row_id query_config = (c.m_is_initialized && c.m_is_valid) := by
  unfold VariantCall.writes_row_id
  rw [VariantCall.print_appends_call_text]
  have hd : ("" ++ spec_call_text query_config c).data = (spec_call_text query_config c).data := by
    simp [String.data_append]
  rw [hd, spec_call_text_data]
  have hp : (" row : " ++ toString c.m_row_idx ++ ", ").data
      = [' ', 'r', 'o', 'w', ' ', ':', ' '] ++ ((toString c.m_row_idx).data ++ [',', ' ']) := by
    simp only [String.data_append]
    simp
  rw [hp]
  by_cases h : (c.m_is_initialized && c.m_is_valid) = true
  · rw [if_pos h, h, List.isPrefixOf_iff_prefix]
    refine ⟨(slots_text query_config (occupied_slots 0 c.m_fields)).data, ?_⟩
    simp
  · rw [if_neg h]
    rw [Bool.not_eq_true] at h
    rw [h]
    rfl

/-- Membership in the list of valid calls with their positions. -/
theorem mem_valid_calls_with_position (calls : List VariantCall) (c : VariantCall) (i : Nat) :
    (c, i) ∈ valid_calls_with_position calls ↔ calls[i]? = some c ∧ c.is_valid = true := by
  unfold valid_calls_with_position
  simp only [List.mem_map, List.mem_filter, Prod.exists, Prod.mk.injEq]
  constructor
  · rintro ⟨a, b, ⟨hm, hv⟩, rfl, rfl⟩
    exact ⟨(List.mk_mem_enum_iff_getElem? ).mp hm, hv⟩
  · rintro ⟨hm, hv⟩
    exact ⟨i, c, ⟨(List.mk_mem_enum_iff_getElem? ).mpr hm, hv⟩, rfl, rfl⟩

/-- Membership in the list of printed calls with their positions. -/
theorem mem_printed_calls_with_position (query_config : Option VariantQueryConfig)
    (calls : List VariantCall) (c : VariantCall) (i : Nat) :
    (c, i) ∈ printed_calls_with_position query_config calls
      ↔ calls[i]? = some c ∧ (c.m_is_initialized && c.m_is_valid) = true := by
  unfold printed_calls_with_position
  simp only [List.mem_map, List.mem_filter, Prod.exists, Prod.mk.injEq,
    VariantCall.writes_row_id_eq]
  constructor
  · rintro ⟨a, b, ⟨hm, hv⟩, rfl, rfl⟩
    exact ⟨(List.mk_mem_enum_iff_getElem? ).mp hm, hv⟩
  · rintro ⟨hm, hv⟩
    exact ⟨i, c, ⟨(List.mk_mem_enum_iff_getElem? ).mpr hm, hv⟩, rfl, rfl⟩

/-- C21: with more loop tests allowed than there are calls, the traversal by
`ValidVariantCallIter` yields exactly the calls for which `VariantCall::print`
writes a row id, at the same query row indices, if and only if every valid
call of the Variant is also initialized; the iterator yields the calls with
`is_valid()`, print writes a row id for the calls that are initialized and
valid. -/
theorem C21_iterator_and_print_agree (v : Variant) (fuel : Nat)
    (hfuel : v.m_calls.length < fuel) :
    ((∀ c ∈ v.m_calls, c.is_valid = true → c.is_initialized = true)
      ↔ v.traverse fuel = some (printed_calls_with_position v.m_query_config v.m_calls))
    ∧ (∀ (c : VariantCall) (i : Nat), (∃ l, v.traverse fuel = some l ∧ (c, i) ∈ l)
        ↔ v.m_calls[i]? = some c ∧ c.is_valid = true)
    ∧ (∀ (c : VariantCall) (i : Nat),
        (c, i) ∈ printed_calls_with_position v.m_query_config v.m_calls
          ↔ v.m_calls[i]? = some c ∧ c.is_initialized = true ∧ c.is_valid = true) := by
  have ht := Variant.traverse_eq_valid_calls v fuel hfuel
  refine ⟨?_, ?_, ?_⟩
  · rw [ht]
    constructor
    · intro h
      congr 1
      unfold valid_calls_with_position printed_calls_with_position
      congr 1
      apply List.filter_congr
      intro p hp
      have hm : p.2 ∈ v.m_calls := by
        have h1 : (p.1, p.2) ∈ v.m_calls.enum := hp
        exact List.getElem?_mem ((List.mk_mem_enum_iff_getElem? ).mp h1)
      rw [VariantCall.writes_row_id_eq]
      cases hv : p.2.is_valid with
      | false =>
        have : p.2.m_is_valid = false := hv
        simp [this]
      | true =>
        have h1 : p.2.m_is_initialized = true := h p.2 hm hv
        have h2 : p.2.m_is_valid = true := hv
        simp [h1, h2]
    · intro h c hc hv
      obtain ⟨i, hi⟩ := List.getElem?_of_mem hc
      have h1 : (c, i) ∈ valid_calls_with_position v.m_calls :=
        (mem_valid_calls_with_position v.m_calls c i).mpr ⟨hi, hv⟩
      rw [Option.some.inj h] at h1
      have h2 := ((mem_printed_calls_with_position v.m_query_config v.m_calls c i).mp h1).2
      simp only [Bool.and_eq_true] at h2
      exact h2.1
  · intro c i
    rw [ht]
    constructor
    · rintro ⟨l, hl, hm⟩
      rw [← Option.some.inj hl] at hm
      exact (mem_valid_calls_with_position v.m_calls c i).mp hm
    · intro h
      exact ⟨_, rfl, (mem_valid_calls_with_position v.m_calls c i).mpr h⟩
  · intro c i
    rw [mem_printed_calls_with_position]
    simp only [Bool.and_eq_true, VariantCall.is_initialized, VariantCall.is_valid]

/-- C21 at concrete inputs: a Variant whose valid call is initialized, where
the traversal yields the printed call at position 1, and a Variant with a
valid call that is not initialized, where the two readers differ. -/
theorem C21_iterator_and_print_agree_witness :
    example_source_with_gap.m_calls.length < 3
    ∧ example_source_with_gap.traverse 3 = some [(example_call, 1)]
    ∧ printed_calls_with_position none example_source_with_gap.m_calls = [(example_call, 1)]
    ∧ example_source_with_other_gap.m_calls.length < 3
    ∧ example_source_with_other_gap.traverse 3
        ≠ some (printed_calls_with_position example_source_with_other_gap.m_query_config
            example_source_with_other_gap.m_calls) :=
  ⟨by decide,
    (C21_iterator_and_print_agree example_source_with_gap 3 (by decide)).1.mp (by decide),
    by decide, by decide,
    fun h => absurd ((C21_iterator_and_print_agree example_source_with_other_gap 3
      (by decide)).1.mpr h) (by decide)⟩

/-! ## Position 0 in the configuration check -/

/-- C22: with a workspace and an array name given, no positions list open and
no scan flag, `main` rejects the configuration as missing when `m_position`
is 0 (error message, exit status -1, no other call), and for every other
`m_position` it runs the single point query at that position; so no run of
this kind makes the point query at column 0. -/
theorem C22_position_zero_is_no_position (cl : CommandLineOpts) (S fuel : Nat)
    (workspace array_name : String)
    (hw : cl.m_workspace = some workspace) (ha : cl.m_array_name = some array_name)
    (hlist : cl.m_positions_list = none) (hscan : cl.m_do_scan = false) :
    (cl.m_position = 0 →
      main cl S fuel
        = some [DriverEvent.report_error "Missing workspace|[position or scan]|array_name\n",
            DriverEvent.exit (-1)])
    ∧ (cl.m_position ≠ 0 →
        main cl S fuel
          = some ([DriverEvent.create_storage_manager workspace none,
                DriverEvent.open_array array_name,
                DriverEvent.create_storage_manager workspace
                  (some (if 40000 > S then S else 40000)),
                DriverEvent.open_array array_name, DriverEvent.create_query_processor,
                DriverEvent.point_query cl.m_position]
              ++ [DriverEvent.close_array] ++ main_epilogue cl))
    ∧ (∀ trace, main cl S fuel = some trace → DriverEvent.point_query 0 ∉ trace) := by
  have h0 : cl.m_position = 0 →
      main cl S fuel
        = some [DriverEvent.report_error "Missing workspace|[position or scan]|array_name\n",
            DriverEvent.exit (-1)] :=
    fun hp => main_rejects_missing_configuration cl S fuel (Or.inr (Or.inr ⟨hp, hlist, hscan⟩))
  have h1 : cl.m_position ≠ 0 →
      main cl S fuel
        = some ([DriverEvent.create_storage_manager workspace none,
              DriverEvent.open_array array_name,
              DriverEvent.create_storage_manager workspace
                (some (if 40000 > S then S else 40000)),
              DriverEvent.open_array array_name, DriverEvent.create_query_processor,
              DriverEvent.point_query cl.m_position]
            ++ [DriverEvent.close_array] ++ main_epilogue cl) := by
    intro hpos
    unfold main
    simp [missing_configuration, hw, ha, hscan, hlist, hpos]
  refine ⟨h0, h1, ?_⟩
  intro trace ht hm
  by_cases hp : cl.m_position = 0
  · rw [h0 hp] at ht
    rw [← Option.some.inj ht] at hm
    simp at hm
  · rw [h1 hp] at ht
    rw [← Option.some.inj ht] at hm
    simp only [main_epilogue, hlist, List.mem_append, List.mem_cons, List.mem_singleton,
      List.not_mem_nil, or_false, false_or, DriverEvent.point_query.injEq] at hm
    rcases hm with hm | hm
    · rcases hm with hm | hm
      · rcases hm with hm | hm | hm | hm | hm | hm
        · cases hm
        · cases hm
        · cases hm
        · cases hm
        · cases hm
        · exact hp hm.symm
      · cases hm
    · split at hm <;> simp at hm

/-- C22 at concrete inputs: position 0 is rejected, position 5 is queried. -/
theorem C22_position_zero_is_no_position_witness :
    example_options_position_zero.m_workspace = some "ws"
    ∧ example_options_position_zero.m_array_name = some "gvcf"
    ∧ example_options_position_zero.m_positions_list = none
    ∧ example_options_position_zero.m_do_scan = false
    ∧ example_options_position_zero.m_position = 0
    ∧ main example_options_position_zero 1000 5
        = some [DriverEvent.report_error "Missing workspace|[position or scan]|array_name\n",
            DriverEvent.exit (-1)]
    ∧ main { example_options_position_zero with m_position := 5 } 1000 5
        = some [DriverEvent.create_storage_manager "ws" none, DriverEvent.open_array "gvcf",
            DriverEvent.create_storage_manager "ws" (some 1000), DriverEvent.open_array "gvcf",
            DriverEvent.create_query_processor, DriverEvent.point_query 5,
            DriverEvent.close_array, DriverEvent.close_array,
            DriverEvent.return_from_main 0] :=
  ⟨rfl, rfl, rfl, rfl, rfl,
    (C22_position_zero_is_no_position example_options_position_zero 1000 5 "ws" "gvcf"
      rfl rfl rfl rfl).1 rfl,
    (C22_position_zero_is_no_position { example_options_position_zero with m_position := 5 }
      1000 5 "ws" "gvcf" rfl rfl rfl rfl).2.1 (by decide)⟩

end GenomisDB
